import Mathlib

/-!
# coia: rendering and normalising an alias

A shallow embedding of `coia.go` (package `coia`): the three resource tables,
the four precompiled regular expressions, `normalizeUnicode` and `CreateAlias`.

Modelling conventions.

* A Go `string` is modelled by the list of its code points (`GoString`); the
  inputs are taken to be valid UTF-8, so the byte-level treatment of broken
  encodings is outside the model.  `len` is the UTF-8 byte length.
* The Unicode services the program imports (`norm.NFKC`, `strings.ToLower`,
  the general-category tables behind `\p{..}` of package `regexp`) are not part
  of the repository.  They are a parameter `U : UnicodeData` of every
  definition that uses them, and the general theorems hold for every `U`.
  Facts of the Unicode Character Database that a theorem needs are collected in
  `UnicodeData.Standard`, `UnicodeData.StandardAscii` (Basic Latin) and
  `UnicodeData.StandardNfkc` (the form NFKC at digits, the space and the
  connector letters of the templates).  A concrete database `refUnicode`,
  restricted to a small repertoire, is used to evaluate the program at concrete
  inputs; it has the three properties.
* The regular expressions are read with the semantics of Go's `regexp`
  (RE2 syntax): `\s` is `[\t\n\f\r ]`, `\d` is `[0-9]`, `^` and `$` match at
  the ends of the text only, and `\p{Cn}` is the class of unassigned code
  points.  The class name `Cn` is known to `regexp` from Go 1.25 on; with an
  older library `MustCompile` panics when the package is loaded, and the
  embedding describes the program whose four patterns compile.
* `norm.NFKC` is taken as a function on code point sequences.  (The library
  also puts a combining grapheme joiner into runs of more than thirty
  non-starters; a parameter `U.nfkc` covers that as well.)
* `fmt.Errorf` values are modelled by the constructors of `AliasError`, one
  per message of the source.
-/

namespace Coia

/-! ## Strings -/

/-- A Go string that holds valid UTF-8, as the list of its code points. -/
abbrev GoString := List Char

/-- Go's `len(s)`: the number of bytes of the UTF-8 encoding of `s`. -/
def len (s : GoString) : Nat := (s.map Char.utf8Size).sum

/-- Go's `unicode.IsSpace`: the code points with the White_Space property. -/
def isSpace (c : Char) : Bool :=
  let n := c.toNat
  (0x09 ≤ n && n ≤ 0x0D) || n == 0x20 || n == 0x85 || n == 0xA0 || n == 0x1680 ||
  (0x2000 ≤ n && n ≤ 0x200A) || n == 0x2028 || n == 0x2029 || n == 0x202F ||
  n == 0x205F || n == 0x3000

/-- Go's `strings.TrimSpace`: drops the leading and the trailing white space. -/
def TrimSpace (s : GoString) : GoString := (s.dropWhile isSpace).rdropWhile isSpace

/-- Worker of `ReplaceAll`: `skip` counts the code points of a matched
occurrence that are still to be passed over. -/
def replaceAllAux (old new : GoString) : Nat → GoString → GoString
  | _, [] => []
  | skip + 1, _ :: cs => replaceAllAux old new skip cs
  | 0, c :: cs =>
    if old.isPrefixOf (c :: cs) then new ++ replaceAllAux old new (old.length - 1) cs
    else c :: replaceAllAux old new 0 cs

/-- Go's `strings.ReplaceAll(s, old, new)`: the non-overlapping occurrences of
`old`, found from left to right, are replaced by `new`; an empty `old` matches
before every code point and at the end. -/
def ReplaceAll (s old new : GoString) : GoString :=
  if old.isEmpty then new ++ s.flatMap (fun c => c :: new)
  else replaceAllAux old new 0 s

/-- The digits of `flags` in ascending order: `strings.Split(flags, "")`,
`sort.Strings`, `strings.Join(digits, "")`.  The pieces are single code points,
and the byte order of their encodings is the order of the code points. -/
def sortedDigits (flags : GoString) : GoString :=
  flags.insertionSort (fun a b => a.toNat ≤ b.toNat)

/-! ## Unicode services -/

/-- The general categories of the Unicode Character Database. -/
inductive GeneralCategory
  | Lu | Ll | Lt | Lm | Lo | Mn | Mc | Me | Nd | Nl | No
  | Pc | Pd | Ps | Pe | Pi | Pf | Po | Sm | Sc | Sk | So
  | Zs | Zl | Zp | Cc | Cf | Cs | Co | Cn
  deriving DecidableEq, Repr

/-- The Unicode services the program calls: `norm.NFKC.String`, the rune map
`unicode.ToLower` behind `strings.ToLower`, and the general category of a code
point, which decides the `\p{..}` classes of the regular expressions. -/
structure UnicodeData where
  nfkc : GoString → GoString
  toLower : Char → Char
  category : Char → GeneralCategory

/-- Go's `strings.ToLower`: every code point is mapped by `unicode.ToLower`. -/
def ToLower (U : UnicodeData) (s : GoString) : GoString := s.map U.toLower

/-! ## The precompiled regular expressions -/

/-- The characters listed one by one in the class of `punctToSpacePattern`. -/
def punctLiterals : List Char := "&﹠＆.,‚،․。﹒．｡'’‘‚‛＇".toList

/-- The categories named in the class of `punctToSpacePattern`. -/
def punctToSpaceCategories : List GeneralCategory := [.Pd, .Pi, .Pf, .Ps, .Pe]

/-- The class of `punctToSpacePattern`:
`[\p{Pd}\p{Pi}\p{Pf}\p{Ps}\p{Pe}&﹠＆.,‚،․。﹒．｡'’‘‚‛＇]`. -/
def punctToSpacePattern (U : UnicodeData) (c : Char) : Bool :=
  punctToSpaceCategories.contains (U.category c) || punctLiterals.contains c

/-- The class `\s` of `whitespacePattern` and `stripWSEdges`: `[\t\n\f\r ]`. -/
def whitespacePattern (c : Char) : Bool :=
  c == '\t' || c == '\n' || c == '\x0c' || c == '\r' || c == ' '

/-- The categories named in the class of `disallowedPattern`; `\p{P}` and
`\p{M}` stand for all the punctuation and all the mark categories. -/
def disallowedCategories : List GeneralCategory :=
  [.Cc, .Cf, .Cs, .Co, .Cn, .So, .Sm, .Sc, .Sk,
   .Pc, .Pd, .Ps, .Pe, .Pi, .Pf, .Po, .Mn, .Mc, .Me]

/-- The class of `disallowedPattern`:
`[\p{Cc}\p{Cf}\p{Cs}\p{Co}\p{Cn}\p{So}\p{Sm}\p{Sc}\p{Sk}\p{P}\p{M}]`. -/
def disallowedPattern (U : UnicodeData) (c : Char) : Bool :=
  disallowedCategories.contains (U.category c)

/-- Facts of the Unicode Character Database about the services: the hyphen is a
dash (Pd) and the space a space separator (Zs), every character listed in
`punctToSpacePattern` is a punctuation mark, and lower-casing changes neither
the hyphen nor a letter that is already the lower case of one. -/
structure UnicodeData.Standard (U : UnicodeData) : Prop where
  category_hyphen : U.category '-' = .Pd
  category_space : U.category ' ' = .Zs
  category_punctLiterals : ∀ c ∈ punctLiterals,
    U.category c ∈ [GeneralCategory.Pc, .Pd, .Ps, .Pe, .Pi, .Pf, .Po]
  toLower_hyphen : U.toLower '-' = '-'
  toLower_toLower : ∀ c, U.toLower (U.toLower c) = U.toLower c

/-- `re.ReplaceAllString(s, repl)` for a pattern `[cls]` that is one character
class: every code point of the class is replaced by `repl`. -/
def replaceClass (cls : Char → Bool) (repl : GoString) (s : GoString) : GoString :=
  s.flatMap (fun c => if cls c then repl else [c])

/-- Worker of `replaceRuns`: `inRun` tells that the code point before the
current one belongs to the class, so the current run is already replaced. -/
def replaceRunsAux (cls : Char → Bool) (repl : GoString) : Bool → GoString → GoString
  | _, [] => []
  | inRun, c :: cs =>
    if cls c then
      if inRun then replaceRunsAux cls repl true cs
      else repl ++ replaceRunsAux cls repl true cs
    else c :: replaceRunsAux cls repl false cs

/-- `re.ReplaceAllString(s, repl)` for a pattern `[cls]+`: every maximal run of
code points of the class is replaced by one `repl`. -/
def replaceRuns (cls : Char → Bool) (repl : GoString) (s : GoString) : GoString :=
  replaceRunsAux cls repl false s

/-- `stripWSEdges.ReplaceAllString(s, "")` for the pattern `^\s+|\s+$`: the run
of `\s` at the start of the text and the run at its end are deleted. -/
def stripEdges (s : GoString) : GoString :=
  (s.dropWhile whitespacePattern).rdropWhile whitespacePattern

/-- `regexp.MustCompile("^\d+$").MatchString(flags)`: one or more ASCII digits
and nothing else. -/
def allDigits (flags : GoString) : Bool :=
  !flags.isEmpty && flags.all (fun c => 0x30 ≤ c.toNat && c.toNat ≤ 0x39)

/-! ## `normalizeUnicode` -/

/-- The function `normalizeUnicode` of the source, step by step. -/
def normalizeUnicode (U : UnicodeData) (s : GoString) : GoString :=
  -- 1. NFKC normalization
  let s := U.nfkc s
  -- 2. lowercase
  let s := ToLower U s
  -- 3. replace selected punctuators with space
  let s := replaceClass (punctToSpacePattern U) " ".toList s
  -- 4. strip leading/trailing whitespace
  let s := stripEdges s
  -- 5. delete disallowed characters
  let s := replaceClass (disallowedPattern U) [] s
  -- 6. collapse whitespace into single ASCII hyphen
  replaceRuns whitespacePattern "-".toList s

/-! ## The resource tables -/

/-- The constant `ME_AS_ARG`. -/
def ME_AS_ARG : GoString := "".toList

/-- The map `pronounTranslations`. -/
def pronounTranslations : List (GoString × GoString) :=
  [("en".toList, "me".toList),
   ("fr".toList, "moi".toList),
   ("es".toList, "yo".toList),
   ("de".toList, "ich".toList),
   ("pt".toList, "eu".toList),
   ("ja".toList, "私".toList),
   ("zh".toList, "我".toList),
   ("ko".toList, "나".toList),
   ("ar".toList, "أنا".toList),
   ("he".toList, "אני".toList),
   ("ru".toList, "я".toList)]

/-- The map `templates`. -/
def templates : List (GoString × GoString) :=
  [("en".toList, "{flags}{who} as {role}{scope}".toList),
   ("fr".toList, "{flags}{who} comme {role}{scope}".toList),
   ("es".toList, "{flags}{who} como {role}{scope}".toList),
   ("de".toList, "{flags}{who} als {role}{scope}".toList),
   ("pt".toList, "{flags}{who} como {role}{scope}".toList),
   ("ja".toList, "{flags}{who}として{role}{scope}".toList),
   ("zh".toList, "{flags}{who}作为{role}{scope}".toList),
   ("ko".toList, "{flags}{who}로서{role}{scope}".toList),
   ("ar".toList, "{flags}{who} بصفتي {role}{scope}".toList),
   ("he".toList, "{flags}{who} בתור {role}{scope}".toList),
   ("ru".toList, "{flags}{who} как {role}{scope}".toList)]

/-- The map `scopeTemplates`. -/
def scopeTemplates : List (GoString × GoString) :=
  [("en".toList, " at {org}".toList),
   ("fr".toList, " à {org}".toList),
   ("es".toList, " en {org}".toList),
   ("de".toList, " bei {org}".toList),
   ("pt".toList, " na {org}".toList),
   ("ja".toList, "に-{org}".toList),
   ("zh".toList, "在-{org}".toList),
   ("ko".toList, "-{org}".toList),
   ("ar".toList, " في {org}".toList),
   ("he".toList, " ב{org}".toList),
   ("ru".toList, " в {org}".toList)]

/-! ## `CreateAlias` -/

deriving instance DecidableEq for Except

/-- The errors `CreateAlias` returns, one constructor per `fmt.Errorf` of the
source, named after the error kinds of the specification. -/
inductive AliasError
  /-- "role cannot be empty" -/
  | EmptyRole
  /-- "flags must be all digits or empty" -/
  | InvalidFlags
  /-- "flags must be at most 10 characters" -/
  | FlagsTooLong
  /-- "no translation for 'me' in language %s" -/
  | UnsupportedLanguagePronoun (lang : GoString)
  /-- "no scope template for language %s" -/
  | UnsupportedLanguageScope (lang : GoString)
  /-- "no template for language %s" -/
  | UnsupportedLanguage (lang : GoString)
  deriving DecidableEq, Repr

/-- The values that `CreateAlias` interpolates: the sentence template and the
four texts put in the place of its placeholders. -/
structure Segments where
  template : GoString
  flags : GoString
  who : GoString
  role : GoString
  scope : GoString
  deriving DecidableEq, Repr

/-- The first part of `CreateAlias`, up to the selection of the template:
trimming, the three validations, the pronoun in the place of an empty `who`,
the sorted flags, the scope segment and the template.  Every `return "", err`
of the source is an `Except.error`, and the statements after it run only when
it is not taken. -/
def prepare (lang flags who role scope : GoString) : Except AliasError Segments :=
  let flags := TrimSpace flags
  let who := TrimSpace who
  let role := TrimSpace role
  let scope := TrimSpace scope
  if role = "".toList then
    .error .EmptyRole
  else if flags ≠ "".toList ∧ !allDigits flags then
    .error .InvalidFlags
  else if len flags > 10 then
    .error .FlagsTooLong
  else
    -- Substitute ME with language-specific pronoun
    let substituted : Except AliasError GoString :=
      if who = ME_AS_ARG then
        match pronounTranslations.lookup lang with
        | none => .error (.UnsupportedLanguagePronoun lang)
        | some pronoun => .ok pronoun
      else .ok who
    substituted.bind fun who =>
    -- Process flags: sort digits
    let flags := if flags ≠ "".toList then sortedDigits flags ++ " ".toList else flags
    -- Process scope
    let attached : Except AliasError GoString :=
      if scope ≠ "".toList then
        match scopeTemplates.lookup lang with
        | none => .error (.UnsupportedLanguageScope lang)
        | some scopeTemplate =>
          .ok (" ".toList ++ ReplaceAll scopeTemplate "{org}".toList scope)
      else .ok scope
    attached.bind fun scope =>
    -- Select template
    match templates.lookup lang with
    | none => .error (.UnsupportedLanguage lang)
    | some template => .ok ⟨template, flags, who, role, scope⟩

/-- The interpolation of `CreateAlias`: four `strings.ReplaceAll` calls, one
after the other, for `{flags}`, `{who}`, `{role}` and `{scope}`. -/
def interpolate (c : Segments) : GoString :=
  let result := ReplaceAll c.template "{flags}".toList c.flags
  let result := ReplaceAll result "{who}".toList c.who
  let result := ReplaceAll result "{role}".toList c.role
  ReplaceAll result "{scope}".toList c.scope

/-- The sentence `CreateAlias` hands to `normalizeUnicode`. -/
def renderSentence (lang flags who role scope : GoString) : Except AliasError GoString :=
  (prepare lang flags who role scope).map interpolate

/-- The function `CreateAlias` of the source: the sentence is rendered and then
normalized. -/
def CreateAlias (U : UnicodeData) (lang flags who role scope : GoString) :
    Except AliasError GoString :=
  (renderSentence lang flags who role scope).map (normalizeUnicode U)

/-! ## Notions used by the statements -/

/-- The eleven language codes the resource tables are shipped with. -/
def shippedLanguages : List GoString :=
  ["en".toList, "fr".toList, "es".toList, "de".toList, "pt".toList, "ja".toList,
   "zh".toList, "ko".toList, "ar".toList, "he".toList, "ru".toList]

/-- The ASCII decimal digits. -/
def asciiDigits : List Char := "0123456789".toList

/-! ## Interpolation as the specification words it -/

/-- The four placeholders of a sentence template, each with the text that
`CreateAlias` puts in its place. -/
def placeholders (c : Segments) : List (GoString × GoString) :=
  [("{flags}".toList, c.flags), ("{who}".toList, c.who),
   ("{role}".toList, c.role), ("{scope}".toList, c.scope)]

/-- Substitution of the placeholders one after the other, in the order of the
list `order`: the interpolation of the source is the case
`order = placeholders c`. -/
def interpolateInOrder (order : List (GoString × GoString)) (template : GoString) :
    GoString :=
  order.foldl (fun result p => ReplaceAll result p.1 p.2) template

/-- Worker of `substituteAtOnce`: `skip` counts the code points of a placeholder
that are still to be passed over. -/
def substituteAtOnceAux (bindings : List (GoString × GoString)) :
    Nat → GoString → GoString
  | _, [] => []
  | skip + 1, _ :: cs => substituteAtOnceAux bindings skip cs
  | 0, c :: cs =>
    match bindings.find? (fun p => !p.1.isEmpty && p.1.isPrefixOf (c :: cs)) with
    | some p => p.2 ++ substituteAtOnceAux bindings (p.1.length - 1) cs
    | none => c :: substituteAtOnceAux bindings 0 cs

/-- Simultaneous substitution: one pass over the template, in which every
placeholder met is replaced by its text and the text put in is not read
again. -/
def substituteAtOnce (bindings : List (GoString × GoString)) (template : GoString) :
    GoString :=
  substituteAtOnceAux bindings 0 template

/-- A text has no two hyphens in a row. -/
def NoDoubleHyphen (s : GoString) : Prop :=
  List.Chain' (fun a b => ¬ (a = '-' ∧ b = '-')) s

/-- The connector of a sentence template: what stands between `{flags}{who}`
and `{role}{scope}`. -/
def connector (template : GoString) : GoString :=
  (template.drop 12).take (template.length - 25)

/-- The sentence of a template with the connector `mid` in which the
placeholders marked `true` are already filled with the texts of `c`. -/
def partialSentence (mid : GoString) (c : Segments) (b1 b2 b3 b4 : Bool) : GoString :=
  (if b1 then c.flags else "{flags}".toList) ++
    ((if b2 then c.who else "{who}".toList) ++
      (mid ++
        ((if b3 then c.role else "{role}".toList) ++
          (if b4 then c.scope else "{scope}".toList))))

/-- The texts `old` and `x` differ at a position that both have. -/
def differWithin : GoString → GoString → Bool
  | a :: as, b :: bs => a != b || differWithin as bs
  | _, _ => false

/-- No occurrence of `old` starts inside `x`, whatever follows `x`. -/
def inertFor (old : GoString) : GoString → Bool
  | [] => true
  | c :: t => differWithin old (c :: t) && inertFor old t

/-! ## A reference Unicode database

`refUnicode` implements the three services over a small repertoire: Basic Latin
and Latin-1 Supplement (U+0000 to U+00FF), the combining marks and letters that
their decompositions mention, the conjoining Hangul jamo and the Hangul
syllables, the letters and punctuation marks that occur in the resource tables
and in `punctToSpacePattern`, and U+1680, U+2014, U+2028, U+2122, U+FF0C.  The
records are those of the Unicode Character Database; a code point outside the
repertoire is unassigned (category Cn, no mapping, no decomposition).
Normalisation is the algorithm of UAX #15: full compatibility decomposition,
canonical ordering, canonical composition. -/

open GeneralCategory in
/-- General categories of the reference repertoire, by ranges of code points. -/
def refCategories : List (Nat × Nat × GeneralCategory) :=
  [(0x0000, 0x001F, Cc), (0x0020, 0x0020, Zs), (0x0021, 0x0023, Po),
   (0x0024, 0x0024, Sc), (0x0025, 0x0027, Po), (0x0028, 0x0028, Ps),
   (0x0029, 0x0029, Pe), (0x002A, 0x002A, Po), (0x002B, 0x002B, Sm),
   (0x002C, 0x002C, Po), (0x002D, 0x002D, Pd), (0x002E, 0x002F, Po),
   (0x0030, 0x0039, Nd), (0x003A, 0x003B, Po), (0x003C, 0x003E, Sm),
   (0x003F, 0x0040, Po), (0x0041, 0x005A, Lu), (0x005B, 0x005B, Ps),
   (0x005C, 0x005C, Po), (0x005D, 0x005D, Pe), (0x005E, 0x005E, Sk),
   (0x005F, 0x005F, Pc), (0x0060, 0x0060, Sk), (0x0061, 0x007A, Ll),
   (0x007B, 0x007B, Ps), (0x007C, 0x007C, Sm), (0x007D, 0x007D, Pe),
   (0x007E, 0x007E, Sm), (0x007F, 0x009F, Cc), (0x00A0, 0x00A0, Zs),
   (0x00A1, 0x00A1, Po), (0x00A2, 0x00A5, Sc), (0x00A6, 0x00A6, So),
   (0x00A7, 0x00A7, Po), (0x00A8, 0x00A8, Sk), (0x00A9, 0x00A9, So),
   (0x00AA, 0x00AA, Lo), (0x00AB, 0x00AB, Pi), (0x00AC, 0x00AC, Sm),
   (0x00AD, 0x00AD, Cf), (0x00AE, 0x00AE, So), (0x00AF, 0x00AF, Sk),
   (0x00B0, 0x00B0, So), (0x00B1, 0x00B1, Sm), (0x00B2, 0x00B3, No),
   (0x00B4, 0x00B4, Sk), (0x00B5, 0x00B5, Ll), (0x00B6, 0x00B7, Po),
   (0x00B8, 0x00B8, Sk), (0x00B9, 0x00B9, No), (0x00BA, 0x00BA, Lo),
   (0x00BB, 0x00BB, Pf), (0x00BC, 0x00BE, No), (0x00BF, 0x00BF, Po),
   (0x00C0, 0x00D6, Lu), (0x00D7, 0x00D7, Sm), (0x00D8, 0x00DE, Lu),
   (0x00DF, 0x00F6, Ll), (0x00F7, 0x00F7, Sm), (0x00F8, 0x00FF, Ll),
   (0x0300, 0x0304, Mn), (0x0308, 0x0308, Mn), (0x030A, 0x030A, Mn),
   (0x0327, 0x0327, Mn), (0x03BC, 0x03BC, Ll), (0x0430, 0x0430, Ll),
   (0x0432, 0x0432, Ll), (0x043A, 0x043A, Ll), (0x044F, 0x044F, Ll),
   (0x05D0, 0x05D1, Lo), (0x05D5, 0x05D5, Lo), (0x05D9, 0x05D9, Lo),
   (0x05E0, 0x05E0, Lo), (0x05E8, 0x05E8, Lo), (0x05EA, 0x05EA, Lo),
   (0x060C, 0x060C, Po), (0x0623, 0x0623, Lo), (0x0627, 0x0628, Lo),
   (0x062A, 0x062A, Lo), (0x0635, 0x0635, Lo), (0x0641, 0x0641, Lo),
   (0x0646, 0x0646, Lo), (0x064A, 0x064A, Lo), (0x0654, 0x0654, Mn),
   (0x1100, 0x1112, Lo), (0x1161, 0x1175, Lo), (0x11A8, 0x11C2, Lo),
   (0x1680, 0x1680, Zs), (0x2014, 0x2014, Pd), (0x2018, 0x2018, Pi),
   (0x2019, 0x2019, Pf), (0x201A, 0x201A, Ps), (0x201B, 0x201B, Pi),
   (0x2024, 0x2024, Po), (0x2028, 0x2028, Zl), (0x2044, 0x2044, Sm),
   (0x2122, 0x2122, So), (0x3002, 0x3002, Po), (0x3057, 0x3057, Lo),
   (0x3066, 0x3066, Lo), (0x3068, 0x3068, Lo), (0x306B, 0x306B, Lo),
   (0x4E3A, 0x4E3A, Lo), (0x4F5C, 0x4F5C, Lo), (0x5728, 0x5728, Lo),
   (0x6211, 0x6211, Lo), (0x79C1, 0x79C1, Lo), (0xAC00, 0xD7A3, Lo),
   (0xFE52, 0xFE52, Po), (0xFE60, 0xFE60, Po), (0xFF06, 0xFF07, Po),
   (0xFF0C, 0xFF0C, Po), (0xFF0E, 0xFF0E, Po), (0xFF61, 0xFF61, Po)]

/-- Lower-case mappings of the reference repertoire: first and last code point
of a range and the distance to the lower-case letter. -/
def refLowercase : List (Nat × Nat × Nat) :=
  [(0x0041, 0x005A, 32), (0x00C0, 0x00D6, 32), (0x00D8, 0x00DE, 32)]

/-- Canonical combining classes of the reference repertoire that are not 0. -/
def refCombining : List (Nat × Nat) :=
  [(0x0300, 230), (0x0301, 230), (0x0302, 230), (0x0303, 230), (0x0304, 230), (0x0308, 230), (0x030A, 230), (0x0327, 202), (0x0654, 230)]

/-- Full compatibility decompositions of the reference repertoire (the Hangul
syllables are decomposed by arithmetic). -/
def refDecompositions : List (Nat × List Nat) :=
  [(0x00A0, [0x0020]), (0x00A8, [0x0020, 0x0308]), (0x00AA, [0x0061]),
   (0x00AF, [0x0020, 0x0304]), (0x00B2, [0x0032]), (0x00B3, [0x0033]),
   (0x00B4, [0x0020, 0x0301]), (0x00B5, [0x03BC]), (0x00B8, [0x0020, 0x0327]),
   (0x00B9, [0x0031]), (0x00BA, [0x006F]), (0x00BC, [0x0031, 0x2044, 0x0034]),
   (0x00BD, [0x0031, 0x2044, 0x0032]), (0x00BE, [0x0033, 0x2044, 0x0034]), (0x00C0, [0x0041, 0x0300]),
   (0x00C1, [0x0041, 0x0301]), (0x00C2, [0x0041, 0x0302]), (0x00C3, [0x0041, 0x0303]),
   (0x00C4, [0x0041, 0x0308]), (0x00C5, [0x0041, 0x030A]), (0x00C7, [0x0043, 0x0327]),
   (0x00C8, [0x0045, 0x0300]), (0x00C9, [0x0045, 0x0301]), (0x00CA, [0x0045, 0x0302]),
   (0x00CB, [0x0045, 0x0308]), (0x00CC, [0x0049, 0x0300]), (0x00CD, [0x0049, 0x0301]),
   (0x00CE, [0x0049, 0x0302]), (0x00CF, [0x0049, 0x0308]), (0x00D1, [0x004E, 0x0303]),
   (0x00D2, [0x004F, 0x0300]), (0x00D3, [0x004F, 0x0301]), (0x00D4, [0x004F, 0x0302]),
   (0x00D5, [0x004F, 0x0303]), (0x00D6, [0x004F, 0x0308]), (0x00D9, [0x0055, 0x0300]),
   (0x00DA, [0x0055, 0x0301]), (0x00DB, [0x0055, 0x0302]), (0x00DC, [0x0055, 0x0308]),
   (0x00DD, [0x0059, 0x0301]), (0x00E0, [0x0061, 0x0300]), (0x00E1, [0x0061, 0x0301]),
   (0x00E2, [0x0061, 0x0302]), (0x00E3, [0x0061, 0x0303]), (0x00E4, [0x0061, 0x0308]),
   (0x00E5, [0x0061, 0x030A]), (0x00E7, [0x0063, 0x0327]), (0x00E8, [0x0065, 0x0300]),
   (0x00E9, [0x0065, 0x0301]), (0x00EA, [0x0065, 0x0302]), (0x00EB, [0x0065, 0x0308]),
   (0x00EC, [0x0069, 0x0300]), (0x00ED, [0x0069, 0x0301]), (0x00EE, [0x0069, 0x0302]),
   (0x00EF, [0x0069, 0x0308]), (0x00F1, [0x006E, 0x0303]), (0x00F2, [0x006F, 0x0300]),
   (0x00F3, [0x006F, 0x0301]), (0x00F4, [0x006F, 0x0302]), (0x00F5, [0x006F, 0x0303]),
   (0x00F6, [0x006F, 0x0308]), (0x00F9, [0x0075, 0x0300]), (0x00FA, [0x0075, 0x0301]),
   (0x00FB, [0x0075, 0x0302]), (0x00FC, [0x0075, 0x0308]), (0x00FD, [0x0079, 0x0301]),
   (0x00FF, [0x0079, 0x0308]), (0x0623, [0x0627, 0x0654]), (0x2024, [0x002E]),
   (0x2122, [0x0054, 0x004D]), (0xFE52, [0x002E]), (0xFE60, [0x0026]),
   (0xFF06, [0x0026]), (0xFF07, [0x0027]), (0xFF0C, [0x002C]),
   (0xFF0E, [0x002E]), (0xFF61, [0x3002])]

/-- Primary composites of the reference repertoire: first and second code point
of the pair, and the composite. -/
def refCompositions : List (Nat × Nat × Nat) :=
  [(0x0041, 0x0300, 0x00C0), (0x0041, 0x0301, 0x00C1), (0x0041, 0x0302, 0x00C2),
   (0x0041, 0x0303, 0x00C3), (0x0041, 0x0308, 0x00C4), (0x0041, 0x030A, 0x00C5),
   (0x0043, 0x0327, 0x00C7), (0x0045, 0x0300, 0x00C8), (0x0045, 0x0301, 0x00C9),
   (0x0045, 0x0302, 0x00CA), (0x0045, 0x0308, 0x00CB), (0x0049, 0x0300, 0x00CC),
   (0x0049, 0x0301, 0x00CD), (0x0049, 0x0302, 0x00CE), (0x0049, 0x0308, 0x00CF),
   (0x004E, 0x0303, 0x00D1), (0x004F, 0x0300, 0x00D2), (0x004F, 0x0301, 0x00D3),
   (0x004F, 0x0302, 0x00D4), (0x004F, 0x0303, 0x00D5), (0x004F, 0x0308, 0x00D6),
   (0x0055, 0x0300, 0x00D9), (0x0055, 0x0301, 0x00DA), (0x0055, 0x0302, 0x00DB),
   (0x0055, 0x0308, 0x00DC), (0x0059, 0x0301, 0x00DD), (0x0061, 0x0300, 0x00E0),
   (0x0061, 0x0301, 0x00E1), (0x0061, 0x0302, 0x00E2), (0x0061, 0x0303, 0x00E3),
   (0x0061, 0x0308, 0x00E4), (0x0061, 0x030A, 0x00E5), (0x0063, 0x0327, 0x00E7),
   (0x0065, 0x0300, 0x00E8), (0x0065, 0x0301, 0x00E9), (0x0065, 0x0302, 0x00EA),
   (0x0065, 0x0308, 0x00EB), (0x0069, 0x0300, 0x00EC), (0x0069, 0x0301, 0x00ED),
   (0x0069, 0x0302, 0x00EE), (0x0069, 0x0308, 0x00EF), (0x006E, 0x0303, 0x00F1),
   (0x006F, 0x0300, 0x00F2), (0x006F, 0x0301, 0x00F3), (0x006F, 0x0302, 0x00F4),
   (0x006F, 0x0303, 0x00F5), (0x006F, 0x0308, 0x00F6), (0x0075, 0x0300, 0x00F9),
   (0x0075, 0x0301, 0x00FA), (0x0075, 0x0302, 0x00FB), (0x0075, 0x0308, 0x00FC),
   (0x0079, 0x0301, 0x00FD), (0x0079, 0x0308, 0x00FF), (0x0627, 0x0654, 0x0623)]

/-- The general category of a code point in the reference database. -/
def refCategory (c : Char) : GeneralCategory :=
  match refCategories.find? (fun r => r.1 ≤ c.toNat && c.toNat ≤ r.2.1) with
  | some r => r.2.2
  | none => .Cn

/-- The lower-case mapping of the reference database. -/
def refToLower (c : Char) : Char :=
  match refLowercase.find? (fun r => r.1 ≤ c.toNat && c.toNat ≤ r.2.1) with
  | some r => Char.ofNat (c.toNat + r.2.2)
  | none => c

/-- The canonical combining class of a code point in the reference database. -/
def refCcc (n : Nat) : Nat := (refCombining.lookup n).getD 0

/-- Full compatibility decomposition of one code point. -/
def refDecomposeChar (n : Nat) : List Nat :=
  match refDecompositions.lookup n with
  | some d => d
  | none =>
    if 0xAC00 ≤ n ∧ n ≤ 0xD7A3 then
      let s := n - 0xAC00
      let l := 0x1100 + s / 588
      let v := 0x1161 + (s % 588) / 28
      let t := 0x11A7 + s % 28
      if t = 0x11A7 then [l, v] else [l, v, t]
    else [n]

/-- Canonical ordering, one step: `c` is put into the reversed text `acc`,
behind the marks of a higher combining class that precede it. -/
def refInsertMark (c : Nat) : List Nat → List Nat
  | [] => [c]
  | d :: ds =>
    if refCcc c ≠ 0 ∧ refCcc d > refCcc c then d :: refInsertMark c ds
    else c :: d :: ds

/-- Canonical ordering of a decomposed text. -/
def refReorder (s : List Nat) : List Nat :=
  (s.foldl (fun acc c => refInsertMark c acc) []).reverse

/-- The primary composite of a pair, if there is one. -/
def refComposePair (a b : Nat) : Option Nat :=
  match refCompositions.find? (fun r => r.1 == a && r.2.1 == b) with
  | some r => some r.2.2
  | none =>
    if 0x1100 ≤ a ∧ a ≤ 0x1112 ∧ 0x1161 ≤ b ∧ b ≤ 0x1175 then
      some (0xAC00 + ((a - 0x1100) * 21 + (b - 0x1161)) * 28)
    else if 0xAC00 ≤ a ∧ a ≤ 0xD7A3 ∧ (a - 0xAC00) % 28 = 0 ∧ 0x11A8 ≤ b ∧ b ≤ 0x11C2 then
      some (a + (b - 0x11A7))
    else none

/-- The state of the canonical composition: the reversed text before the last
starter, the last starter, and the reversed marks after it. -/
structure RefComposeState where
  before : List Nat
  starter : Option Nat
  after : List Nat

/-- The text of a composition state. -/
def RefComposeState.flush (st : RefComposeState) : List Nat :=
  match st.starter with
  | some s => st.after ++ s :: st.before
  | none => st.after ++ st.before

/-- Canonical composition, one step. -/
def refComposeStep (st : RefComposeState) (c : Nat) : RefComposeState :=
  let unblocked : Bool :=
    match st.after with
    | [] => true
    | d :: _ => refCcc d < refCcc c
  match st.starter.bind (fun s => if unblocked then refComposePair s c else none) with
  | some p => { st with starter := some p }
  | none =>
    if refCcc c = 0 then { before := st.flush, starter := some c, after := [] }
    else { st with after := c :: st.after }

/-- Canonical composition of a text in canonical order. -/
def refCompose (s : List Nat) : List Nat :=
  (s.foldl refComposeStep { before := [], starter := none, after := [] }).flush.reverse

/-- The form NFKC over the reference database. -/
def refNfkc (s : GoString) : GoString :=
  (refCompose (refReorder ((s.map Char.toNat).flatMap refDecomposeChar))).map Char.ofNat

/-- The reference Unicode database. -/
def refUnicode : UnicodeData where
  nfkc := refNfkc
  toLower := refToLower
  category := refCategory

/-! ## Further notions used by the statements -/

/-- The ASCII lower-case letters. -/
def asciiLower : List Char := "abcdefghijklmnopqrstuvwxyz".toList

/-- The ASCII upper-case letters. -/
def asciiUpper : List Char := "ABCDEFGHIJKLMNOPQRSTUVWXYZ".toList

/-- The text `t` is the text `s` with white space (in the sense of
`strings.TrimSpace`) added before and after it. -/
def Padded (s t : GoString) : Prop :=
  ∃ l r : GoString, (∀ c ∈ l, isSpace c = true) ∧ (∀ c ∈ r, isSpace c = true) ∧
    t = l ++ s ++ r

/-- The text that reaches step 5 of `normalizeUnicode`: the input after NFKC,
lower-casing, the replacement of the separating marks and the edge trim. -/
def trimmedText (U : UnicodeData) (s : GoString) : GoString :=
  stripEdges (replaceClass (punctToSpacePattern U) " ".toList (ToLower U (U.nfkc s)))

/-- Facts of the Unicode Character Database about Basic Latin: the digits are
decimal numbers (Nd) and the small letters lower-case letters (Ll), lower-casing
leaves both and the space as they are, and it maps a capital letter to a small
one. -/
structure UnicodeData.StandardAscii (U : UnicodeData) : Prop where
  category_digit : ∀ c ∈ asciiDigits, U.category c = .Nd
  category_lower : ∀ c ∈ asciiLower, U.category c = .Ll
  toLower_digit : ∀ c ∈ asciiDigits, U.toLower c = c
  toLower_lower : ∀ c ∈ asciiLower, U.toLower c = c
  toLower_upper : ∀ c ∈ asciiUpper, U.toLower c ∈ asciiLower
  toLower_space : U.toLower ' ' = ' '

/-- The characters of a word: ASCII lower-case letters and digits. -/
def wordChars : List Char := asciiLower ++ asciiDigits

/-- The categories of the letters, the numbers and the separators. -/
def keptCategories : List GeneralCategory :=
  [.Lu, .Ll, .Lt, .Lm, .Lo, .Nd, .Nl, .No, .Zs, .Zl, .Zp]

/-- The first two letters of the connector word of the sentence templates: of
"as", "comme" and "como", "als", "として", "作为", "로서", "بصفتي", "בתור" and
"как". -/
def connectorLetters : List (Char × Char) :=
  [('a', 's'), ('c', 'o'), ('a', 'l'), ('と', 'し'), ('作', '为'), ('로', '서'),
   ('ب', 'ص'), ('ב', 'ת'), ('к', 'а')]

/-- The connector word of a sentence template: the connector without the blanks
before it. -/
def connectorWord (template : GoString) : GoString :=
  (connector template).dropWhile (fun c => c == ' ')

/-- The code points of the four placeholders. -/
def placeholderChars : List Char := "{flags}{who}{role}{scope}".toList

/-- Steps 2 to 6 of `normalizeUnicode`: what is done to the text in the form
NFKC. -/
def normalizeSteps (U : UnicodeData) (s : GoString) : GoString :=
  replaceRuns whitespacePattern "-".toList
    (replaceClass (disallowedPattern U) []
      (stripEdges (replaceClass (punctToSpacePattern U) " ".toList (ToLower U s))))

/-- Facts of the Unicode Character Database and of the normalisation algorithm
about the text of a sentence: an ASCII digit or a space at the start of a text
is a starter that takes part in no composition, so the form NFKC of the text is
that character followed by the form NFKC of the rest; the first letter of a
connector word, followed by the second one, is its own form NFKC and is
composed neither with what precedes it nor with the second letter; and it is a
letter without case or a lower-case letter. -/
structure UnicodeData.StandardNfkc (U : UnicodeData) : Prop where
  nfkc_digit_space : ∀ c ∈ ' ' :: asciiDigits, ∀ t : GoString,
    U.nfkc (c :: t) = c :: U.nfkc t
  nfkc_connector : ∀ p ∈ connectorLetters, ∀ s t : GoString,
    U.nfkc (s ++ p.1 :: p.2 :: t) = U.nfkc s ++ p.1 :: U.nfkc (p.2 :: t)
  toLower_connector : ∀ p ∈ connectorLetters, U.toLower p.1 = p.1
  category_connector : ∀ p ∈ connectorLetters,
    U.category p.1 ∈ [GeneralCategory.Ll, GeneralCategory.Lo]

/-! # Theorems -/

/-! ## Basic facts about strings -/

theorem toNat_eq_iff (c d : Char) : c.toNat = d.toNat ↔ c = d := by
  constructor
  · intro h
    have := congrArg Char.ofNat h
    simpa [Char.ofNat_toNat] using this
  · intro h; rw [h]

theorem mem_asciiDigits_iff (c : Char) :
    c ∈ asciiDigits ↔ (0x30 ≤ c.toNat ∧ c.toNat ≤ 0x39) := by
  constructor
  · intro h
    simp only [asciiDigits, String.toList, List.mem_cons, List.mem_nil_iff, or_false] at h
    rcases h with h | h | h | h | h | h | h | h | h | h <;> subst h <;> decide
  · rintro ⟨h1, h2⟩
    have hc : c = Char.ofNat c.toNat := (Char.ofNat_toNat c).symm
    rw [hc]
    generalize c.toNat = n at h1 h2
    interval_cases n <;> decide

theorem allDigits_iff (f : GoString) :
    allDigits f = true ↔ f ≠ [] ∧ ∀ c ∈ f, c ∈ asciiDigits := by
  simp only [allDigits, Bool.and_eq_true, Bool.not_eq_true', List.isEmpty_eq_false,
    List.all_eq_true, decide_eq_true_eq, mem_asciiDigits_iff]

theorem utf8Size_of_digit (c : Char) (h : c ∈ asciiDigits) : c.utf8Size = 1 := by
  rw [mem_asciiDigits_iff] at h
  unfold Char.utf8Size
  have hv : c.val ≤ 127 := by
    show c.val.toNat ≤ 127
    have h' : c.val.toNat = c.toNat := rfl
    omega
  simp [hv]

theorem len_of_digits (f : GoString) (h : ∀ c ∈ f, c ∈ asciiDigits) : len f = f.length := by
  induction f with
  | nil => rfl
  | cons c cs ih =>
    have h1 := utf8Size_of_digit c (h c (List.mem_cons_self _ _))
    have h2 := ih (fun d hd => h d (List.mem_cons_of_mem _ hd))
    simp only [len, List.map_cons, List.sum_cons, List.length_cons] at h2 ⊢
    omega

theorem isSpace_of_digit (c : Char) (h : c ∈ asciiDigits) : isSpace c = false := by
  rw [mem_asciiDigits_iff] at h
  simp only [isSpace, Bool.or_eq_false_iff, Bool.and_eq_false_iff, decide_eq_false_iff_not,
    beq_eq_false_iff_ne, ne_eq]
  omega

theorem TrimSpace_eq_self (s : GoString) (h : ∀ c ∈ s, isSpace c = false) : TrimSpace s = s := by
  unfold TrimSpace
  have h1 : s.dropWhile isSpace = s := by
    rw [List.dropWhile_eq_self_iff]
    intro hl
    rw [Bool.not_eq_true]
    exact h _ (List.get_mem s 0 hl)
  rw [h1, List.rdropWhile_eq_self_iff]
  intro hl
  rw [Bool.not_eq_true]
  exact h _ (List.getLast_mem hl)

/-! ## The validations of `CreateAlias` -/

theorem prepare_emptyRole (lang flags who role scope : GoString) (h : TrimSpace role = []) :
    prepare lang flags who role scope = .error .EmptyRole := by
  simp [prepare, h]

theorem prepare_invalidFlags (lang flags who role scope : GoString) (h : TrimSpace role ≠ [])
    (hf : TrimSpace flags ≠ []) (hd : allDigits (TrimSpace flags) = false) :
    prepare lang flags who role scope = .error .InvalidFlags := by
  simp [prepare, h, hf, hd]

theorem prepare_flagsTooLong (lang flags who role scope : GoString) (h : TrimSpace role ≠ [])
    (hf : TrimSpace flags = [] ∨ allDigits (TrimSpace flags) = true)
    (hl : 10 < len (TrimSpace flags)) :
    prepare lang flags who role scope = .error .FlagsTooLong := by
  have h1 : ¬ (TrimSpace flags ≠ [] ∧ allDigits (TrimSpace flags) = false) := by
    rcases hf with hf | hf <;> simp [hf]
  simp only [prepare]
  simp [h, h1, hl]

/-- The rest of `prepare` once the three validations have passed. -/
theorem prepare_valid (lang flags who role scope : GoString) (h : TrimSpace role ≠ [])
    (hf : TrimSpace flags = [] ∨ allDigits (TrimSpace flags) = true)
    (hl : len (TrimSpace flags) ≤ 10) :
    prepare lang flags who role scope =
      ((if TrimSpace who = [] then
          match pronounTranslations.lookup lang with
          | none => Except.error (AliasError.UnsupportedLanguagePronoun lang)
          | some pronoun => Except.ok pronoun
        else Except.ok (TrimSpace who)).bind fun who =>
        ((if TrimSpace scope = [] then Except.ok (TrimSpace scope)
          else
            match scopeTemplates.lookup lang with
            | none => Except.error (AliasError.UnsupportedLanguageScope lang)
            | some scopeTemplate =>
              Except.ok (' ' :: ReplaceAll scopeTemplate "{org}".toList (TrimSpace scope))).bind
          fun scope =>
          match templates.lookup lang with
          | none => Except.error (AliasError.UnsupportedLanguage lang)
          | some template =>
            Except.ok
              { template := template,
                flags :=
                  if TrimSpace flags = [] then TrimSpace flags
                  else sortedDigits (TrimSpace flags) ++ [' '],
                who := who, role := TrimSpace role, scope := scope })) := by
  have h1 : ¬ (TrimSpace flags ≠ [] ∧ allDigits (TrimSpace flags) = false) := by
    rcases hf with hf | hf <;> simp [hf]
  have h2 : ¬ 10 < len (TrimSpace flags) := by omega
  simp only [prepare]
  simp [h, h1, h2, ME_AS_ARG]

theorem pronounTranslations_keys : pronounTranslations.map Prod.fst = shippedLanguages := by
  decide

theorem templates_keys : templates.map Prod.fst = shippedLanguages := by decide

theorem scopeTemplates_keys : scopeTemplates.map Prod.fst = shippedLanguages := by decide

theorem lookup_isSome_of_mem_keys (t : List (GoString × GoString)) (k : GoString)
    (h : k ∈ t.map Prod.fst) : ∃ v, t.lookup k = some v := by
  induction t with
  | nil => simp at h
  | cons p ps ih =>
    obtain ⟨a, b⟩ := p
    by_cases hk : k = a
    · exact ⟨b, by simp [List.lookup, hk]⟩
    · have : k ∈ ps.map Prod.fst := by
        simp only [List.map_cons, List.mem_cons] at h
        rcases h with h | h
        · exact absurd h hk
        · exact h
      obtain ⟨v, hv⟩ := ih this
      refine ⟨v, ?_⟩
      have hne : (k == a) = false := by simpa using hk
      simp [List.lookup, hne, hv]

theorem lookup_none_of_not_mem_keys (t : List (GoString × GoString)) (k : GoString)
    (h : k ∉ t.map Prod.fst) : t.lookup k = none := by
  rw [List.lookup_eq_none_iff]
  intro p hp
  have : k ≠ p.1 := fun e => h (by rw [e]; exact List.mem_map_of_mem _ hp)
  simpa using this

theorem CreateAlias_of_error (U : UnicodeData) (lang flags who role scope : GoString)
    (e : AliasError) (h : prepare lang flags who role scope = .error e) :
    CreateAlias U lang flags who role scope = .error e := by
  simp [CreateAlias, renderSentence, h, Except.map]

theorem CreateAlias_of_ok (U : UnicodeData) (lang flags who role scope : GoString)
    (c : Segments) (h : prepare lang flags who role scope = .ok c) :
    CreateAlias U lang flags who role scope = .ok (normalizeUnicode U (interpolate c)) := by
  simp [CreateAlias, renderSentence, h, Except.map]

/-- For a shipped language `prepare` succeeds once the validations have passed. -/
theorem prepare_ok_of_valid (lang flags who role scope : GoString)
    (hlang : lang ∈ shippedLanguages) (h : TrimSpace role ≠ [])
    (hf : TrimSpace flags = [] ∨ allDigits (TrimSpace flags) = true)
    (hl : len (TrimSpace flags) ≤ 10) :
    ∃ c, prepare lang flags who role scope = .ok c := by
  obtain ⟨p, hp⟩ := lookup_isSome_of_mem_keys pronounTranslations lang
    (by rw [pronounTranslations_keys]; exact hlang)
  obtain ⟨t, ht⟩ := lookup_isSome_of_mem_keys templates lang
    (by rw [templates_keys]; exact hlang)
  obtain ⟨s, hs⟩ := lookup_isSome_of_mem_keys scopeTemplates lang
    (by rw [scopeTemplates_keys]; exact hlang)
  rw [prepare_valid lang flags who role scope h hf hl, hp, ht, hs]
  by_cases hw : TrimSpace who = [] <;> by_cases hsc : TrimSpace scope = [] <;>
    simp [hw, hsc, Except.bind]

/-- C2. For each of the eleven shipped languages, whose codes are exactly the
keys of each of the three resource tables, `CreateAlias` succeeds if and only
if the trimmed role is not empty and the trimmed flags are empty or consist of
at most ten ASCII decimal digits. -/
theorem createAlias_succeeds_iff :
    (pronounTranslations.map Prod.fst = shippedLanguages ∧
      templates.map Prod.fst = shippedLanguages ∧
      scopeTemplates.map Prod.fst = shippedLanguages) ∧
    ∀ (U : UnicodeData) (lang flags who role scope : GoString),
      lang ∈ shippedLanguages →
      ((∃ a, CreateAlias U lang flags who role scope = .ok a) ↔
        (TrimSpace role ≠ [] ∧
          (TrimSpace flags = [] ∨
            ((∀ c ∈ TrimSpace flags, c ∈ asciiDigits) ∧ (TrimSpace flags).length ≤ 10)))) := by
  refine ⟨⟨pronounTranslations_keys, templates_keys, scopeTemplates_keys⟩, ?_⟩
  intro U lang flags who role scope hlang
  constructor
  · rintro ⟨a, ha⟩
    by_cases hr : TrimSpace role = []
    · rw [CreateAlias_of_error U _ _ _ _ _ _ (prepare_emptyRole lang flags who role scope hr)] at ha
      cases ha
    refine ⟨hr, ?_⟩
    by_cases hf : TrimSpace flags = []
    · exact Or.inl hf
    right
    cases hd : allDigits (TrimSpace flags) with
    | false =>
      rw [CreateAlias_of_error U _ _ _ _ _ _
        (prepare_invalidFlags lang flags who role scope hr hf hd)] at ha
      cases ha
    | true =>
      have hall := ((allDigits_iff _).1 hd).2
      refine ⟨hall, ?_⟩
      by_contra hlen
      have hlen' : 10 < len (TrimSpace flags) := by
        rw [len_of_digits _ hall]; omega
      rw [CreateAlias_of_error U _ _ _ _ _ _
        (prepare_flagsTooLong lang flags who role scope hr (Or.inr hd) hlen')] at ha
      cases ha
  · rintro ⟨hr, hf⟩
    have hf' : TrimSpace flags = [] ∨ allDigits (TrimSpace flags) = true := by
      rcases hf with hf | ⟨hall, _⟩
      · exact Or.inl hf
      · by_cases he : TrimSpace flags = []
        · exact Or.inl he
        · exact Or.inr ((allDigits_iff _).2 ⟨he, hall⟩)
    have hl : len (TrimSpace flags) ≤ 10 := by
      rcases hf with hf | ⟨hall, hlen⟩
      · rw [hf]; decide
      · rw [len_of_digits _ hall]; exact hlen
    obtain ⟨c, hc⟩ := prepare_ok_of_valid lang flags who role scope hlang hr hf' hl
    exact ⟨_, CreateAlias_of_ok U _ _ _ _ _ c hc⟩

/-- Witness of C2: in Japanese, ten digits of flags are accepted and eleven are
rejected. -/
theorem createAlias_succeeds_iff_witness :
    (∃ a, CreateAlias refUnicode "ja".toList "0123456789".toList "".toList
        "admin".toList "Acme".toList = .ok a) ∧
    ¬ (∃ a, CreateAlias refUnicode "ja".toList "01234567890".toList "".toList
        "admin".toList "Acme".toList = .ok a) :=
  ⟨(createAlias_succeeds_iff.2 refUnicode "ja".toList "0123456789".toList "".toList
      "admin".toList "Acme".toList (by decide)).2 (by decide),
   fun h => absurd ((createAlias_succeeds_iff.2 refUnicode "ja".toList "01234567890".toList
      "".toList "admin".toList "Acme".toList (by decide)).1 h) (by decide)⟩

/-- C3. The first failing validation decides the error: an empty trimmed role
gives `EmptyRole` whatever the flags and the language are, and with a role
that is not empty a character of the trimmed flags that is no ASCII digit gives
`InvalidFlags`, however long the flags are. -/
theorem validation_order (U : UnicodeData) (lang flags who role scope : GoString) :
    (TrimSpace role = [] →
      CreateAlias U lang flags who role scope = .error .EmptyRole) ∧
    (TrimSpace role ≠ [] → (∃ c ∈ TrimSpace flags, c ∉ asciiDigits) →
      CreateAlias U lang flags who role scope = .error .InvalidFlags) := by
  constructor
  · intro hr
    exact CreateAlias_of_error U _ _ _ _ _ _ (prepare_emptyRole lang flags who role scope hr)
  · rintro hr ⟨c, hc, hnd⟩
    have hf : TrimSpace flags ≠ [] := by
      intro h; rw [h] at hc; cases hc
    have hd : allDigits (TrimSpace flags) = false := by
      cases h : allDigits (TrimSpace flags) with
      | false => rfl
      | true => exact absurd (((allDigits_iff _).1 h).2 c hc) hnd
    exact CreateAlias_of_error U _ _ _ _ _ _
      (prepare_invalidFlags lang flags who role scope hr hf hd)

/-- Witness of C3: an empty role with invalid flags in an unsupported language,
and a role with flags that are both invalid and too long. -/
theorem validation_order_witness :
    CreateAlias refUnicode "xx".toList "12x".toList "".toList "  ".toList "".toList
        = .error .EmptyRole ∧
    CreateAlias refUnicode "en".toList "1234567890x".toList "".toList "admin".toList "".toList
        = .error .InvalidFlags :=
  ⟨(validation_order refUnicode "xx".toList "12x".toList "".toList "  ".toList "".toList).1
      (by decide),
   (validation_order refUnicode "en".toList "1234567890x".toList "".toList "admin".toList
      "".toList).2 (by decide) ⟨'x', by decide, by decide⟩⟩

/-- C4, as stated, fails: with eleven digits of flags and an empty role the
error is `EmptyRole`, not `FlagsTooLong`. -/
theorem flags_too_long_counterexample :
    "12345678901".toList.length = 11 ∧ (∀ c ∈ "12345678901".toList, c ∈ asciiDigits) ∧
    CreateAlias refUnicode "en".toList "12345678901".toList "".toList "".toList "".toList
      = .error .EmptyRole ∧
    CreateAlias refUnicode "en".toList "12345678901".toList "".toList "".toList "".toList
      ≠ .error .FlagsTooLong := by
  decide

/-- C4, amended. Flags of eleven ASCII digits give `FlagsTooLong` for every
language, `who` and scope, provided the trimmed role is not empty. -/
theorem flags_too_long (U : UnicodeData) (lang flags who role scope : GoString)
    (hlen : flags.length = 11) (hd : ∀ c ∈ flags, c ∈ asciiDigits)
    (hr : TrimSpace role ≠ []) :
    CreateAlias U lang flags who role scope = .error .FlagsTooLong := by
  have ht : TrimSpace flags = flags :=
    TrimSpace_eq_self flags (fun c hc => isSpace_of_digit c (hd c hc))
  have hne : flags ≠ [] := by
    intro h; rw [h] at hlen; cases hlen
  apply CreateAlias_of_error
  apply prepare_flagsTooLong _ _ _ _ _ hr
  · right; rw [ht]; exact (allDigits_iff _).2 ⟨hne, hd⟩
  · rw [ht, len_of_digits _ hd]; omega

/-- Witness of C4, amended. -/
theorem flags_too_long_witness :
    CreateAlias refUnicode "xx".toList "12345678901".toList "".toList "admin".toList "".toList
      = .error .FlagsTooLong :=
  flags_too_long refUnicode "xx".toList "12345678901".toList "".toList "admin".toList
    "".toList (by decide) (by decide) (by decide)

/-! ## Flags, pronoun and unsupported languages -/

theorem sortedDigits_perm (a b : GoString) (h : a.Perm b) : sortedDigits a = sortedDigits b := by
  haveI : IsTotal Char (fun a b => a.toNat ≤ b.toNat) :=
    ⟨fun a b => Nat.le_total a.toNat b.toNat⟩
  haveI : IsTrans Char (fun a b => a.toNat ≤ b.toNat) :=
    ⟨fun _ _ _ h1 h2 => Nat.le_trans h1 h2⟩
  haveI : IsAntisymm Char (fun a b => a.toNat ≤ b.toNat) :=
    ⟨fun a b h1 h2 => (toNat_eq_iff a b).1 (Nat.le_antisymm h1 h2)⟩
  unfold sortedDigits
  apply List.eq_of_perm_of_sorted (r := fun a b : Char => a.toNat ≤ b.toNat)
  · exact ((List.perm_insertionSort _ a).trans h).trans (List.perm_insertionSort _ b).symm
  · exact List.sorted_insertionSort _ a
  · exact List.sorted_insertionSort _ b

theorem allDigits_perm (a b : GoString) (h : a.Perm b) : allDigits a = allDigits b := by
  have key : ∀ x y : GoString, x.Perm y → allDigits x = true → allDigits y = true := by
    intro x y hxy hx
    rw [allDigits_iff] at hx ⊢
    refine ⟨fun hy => hx.1 (by rw [hy] at hxy; exact hxy.eq_nil), ?_⟩
    intro c hc
    exact hx.2 c (hxy.mem_iff.2 hc)
  cases ha : allDigits a with
  | true => exact (key a b h ha).symm
  | false =>
    cases hb : allDigits b with
    | false => rfl
    | true => rw [key b a h.symm hb] at ha; cases ha

theorem len_perm (a b : GoString) (h : a.Perm b) : len a = len b :=
  (h.map Char.utf8Size).sum_eq

/-- The result of `prepare` depends on the flags only through the trimmed flags. -/
theorem prepare_congr_flags (lang f1 f2 who role scope : GoString)
    (h : (TrimSpace f1).Perm (TrimSpace f2)) :
    prepare lang f1 who role scope = prepare lang f2 who role scope := by
  have h2 := allDigits_perm _ _ h
  have h3 := len_perm _ _ h
  have h4 := sortedDigits_perm _ _ h
  by_cases he : TrimSpace f1 = []
  · have he2 : TrimSpace f2 = [] := by rw [he] at h; exact h.nil_eq.symm
    simp only [prepare, he, he2]
  · have he2 : TrimSpace f2 ≠ [] := fun e => he (by rw [e] at h; exact h.eq_nil)
    simp only [prepare, h2, h3, h4]
    simp [he, he2]

/-- C5, as stated, fails: "1 2" and " 12" are permutations of each other, but
the first is rejected for its inner blank while the second is trimmed to "12"
and accepted. -/
theorem flag_order_counterexample :
    "1 2".toList.Perm " 12".toList ∧
    CreateAlias refUnicode "en".toList "1 2".toList "".toList "admin".toList "".toList
      = .error .InvalidFlags ∧
    CreateAlias refUnicode "en".toList " 12".toList "".toList "admin".toList "".toList
      = .ok "12-me-as-admin".toList := by
  decide

/-- C5, amended. Two flags strings whose trimmed forms are permutations of each
other give the same result, alias or error, for every language, `who`, role
and scope. -/
theorem flag_order_invariance (U : UnicodeData) (lang f1 f2 who role scope : GoString)
    (h : (TrimSpace f1).Perm (TrimSpace f2)) :
    CreateAlias U lang f1 who role scope = CreateAlias U lang f2 who role scope := by
  simp only [CreateAlias, renderSentence, prepare_congr_flags lang f1 f2 who role scope h]

/-- Witness of C5, amended: "31" and "13", and both give "13-me-as-admin". -/
theorem flag_order_invariance_witness :
    CreateAlias refUnicode "en".toList "31".toList "".toList "admin".toList "".toList
      = CreateAlias refUnicode "en".toList "13".toList "".toList "admin".toList "".toList ∧
    CreateAlias refUnicode "en".toList "31".toList "".toList "admin".toList "".toList
      = .ok "13-me-as-admin".toList :=
  ⟨flag_order_invariance refUnicode "en".toList "31".toList "13".toList "".toList
      "admin".toList "".toList (by decide), by decide⟩

theorem mem_of_lookup_eq_some (t : List (GoString × GoString)) (k v : GoString)
    (h : t.lookup k = some v) : (k, v) ∈ t := by
  induction t with
  | nil => simp at h
  | cons p ps ih =>
    obtain ⟨a, b⟩ := p
    by_cases hk : k = a
    · subst hk
      simp [List.lookup] at h
      simp [h]
    · have hne : (k == a) = false := by simpa using hk
      simp only [List.lookup, hne] at h
      exact List.mem_cons_of_mem _ (ih h)

theorem pronoun_trimmed :
    ∀ e ∈ pronounTranslations, TrimSpace e.2 = e.2 ∧ e.2 ≠ [] := by
  decide

/-- C7. With a `who` that is empty after trimming, `CreateAlias` gives what it
gives for `who` equal to the pronoun of the language; in English, with no
flags and no scope, the role "admin" gives "me-as-admin". -/
theorem speaker_substitution :
    (∀ (U : UnicodeData) (lang flags who role scope pronoun : GoString),
      pronounTranslations.lookup lang = some pronoun → TrimSpace who = [] →
      CreateAlias U lang flags who role scope = CreateAlias U lang flags pronoun role scope) ∧
    CreateAlias refUnicode "en".toList "".toList "".toList "admin".toList "".toList
      = .ok "me-as-admin".toList := by
  refine ⟨?_, by decide⟩
  intro U lang flags who role scope pronoun hp hw
  obtain ⟨ht, hne⟩ := pronoun_trimmed _ (mem_of_lookup_eq_some _ _ _ hp)
  simp only at ht hne
  have : prepare lang flags who role scope = prepare lang flags pronoun role scope := by
    simp only [prepare, hw, ht, hp, ME_AS_ARG, String.toList]
    simp [hne]
  simp only [CreateAlias, renderSentence, this]

/-- Witness of C7: a blank `who` in Japanese stands for the pronoun 私. -/
theorem speaker_substitution_witness :
    CreateAlias refUnicode "ja".toList "7".toList " ".toList "admin".toList "".toList
      = CreateAlias refUnicode "ja".toList "7".toList "私".toList "admin".toList "".toList :=
  speaker_substitution.1 refUnicode "ja".toList "7".toList " ".toList "admin".toList
    "".toList "私".toList (by decide) (by decide)

/-- C8. For a language code outside the resource tables, a role that is not
empty and valid flags, `CreateAlias` fails: with `UnsupportedLanguagePronoun`
when the trimmed `who` is empty, else with `UnsupportedLanguageScope` when the
trimmed scope is not empty, else with `UnsupportedLanguage`. -/
theorem unsupported_language (U : UnicodeData) (lang flags who role scope : GoString)
    (hlang : lang ∉ shippedLanguages) (hr : TrimSpace role ≠ [])
    (hf : TrimSpace flags = [] ∨
      ((∀ c ∈ TrimSpace flags, c ∈ asciiDigits) ∧ (TrimSpace flags).length ≤ 10)) :
    CreateAlias U lang flags who role scope =
      .error (if TrimSpace who = [] then .UnsupportedLanguagePronoun lang
        else if TrimSpace scope ≠ [] then .UnsupportedLanguageScope lang
        else .UnsupportedLanguage lang) := by
  have hf' : TrimSpace flags = [] ∨ allDigits (TrimSpace flags) = true := by
    rcases hf with hf | ⟨hall, _⟩
    · exact Or.inl hf
    · by_cases he : TrimSpace flags = []
      · exact Or.inl he
      · exact Or.inr ((allDigits_iff _).2 ⟨he, hall⟩)
  have hl : len (TrimSpace flags) ≤ 10 := by
    rcases hf with hf | ⟨hall, hlen⟩
    · rw [hf]; decide
    · rw [len_of_digits _ hall]; exact hlen
  have hp := lookup_none_of_not_mem_keys pronounTranslations lang
    (by rw [pronounTranslations_keys]; exact hlang)
  have ht := lookup_none_of_not_mem_keys templates lang
    (by rw [templates_keys]; exact hlang)
  have hs := lookup_none_of_not_mem_keys scopeTemplates lang
    (by rw [scopeTemplates_keys]; exact hlang)
  apply CreateAlias_of_error
  rw [prepare_valid lang flags who role scope hr hf' hl, hp, ht, hs]
  by_cases hw : TrimSpace who = [] <;> by_cases hsc : TrimSpace scope = [] <;>
    simp [hw, hsc, Except.bind]

/-- Witness of C8: the language "xx" with `who` "me", role "admin" and neither
flags nor scope fails with `UnsupportedLanguage`. -/
theorem unsupported_language_witness :
    CreateAlias refUnicode "xx".toList "".toList "me".toList "admin".toList "".toList
      = .error (.UnsupportedLanguage "xx".toList) :=
  unsupported_language refUnicode "xx".toList "".toList "me".toList "admin".toList
    "".toList (by decide) (by decide) (Or.inl (by decide))

/-! ## The output of `normalizeUnicode` -/

theorem mem_replaceClass_nil (cls : Char → Bool) (s : GoString) (c : Char) :
    c ∈ replaceClass cls [] s ↔ c ∈ s ∧ cls c = false := by
  unfold replaceClass
  simp only [List.mem_flatMap]
  constructor
  · rintro ⟨a, ha, hc⟩
    by_cases h : cls a = true
    · simp [h] at hc
    · simp only [h, Bool.false_eq_true, if_false, List.mem_singleton] at hc
      subst hc
      exact ⟨ha, by simpa using h⟩
  · rintro ⟨hc, h⟩
    exact ⟨c, hc, by simp [h]⟩

theorem mem_replaceRunsAux (cls : Char → Bool) (repl : GoString) (b : Bool) (s : GoString)
    (c : Char) (h : c ∈ replaceRunsAux cls repl b s) :
    c ∈ repl ∨ (c ∈ s ∧ cls c = false) := by
  induction s generalizing b with
  | nil => simp [replaceRunsAux] at h
  | cons a as ih =>
    unfold replaceRunsAux at h
    by_cases ha : cls a = true
    · simp only [ha, if_true] at h
      cases b with
      | true =>
        simp only [if_true] at h
        rcases ih _ h with h | h
        · exact Or.inl h
        · exact Or.inr ⟨List.mem_cons_of_mem _ h.1, h.2⟩
      | false =>
        simp only [Bool.false_eq_true, if_false, List.mem_append] at h
        rcases h with h | h
        · exact Or.inl h
        · rcases ih _ h with h | h
          · exact Or.inl h
          · exact Or.inr ⟨List.mem_cons_of_mem _ h.1, h.2⟩
    · simp only [ha, Bool.false_eq_true, if_false, List.mem_cons] at h
      rcases h with h | h
      · subst h
        exact Or.inr ⟨List.mem_cons_self _ _, by simpa using ha⟩
      · rcases ih _ h with h | h
        · exact Or.inl h
        · exact Or.inr ⟨List.mem_cons_of_mem _ h.1, h.2⟩

/-- A character of the output of `normalizeUnicode` is a hyphen, or it is
neither disallowed nor a white space of `\s`. -/
theorem mem_normalizeUnicode (U : UnicodeData) (s : GoString) (c : Char)
    (h : c ∈ normalizeUnicode U s) :
    c = '-' ∨ (disallowedPattern U c = false ∧ whitespacePattern c = false) := by
  unfold normalizeUnicode replaceRuns at h
  rcases mem_replaceRunsAux _ _ _ _ _ h with h | ⟨h, hw⟩
  · left; simpa using h
  · right
    exact ⟨((mem_replaceClass_nil _ _ _).1 h).2, hw⟩

theorem disallowedPattern_eq_false (U : UnicodeData) (c : Char) :
    disallowedPattern U c = false ↔ U.category c ∉ disallowedCategories := by
  simp [disallowedPattern]

/-- C10. Every character of the output of `normalizeUnicode`, and so of every
alias `CreateAlias` returns, other than the hyphen is in none of the disallowed
categories (control, format, surrogate, private use, unassigned, the four
symbol categories, punctuation, marks). -/
theorem output_alphabet (U : UnicodeData) :
    (∀ (s : GoString), ∀ c ∈ normalizeUnicode U s, c ≠ '-' →
      U.category c ∉ disallowedCategories) ∧
    (∀ (lang flags who role scope a : GoString),
      CreateAlias U lang flags who role scope = .ok a →
      ∀ c ∈ a, c ≠ '-' → U.category c ∉ disallowedCategories) := by
  have key : ∀ (s : GoString), ∀ c ∈ normalizeUnicode U s, c ≠ '-' →
      U.category c ∉ disallowedCategories := by
    intro s c hc hne
    rcases mem_normalizeUnicode U s c hc with h | h
    · exact absurd h hne
    · exact (disallowedPattern_eq_false U c).1 h.1
  refine ⟨key, ?_⟩
  intro lang flags who role scope a ha c hc hne
  cases hp : prepare lang flags who role scope with
  | error e =>
    rw [CreateAlias_of_error U _ _ _ _ _ e hp] at ha
    cases ha
  | ok seg =>
    rw [CreateAlias_of_ok U _ _ _ _ _ seg hp] at ha
    cases ha
    exact key _ c hc hne

/-- Witness of C10: the alias of a role with a dollar, an accent and a dash. -/
theorem output_alphabet_witness :
    CreateAlias refUnicode "fr".toList "".toList "".toList "Chef—$é".toList "".toList
      = .ok "moi-comme-chef-é".toList ∧
    ∀ c ∈ "moi-comme-chef-é".toList, c ≠ '-' →
      refUnicode.category c ∉ disallowedCategories :=
  ⟨by decide, (output_alphabet refUnicode).2 "fr".toList "".toList "".toList
    "Chef—$é".toList "".toList "moi-comme-chef-é".toList (by decide)⟩

/-- C6, as stated, fails: the alias is not "moi-comme-admin-a-acme". -/
theorem scope_attachment_counterexample :
    CreateAlias refUnicode "fr".toList "".toList "moi".toList "admin".toList "Acme".toList
      ≠ .ok "moi-comme-admin-a-acme".toList := by
  decide

/-- C6, amended. In French, `who` "moi", role "admin" and scope "Acme" give the
sentence "moi comme admin  à Acme" and the alias "moi-comme-admin-à-acme": the
connector keeps its accent.  NFKC is a composed form, so it leaves the letter à
(U+00E0) as it is, and it composes a letter followed by a combining accent
into the accented letter, which is no combining mark and is not deleted. -/
theorem scope_attachment :
    renderSentence "fr".toList "".toList "moi".toList "admin".toList "Acme".toList
      = .ok "moi comme admin  à Acme".toList ∧
    CreateAlias refUnicode "fr".toList "".toList "moi".toList "admin".toList "Acme".toList
      = .ok "moi-comme-admin-à-acme".toList ∧
    normalizeUnicode refUnicode "é".toList = "é".toList ∧
    normalizeUnicode refUnicode ['e', Char.ofNat 0x301] = "é".toList := by
  decide

/-! ## `strings.ReplaceAll` on a template -/

theorem isPrefixOf_of_differWithin (old x rest : GoString) (h : differWithin old x = true) :
    old.isPrefixOf (x ++ rest) = false := by
  induction old generalizing x with
  | nil => simp [differWithin] at h
  | cons a as ih =>
    cases x with
    | nil => simp [differWithin] at h
    | cons b bs =>
      simp only [differWithin, Bool.or_eq_true, bne_iff_ne, ne_eq] at h
      simp only [List.cons_append, List.isPrefixOf, Bool.and_eq_false_imp, beq_iff_eq]
      intro hab
      rcases h with h | h
      · exact absurd hab h
      · exact ih bs h

theorem replaceAllAux_inert (old new t rest : GoString) (h : inertFor old t = true) :
    replaceAllAux old new 0 (t ++ rest) = t ++ replaceAllAux old new 0 rest := by
  induction t with
  | nil => rfl
  | cons c t ih =>
    simp only [inertFor, Bool.and_eq_true] at h
    have hp := isPrefixOf_of_differWithin old (c :: t) rest h.1
    simp only [List.cons_append] at hp ⊢
    rw [replaceAllAux, if_neg (by simp [hp]), ih h.2]

theorem replaceAllAux_skip (old new xs rest : GoString) :
    replaceAllAux old new xs.length (xs ++ rest) = replaceAllAux old new 0 rest := by
  induction xs with
  | nil => rfl
  | cons x xs ih => simpa [replaceAllAux] using ih

theorem replaceAllAux_match (a : Char) (as new rest : GoString) :
    replaceAllAux (a :: as) new 0 ((a :: as) ++ rest)
      = new ++ replaceAllAux (a :: as) new 0 rest := by
  have hp : (a :: as).isPrefixOf ((a :: as) ++ rest) = true := by
    rw [List.isPrefixOf_iff_prefix]
    exact List.prefix_append _ _
  simp only [List.cons_append] at hp ⊢
  rw [replaceAllAux, if_pos hp]
  have := replaceAllAux_skip (a :: as) new as rest
  simpa using this

theorem inertFor_text (o : GoString) (t : GoString) (h : '{' ∉ t) :
    inertFor ('{' :: o) t = true := by
  induction t with
  | nil => rfl
  | cons c t ih =>
    simp only [List.mem_cons, not_or] at h
    have hc : ('{' != c) = true := by simpa using h.1
    simp [inertFor, differWithin, hc, ih h.2]

theorem replaceAllAux_inert_end (old new t : GoString) (h : inertFor old t = true) :
    replaceAllAux old new 0 t = t := by
  have := replaceAllAux_inert old new t [] h
  simpa [replaceAllAux] using this

theorem inertFor_text_of_eq (old o t : GoString) (hold : old = '{' :: o) (h : '{' ∉ t) :
    inertFor old t = true := by
  subst hold
  exact inertFor_text o t h

theorem replaceAllAux_slot_self (old o v rest : GoString) (b : Bool) (hold : old = '{' :: o)
    (hv : '{' ∉ v) :
    replaceAllAux old v 0 ((if b then v else old) ++ rest)
      = v ++ replaceAllAux old v 0 rest := by
  subst hold
  cases b with
  | true => exact replaceAllAux_inert _ _ _ _ (inertFor_text o v hv)
  | false => exact replaceAllAux_match _ _ _ _

theorem replaceAllAux_slot_self_end (old o v : GoString) (b : Bool) (hold : old = '{' :: o)
    (hv : '{' ∉ v) :
    replaceAllAux old v 0 (if b then v else old) = v := by
  have := replaceAllAux_slot_self old o v [] b hold hv
  simpa [replaceAllAux] using this

theorem inertFor_slot (old o tok v : GoString) (b : Bool) (hold : old = '{' :: o)
    (ht : inertFor old tok = true) (hv : '{' ∉ v) :
    inertFor old (if b then v else tok) = true := by
  subst hold
  cases b with
  | true => exact inertFor_text o v hv
  | false => exact ht

/-- One `ReplaceAll` of the interpolation fills its placeholder and changes
nothing else, when the texts hold no opening brace. -/
theorem replaceAll_partialSentence (mid : GoString) (c : Segments) (b1 b2 b3 b4 : Bool)
    (hm : '{' ∉ mid) (hf : '{' ∉ c.flags) (hw : '{' ∉ c.who) (hr : '{' ∉ c.role)
    (hs : '{' ∉ c.scope) :
    ReplaceAll (partialSentence mid c b1 b2 b3 b4) "{flags}".toList c.flags
        = partialSentence mid c true b2 b3 b4 ∧
    ReplaceAll (partialSentence mid c b1 b2 b3 b4) "{who}".toList c.who
        = partialSentence mid c b1 true b3 b4 ∧
    ReplaceAll (partialSentence mid c b1 b2 b3 b4) "{role}".toList c.role
        = partialSentence mid c b1 b2 true b4 ∧
    ReplaceAll (partialSentence mid c b1 b2 b3 b4) "{scope}".toList c.scope
        = partialSentence mid c b1 b2 b3 true := by
  have e1 : "{flags}".toList = '{' :: "{flags}".toList.tail := rfl
  have e2 : "{who}".toList = '{' :: "{who}".toList.tail := rfl
  have e3 : "{role}".toList = '{' :: "{role}".toList.tail := rfl
  have e4 : "{scope}".toList = '{' :: "{scope}".toList.tail := rfl
  refine ⟨?_, ?_, ?_, ?_⟩
  · have n : ("{flags}".toList).isEmpty = false := rfl
    simp only [ReplaceAll, n, Bool.false_eq_true, if_false, partialSentence, if_true]
    rw [replaceAllAux_slot_self _ _ _ _ _ e1 hf,
      replaceAllAux_inert _ _ _ _ (inertFor_slot _ _ _ _ b2 e1 (by decide) hw),
      replaceAllAux_inert _ _ _ _ (inertFor_text_of_eq _ _ mid e1 hm),
      replaceAllAux_inert _ _ _ _ (inertFor_slot _ _ _ _ b3 e1 (by decide) hr),
      replaceAllAux_inert_end _ _ _ (inertFor_slot _ _ _ _ b4 e1 (by decide) hs)]
  · have n : ("{who}".toList).isEmpty = false := rfl
    simp only [ReplaceAll, n, Bool.false_eq_true, if_false, partialSentence, if_true]
    rw [replaceAllAux_inert _ _ _ _ (inertFor_slot _ _ _ _ b1 e2 (by decide) hf),
      replaceAllAux_slot_self _ _ _ _ _ e2 hw,
      replaceAllAux_inert _ _ _ _ (inertFor_text_of_eq _ _ mid e2 hm),
      replaceAllAux_inert _ _ _ _ (inertFor_slot _ _ _ _ b3 e2 (by decide) hr),
      replaceAllAux_inert_end _ _ _ (inertFor_slot _ _ _ _ b4 e2 (by decide) hs)]
  · have n : ("{role}".toList).isEmpty = false := rfl
    simp only [ReplaceAll, n, Bool.false_eq_true, if_false, partialSentence, if_true]
    rw [replaceAllAux_inert _ _ _ _ (inertFor_slot _ _ _ _ b1 e3 (by decide) hf),
      replaceAllAux_inert _ _ _ _ (inertFor_slot _ _ _ _ b2 e3 (by decide) hw),
      replaceAllAux_inert _ _ _ _ (inertFor_text_of_eq _ _ mid e3 hm),
      replaceAllAux_slot_self _ _ _ _ _ e3 hr,
      replaceAllAux_inert_end _ _ _ (inertFor_slot _ _ _ _ b4 e3 (by decide) hs)]
  · have n : ("{scope}".toList).isEmpty = false := rfl
    simp only [ReplaceAll, n, Bool.false_eq_true, if_false, partialSentence, if_true]
    rw [replaceAllAux_inert _ _ _ _ (inertFor_slot _ _ _ _ b1 e4 (by decide) hf),
      replaceAllAux_inert _ _ _ _ (inertFor_slot _ _ _ _ b2 e4 (by decide) hw),
      replaceAllAux_inert _ _ _ _ (inertFor_text_of_eq _ _ mid e4 hm),
      replaceAllAux_inert _ _ _ _ (inertFor_slot _ _ _ _ b3 e4 (by decide) hr),
      replaceAllAux_slot_self_end _ _ _ _ e4 hs]

theorem interpolateInOrder_partialSentence (mid : GoString) (c : Segments)
    (hm : '{' ∉ mid) (hf : '{' ∉ c.flags) (hw : '{' ∉ c.who) (hr : '{' ∉ c.role)
    (hs : '{' ∉ c.scope) (order : List (GoString × GoString))
    (hord : ∀ p ∈ order, p ∈ placeholders c) (b1 b2 b3 b4 : Bool) :
    interpolateInOrder order (partialSentence mid c b1 b2 b3 b4) =
      partialSentence mid c
        (b1 || decide (("{flags}".toList, c.flags) ∈ order))
        (b2 || decide (("{who}".toList, c.who) ∈ order))
        (b3 || decide (("{role}".toList, c.role) ∈ order))
        (b4 || decide (("{scope}".toList, c.scope) ∈ order)) := by
  induction order generalizing b1 b2 b3 b4 with
  | nil => simp [interpolateInOrder]
  | cons p rest ih =>
    have hp := hord p (List.mem_cons_self _ _)
    have hrest : ∀ q ∈ rest, q ∈ placeholders c := fun q hq => hord q (List.mem_cons_of_mem _ hq)
    obtain ⟨s1, s2, s3, s4⟩ := replaceAll_partialSentence mid c b1 b2 b3 b4 hm hf hw hr hs
    have d12 : "{flags}".toList ≠ "{who}".toList := by decide
    have d13 : "{flags}".toList ≠ "{role}".toList := by decide
    have d14 : "{flags}".toList ≠ "{scope}".toList := by decide
    have d23 : "{who}".toList ≠ "{role}".toList := by decide
    have d24 : "{who}".toList ≠ "{scope}".toList := by decide
    have d34 : "{role}".toList ≠ "{scope}".toList := by decide
    simp only [placeholders, List.mem_cons, List.mem_nil_iff, or_false] at hp
    have hfold : interpolateInOrder (p :: rest) (partialSentence mid c b1 b2 b3 b4)
        = interpolateInOrder rest (ReplaceAll (partialSentence mid c b1 b2 b3 b4) p.1 p.2) := rfl
    rw [hfold]
    rcases hp with hp | hp | hp | hp <;> subst hp
    · rw [s1, ih hrest]
      simp [d12.symm, d13.symm, d14.symm]
    · rw [s2, ih hrest]
      simp [d12, d23.symm, d24.symm]
    · rw [s3, ih hrest]
      simp [d13, d23, d34.symm]
    · rw [s4, ih hrest]
      simp [d14, d24, d34]

theorem templates_shape :
    ∀ e ∈ templates,
      e.2 = "{flags}".toList ++ ("{who}".toList ++ (connector e.2 ++
        ("{role}".toList ++ "{scope}".toList))) ∧ '{' ∉ connector e.2 := by
  decide

theorem substituteAtOnce_template (c : Segments) :
    ∀ e ∈ templates,
      substituteAtOnce (placeholders c) e.2
        = c.flags ++ (c.who ++ (connector e.2 ++ (c.role ++ c.scope))) := by
  intro e he
  simp only [templates, List.mem_cons, List.mem_nil_iff, or_false] at he
  rcases he with rfl | rfl | rfl | rfl | rfl | rfl | rfl | rfl | rfl | rfl | rfl <;>
    simp [substituteAtOnce, substituteAtOnceAux, placeholders, connector, String.toList,
      List.find?, List.isPrefixOf]

/-- What a successful `prepare` returns. -/
theorem prepare_ok_inv (lang flags who role scope : GoString) (c : Segments)
    (h : prepare lang flags who role scope = .ok c) :
    templates.lookup lang = some c.template ∧
    (c.flags = [] ∨ (allDigits (TrimSpace flags) = true ∧
      c.flags = sortedDigits (TrimSpace flags) ++ [' '])) ∧
    (c.who = TrimSpace who ∨ pronounTranslations.lookup lang = some c.who) ∧
    c.role = TrimSpace role ∧
    (c.scope = [] ∨ ∃ st, scopeTemplates.lookup lang = some st ∧
      c.scope = ' ' :: ReplaceAll st "{org}".toList (TrimSpace scope)) := by
  by_cases hr : TrimSpace role = []
  · rw [prepare_emptyRole _ _ _ _ _ hr] at h; cases h
  by_cases hf : TrimSpace flags = [] ∨ allDigits (TrimSpace flags) = true
  swap
  · have hf1 : TrimSpace flags ≠ [] := fun e => hf (Or.inl e)
    have hf2 : allDigits (TrimSpace flags) = false := by
      cases hd : allDigits (TrimSpace flags) with
      | false => rfl
      | true => exact absurd (Or.inr hd) hf
    rw [prepare_invalidFlags _ _ _ _ _ hr hf1 hf2] at h; cases h
  by_cases hl : len (TrimSpace flags) ≤ 10
  swap
  · rw [prepare_flagsTooLong _ _ _ _ _ hr hf (by omega)] at h; cases h
  rw [prepare_valid _ _ _ _ _ hr hf hl] at h
  have hflags : ∀ x : GoString,
      x = (if TrimSpace flags = [] then TrimSpace flags
        else sortedDigits (TrimSpace flags) ++ [' ']) →
      (x = [] ∨ (allDigits (TrimSpace flags) = true ∧
        x = sortedDigits (TrimSpace flags) ++ [' '])) := by
    intro x hx
    by_cases he : TrimSpace flags = []
    · left; rw [hx, if_pos he, he]
    · right
      rw [if_neg he] at hx
      rcases hf with hf | hf
      · exact absurd hf he
      · exact ⟨hf, hx⟩
  cases hp : pronounTranslations.lookup lang <;> cases ht : templates.lookup lang <;>
    cases hs : scopeTemplates.lookup lang <;>
    by_cases hw : TrimSpace who = [] <;> by_cases hsc : TrimSpace scope = [] <;>
    simp only [hp, ht, hs, hw, hsc, if_true, if_false, Except.bind, reduceCtorEq,
      Except.ok.injEq] at h <;>
    (subst h
     refine ⟨rfl, hflags _ rfl, ?_, rfl, ?_⟩
     · first
       | exact Or.inl rfl
       | exact Or.inr rfl
     · first
       | exact Or.inl rfl
       | exact Or.inr ⟨_, rfl, rfl⟩)

theorem not_mem_TrimSpace (x : GoString) (a : Char) (h : a ∉ x) : a ∉ TrimSpace x := by
  intro hm
  apply h
  unfold TrimSpace at hm
  exact (List.dropWhile_suffix _).subset ((List.rdropWhile_prefix _ _).subset hm)

theorem pronoun_no_brace : ∀ e ∈ pronounTranslations, '{' ∉ e.2 := by decide

theorem scopeTemplates_shape :
    ∀ e ∈ scopeTemplates,
      e.2 = e.2.take (e.2.length - 5) ++ "{org}".toList ∧
      '{' ∉ e.2.take (e.2.length - 5) := by
  decide

theorem scope_no_brace (st v : GoString) (lang : GoString)
    (hst : scopeTemplates.lookup lang = some st) (hv : '{' ∉ v) :
    '{' ∉ ReplaceAll st "{org}".toList v := by
  obtain ⟨e1, e2⟩ := scopeTemplates_shape _ (mem_of_lookup_eq_some _ _ _ hst)
  simp only at e1 e2
  have n : ("{org}".toList).isEmpty = false := rfl
  have ho : "{org}".toList = '{' :: "{org}".toList.tail := rfl
  rw [e1]
  simp only [ReplaceAll, n, Bool.false_eq_true, if_false]
  rw [replaceAllAux_inert _ _ _ _ (inertFor_text_of_eq _ _ _ ho e2)]
  have := replaceAllAux_match '{' "{org}".toList.tail v []
  simp only [List.append_nil] at this
  rw [ho, this]
  simp only [replaceAllAux, List.append_nil, List.mem_append, not_or]
  exact ⟨e2, hv⟩

theorem sortedDigits_no_brace (f : GoString) (h : allDigits f = true) :
    '{' ∉ sortedDigits f ++ [' '] := by
  have hall := ((allDigits_iff f).1 h).2
  simp only [List.mem_append, List.mem_singleton, not_or]
  refine ⟨?_, by decide⟩
  intro hm
  have : '{' ∈ f := (List.perm_insertionSort _ f).mem_iff.1 hm
  exact absurd (hall _ this) (by decide)

/-- C9, as stated, fails: with `who` equal to "{role}" and the role "admin" the
four replacements of the source give "admin as admin", while the simultaneous
substitution, and the replacements made in the order `{role}`, `{who}`,
`{flags}`, `{scope}`, give "{role} as admin". -/
theorem interpolation_order_counterexample :
    prepare "en".toList "".toList "{role}".toList "admin".toList "".toList
      = .ok ⟨"{flags}{who} as {role}{scope}".toList, [], "{role}".toList, "admin".toList, []⟩ ∧
    renderSentence "en".toList "".toList "{role}".toList "admin".toList "".toList
      = .ok "admin as admin".toList ∧
    substituteAtOnce
        (placeholders
          ⟨"{flags}{who} as {role}{scope}".toList, [], "{role}".toList, "admin".toList, []⟩)
        "{flags}{who} as {role}{scope}".toList
      = "{role} as admin".toList ∧
    interpolateInOrder
        [("{role}".toList, "admin".toList), ("{who}".toList, "{role}".toList),
         ("{flags}".toList, []), ("{scope}".toList, [])]
        "{flags}{who} as {role}{scope}".toList
      = "{role} as admin".toList := by
  decide

/-- C9, amended. When none of `who`, role and scope holds an opening brace and
`CreateAlias` gets as far as the interpolation, the sentence built by the four
replacements of the source is also the result of the replacements made in any
other order, and of the simultaneous substitution of the four placeholders. -/
theorem interpolation_order_independent (lang flags who role scope : GoString)
    (c : Segments) (hc : prepare lang flags who role scope = .ok c)
    (hw : '{' ∉ who) (hr : '{' ∉ role) (hs : '{' ∉ scope) :
    renderSentence lang flags who role scope = .ok (interpolate c) ∧
    (∀ order : List (GoString × GoString), order.Perm (placeholders c) →
      interpolateInOrder order c.template = interpolate c) ∧
    substituteAtOnce (placeholders c) c.template = interpolate c := by
  obtain ⟨ht, hflags, hwho, hrole, hscope⟩ := prepare_ok_inv _ _ _ _ _ c hc
  have hmem := mem_of_lookup_eq_some _ _ _ ht
  obtain ⟨hshape, hmid⟩ := templates_shape _ hmem
  simp only at hshape hmid
  have cf : '{' ∉ c.flags := by
    rcases hflags with h | ⟨hd, h⟩
    · rw [h]; simp
    · rw [h]; exact sortedDigits_no_brace _ hd
  have cw : '{' ∉ c.who := by
    rcases hwho with h | h
    · rw [h]; exact not_mem_TrimSpace _ _ hw
    · exact pronoun_no_brace _ (mem_of_lookup_eq_some _ _ _ h)
  have cr : '{' ∉ c.role := by
    rw [hrole]; exact not_mem_TrimSpace _ _ hr
  have cs : '{' ∉ c.scope := by
    rcases hscope with h | ⟨st, hst, h⟩
    · rw [h]; simp
    · rw [h]
      simp only [List.mem_cons, not_or]
      exact ⟨by decide, scope_no_brace st _ lang hst (not_mem_TrimSpace _ _ hs)⟩
  have hstart : c.template = partialSentence (connector c.template) c false false false false := by
    simp only [partialSentence, Bool.false_eq_true, if_false]
    exact hshape
  have hall : ∀ order : List (GoString × GoString), order.Perm (placeholders c) →
      interpolateInOrder order c.template
        = c.flags ++ (c.who ++ (connector c.template ++ (c.role ++ c.scope))) := by
    intro order hperm
    have hord : ∀ p ∈ order, p ∈ placeholders c := fun p hp => hperm.mem_iff.1 hp
    have m1 : ("{flags}".toList, c.flags) ∈ order := hperm.mem_iff.2 (by simp [placeholders])
    have m2 : ("{who}".toList, c.who) ∈ order := hperm.mem_iff.2 (by simp [placeholders])
    have m3 : ("{role}".toList, c.role) ∈ order := hperm.mem_iff.2 (by simp [placeholders])
    have m4 : ("{scope}".toList, c.scope) ∈ order := hperm.mem_iff.2 (by simp [placeholders])
    have := interpolateInOrder_partialSentence (connector c.template) c hmid cf cw cr cs
      order hord false false false false
    rw [← hstart] at this
    rw [this, decide_eq_true m1, decide_eq_true m2, decide_eq_true m3, decide_eq_true m4]
    rfl
  have hsrc : interpolate c = interpolateInOrder (placeholders c) c.template := rfl
  have hseq : interpolate c
      = c.flags ++ (c.who ++ (connector c.template ++ (c.role ++ c.scope))) := by
    rw [hsrc]; exact hall _ (List.Perm.refl _)
  refine ⟨?_, ?_, ?_⟩
  · simp [renderSentence, hc, Except.map]
  · intro order hperm
    rw [hall order hperm, hseq]
  · rw [substituteAtOnce_template c _ hmem, hseq]

/-- Witness of C9, amended: English, flags "31", `who` "me", role "admin" and
scope "Acme", with the replacements made from `{scope}` back to `{flags}`. -/
theorem interpolation_order_independent_witness :
    renderSentence "en".toList "31".toList "me".toList "admin".toList "Acme".toList
      = .ok "13 me as admin  at Acme".toList ∧
    interpolateInOrder
        [("{scope}".toList, "  at Acme".toList), ("{role}".toList, "admin".toList),
         ("{who}".toList, "me".toList), ("{flags}".toList, "13 ".toList)]
        "{flags}{who} as {role}{scope}".toList
      = "13 me as admin  at Acme".toList ∧
    substituteAtOnce
        [("{flags}".toList, "13 ".toList), ("{who}".toList, "me".toList),
         ("{role}".toList, "admin".toList), ("{scope}".toList, "  at Acme".toList)]
        "{flags}{who} as {role}{scope}".toList
      = "13 me as admin  at Acme".toList :=
  have h := interpolation_order_independent "en".toList "31".toList "me".toList
    "admin".toList "Acme".toList
    ⟨"{flags}{who} as {role}{scope}".toList, "13 ".toList, "me".toList, "admin".toList,
      "  at Acme".toList⟩
    (by decide) (by decide) (by decide) (by decide)
  ⟨h.1, h.2.1 _ (by decide), h.2.2⟩

/-! ## The reference database is standard -/

theorem refToLower_of_not_upper (c : Char)
    (h : ¬ ((0x41 ≤ c.toNat ∧ c.toNat ≤ 0x5A) ∨ (0xC0 ≤ c.toNat ∧ c.toNat ≤ 0xD6) ∨
      (0xD8 ≤ c.toNat ∧ c.toNat ≤ 0xDE))) :
    refToLower c = c := by
  simp only [not_or, not_and, not_le] at h
  obtain ⟨h1, h2, h3⟩ := h
  have a1 : (0x41 ≤ c.toNat && c.toNat ≤ 0x5A) = false := by
    simp only [Bool.and_eq_false_imp, decide_eq_true_eq, decide_eq_false_iff_not, not_le]
    exact h1
  have a2 : (0xC0 ≤ c.toNat && c.toNat ≤ 0xD6) = false := by
    simp only [Bool.and_eq_false_imp, decide_eq_true_eq, decide_eq_false_iff_not, not_le]
    exact h2
  have a3 : (0xD8 ≤ c.toNat && c.toNat ≤ 0xDE) = false := by
    simp only [Bool.and_eq_false_imp, decide_eq_true_eq, decide_eq_false_iff_not, not_le]
    exact h3
  simp only [refToLower, refLowercase, List.find?, a1, a2, a3]

theorem refToLower_idem (c : Char) : refToLower (refToLower c) = refToLower c := by
  by_cases h : (0x41 ≤ c.toNat ∧ c.toNat ≤ 0x5A) ∨ (0xC0 ≤ c.toNat ∧ c.toNat ≤ 0xD6) ∨
      (0xD8 ≤ c.toNat ∧ c.toNat ≤ 0xDE)
  · have hc : c = Char.ofNat c.toNat := (Char.ofNat_toNat c).symm
    rw [hc]
    generalize c.toNat = n at h
    rcases h with ⟨h1, h2⟩ | ⟨h1, h2⟩ | ⟨h1, h2⟩ <;> interval_cases n <;> decide
  · rw [refToLower_of_not_upper c h, refToLower_of_not_upper c h]

theorem refUnicode_standard : refUnicode.Standard where
  category_hyphen := by decide
  category_space := by decide
  category_punctLiterals := by decide
  toLower_hyphen := by decide
  toLower_toLower := refToLower_idem

/-! ## Normalising a normalised text -/

theorem disallowed_hyphen (U : UnicodeData) (hU : U.Standard) :
    disallowedPattern U '-' = true := by
  simp [disallowedPattern, hU.category_hyphen, disallowedCategories]

theorem disallowed_space (U : UnicodeData) (hU : U.Standard) :
    disallowedPattern U ' ' = false := by
  simp [disallowedPattern, hU.category_space, disallowedCategories]

theorem punct_hyphen (U : UnicodeData) (hU : U.Standard) :
    punctToSpacePattern U '-' = true := by
  simp [punctToSpacePattern, hU.category_hyphen, punctToSpaceCategories]

theorem punctToSpaceCategories_disallowed (k : GeneralCategory)
    (hk : k ∈ punctToSpaceCategories) : k ∈ disallowedCategories := by
  simp only [punctToSpaceCategories, List.mem_cons, List.mem_nil_iff, or_false] at hk
  rcases hk with rfl | rfl | rfl | rfl | rfl <;> decide

theorem punctuation_disallowed (k : GeneralCategory)
    (hk : k ∈ [GeneralCategory.Pc, .Pd, .Ps, .Pe, .Pi, .Pf, .Po]) :
    k ∈ disallowedCategories := by
  simp only [List.mem_cons, List.mem_nil_iff, or_false] at hk
  rcases hk with rfl | rfl | rfl | rfl | rfl | rfl | rfl <;> decide

theorem punct_of_not_disallowed (U : UnicodeData) (hU : U.Standard) (c : Char)
    (h : disallowedPattern U c = false) : punctToSpacePattern U c = false := by
  rw [disallowedPattern_eq_false] at h
  simp only [punctToSpacePattern, Bool.or_eq_false_iff, List.contains_eq_any_beq,
    List.any_eq_false, beq_iff_eq]
  constructor
  · intro k hk hck
    apply h
    rw [hck]
    exact punctToSpaceCategories_disallowed k hk
  · intro d hd hcd
    subst hcd
    exact h (punctuation_disallowed _ (hU.category_punctLiterals c hd))

theorem mem_replaceClass (cls : Char → Bool) (repl s : GoString) (c : Char)
    (h : c ∈ replaceClass cls repl s) : c ∈ repl ∨ (c ∈ s ∧ cls c = false) := by
  unfold replaceClass at h
  simp only [List.mem_flatMap] at h
  obtain ⟨a, ha, hc⟩ := h
  by_cases hcl : cls a = true
  · simp only [hcl, if_true] at hc
    exact Or.inl hc
  · simp only [hcl, Bool.false_eq_true, if_false, List.mem_singleton] at hc
    subst hc
    exact Or.inr ⟨ha, by simpa using hcl⟩

theorem mem_of_mem_stripEdges (s : GoString) (c : Char) (h : c ∈ stripEdges s) : c ∈ s := by
  unfold stripEdges at h
  exact (List.dropWhile_suffix _).subset ((List.rdropWhile_prefix _ _).subset h)

/-- The characters of the text that reaches the last step of `normalizeUnicode`:
none is disallowed, and each is a space or a lower-case image. -/
theorem mem_beforeCollapse (U : UnicodeData) (s : GoString) (c : Char)
    (h : c ∈ replaceClass (disallowedPattern U) []
      (stripEdges (replaceClass (punctToSpacePattern U) " ".toList (ToLower U (U.nfkc s))))) :
    disallowedPattern U c = false ∧ (c = ' ' ∨ ∃ x, U.toLower x = c) := by
  obtain ⟨h1, h2⟩ := (mem_replaceClass_nil _ _ _).1 h
  refine ⟨h2, ?_⟩
  rcases mem_replaceClass _ _ _ _ (mem_of_mem_stripEdges _ _ h1) with h3 | ⟨h3, _⟩
  · left; simpa using h3
  · right
    unfold ToLower at h3
    obtain ⟨x, _, hx⟩ := List.mem_map.1 h3
    exact ⟨x, hx⟩

/-- The collapse of a text without hyphens has no two hyphens in a row, and
does not begin with a hyphen when it continues a run. -/
theorem replaceRunsAux_noDoubleHyphen (s : GoString) (hs : '-' ∉ s) (b : Bool) :
    NoDoubleHyphen (replaceRunsAux whitespacePattern "-".toList b s) ∧
    (b = true → (replaceRunsAux whitespacePattern "-".toList b s).head? ≠ some '-') := by
  induction s generalizing b with
  | nil =>
    simp [replaceRunsAux, NoDoubleHyphen]
  | cons c cs ih =>
    simp only [List.mem_cons, not_or] at hs
    obtain ⟨hc, hcs⟩ := hs
    unfold replaceRunsAux
    by_cases hw : whitespacePattern c = true
    · simp only [hw, if_true]
      cases b with
      | true =>
        obtain ⟨i1, i2⟩ := ih hcs true
        exact ⟨i1, fun _ => i2 rfl⟩
      | false =>
        simp only [Bool.false_eq_true, if_false, false_implies, and_true]
        obtain ⟨i1, i2⟩ := ih hcs true
        show NoDoubleHyphen ('-' :: replaceRunsAux whitespacePattern "-".toList true cs)
        unfold NoDoubleHyphen at i1 ⊢
        rw [List.chain'_cons']
        refine ⟨?_, i1⟩
        intro d hd hdd
        apply i2 rfl
        rw [Option.mem_def] at hd
        rw [hd, hdd.2]
    · simp only [hw, Bool.false_eq_true, if_false]
      obtain ⟨i1, _⟩ := ih hcs false
      constructor
      · unfold NoDoubleHyphen at i1 ⊢
        rw [List.chain'_cons']
        refine ⟨?_, i1⟩
        intro d _ hdd
        exact hc hdd.1.symm
      · intro _
        simp only [List.head?_cons, ne_eq, Option.some.injEq]
        exact fun e => hc e.symm

/-- The output of `normalizeUnicode`: no two hyphens in a row, and every other
character is neither disallowed nor white space and is its own lower case. -/
theorem normalizeUnicode_shape (U : UnicodeData) (hU : U.Standard) (s : GoString) :
    NoDoubleHyphen (normalizeUnicode U s) ∧
    ∀ c ∈ normalizeUnicode U s, c ≠ '-' →
      disallowedPattern U c = false ∧ whitespacePattern c = false ∧ U.toLower c = c := by
  have hno : '-' ∉ replaceClass (disallowedPattern U) []
      (stripEdges (replaceClass (punctToSpacePattern U) " ".toList (ToLower U (U.nfkc s)))) := by
    intro hm
    have := (mem_beforeCollapse U s _ hm).1
    rw [disallowed_hyphen U hU] at this
    cases this
  constructor
  · exact (replaceRunsAux_noDoubleHyphen _ hno false).1
  · intro c hc hne
    unfold normalizeUnicode replaceRuns at hc
    rcases mem_replaceRunsAux _ _ _ _ _ hc with h | ⟨h, hw⟩
    · exact absurd (by simpa using h) hne
    · obtain ⟨h1, h2⟩ := mem_beforeCollapse U s c h
      refine ⟨h1, hw, ?_⟩
      rcases h2 with h2 | ⟨x, hx⟩
      · subst h2; cases hw
      · rw [← hx, hU.toLower_toLower]

/-- The collapse gives back a text in which every hyphen was turned into a
space, when the text has no two hyphens in a row and no white space. -/
theorem replaceRunsAux_restore (o : GoString) (h1 : NoDoubleHyphen o)
    (h2 : ∀ c ∈ o, c ≠ '-' → whitespacePattern c = false) (b : Bool)
    (hb : b = true → o.head? ≠ some '-') :
    replaceRunsAux whitespacePattern "-".toList b
      (o.map (fun c => if c = '-' then ' ' else c)) = o := by
  induction o generalizing b with
  | nil => rfl
  | cons c cs ih =>
    unfold NoDoubleHyphen at h1
    rw [List.chain'_cons'] at h1
    obtain ⟨hhead, htail⟩ := h1
    have h2' : ∀ d ∈ cs, d ≠ '-' → whitespacePattern d = false :=
      fun d hd => h2 d (List.mem_cons_of_mem _ hd)
    simp only [List.map_cons]
    unfold replaceRunsAux
    by_cases hc : c = '-'
    · subst hc
      have hbf : b = false := by
        cases b with
        | false => rfl
        | true => exact absurd rfl (hb rfl)
      subst hbf
      have hnext : cs.head? ≠ some '-' := by
        intro e
        exact hhead '-' (by rw [Option.mem_def]; exact e) ⟨rfl, rfl⟩
      have := ih htail h2' true (fun _ => hnext)
      simp only [if_true, Bool.false_eq_true, if_false]
      have hw : whitespacePattern ' ' = true := by decide
      rw [if_pos hw, this]
      rfl
    · have hw := h2 c (List.mem_cons_self _ _) hc
      simp only [hc, if_false, hw, Bool.false_eq_true]
      rw [ih htail h2' false (fun e => by cases e)]

theorem replaceClass_eq_map (cls : Char → Bool) (o : GoString)
    (h : ∀ c ∈ o, c = '-' ∨ cls c = false) (hh : cls '-' = true) :
    replaceClass cls " ".toList o = o.map (fun c => if c = '-' then ' ' else c) := by
  induction o with
  | nil => rfl
  | cons c cs ih =>
    have ih' := ih (fun d hd => h d (List.mem_cons_of_mem _ hd))
    unfold replaceClass at ih' ⊢
    simp only [List.flatMap_cons, List.map_cons, ih']
    by_cases hc : c = '-'
    · subst hc
      simp [hh]
    · rcases h c (List.mem_cons_self _ _) with h | h
      · exact absurd h hc
      · simp [hc, h]

theorem replaceClass_nil_eq_self (cls : Char → Bool) (o : GoString)
    (h : ∀ c ∈ o, cls c = false) : replaceClass cls [] o = o := by
  induction o with
  | nil => rfl
  | cons c cs ih =>
    have ih' := ih (fun d hd => h d (List.mem_cons_of_mem _ hd))
    unfold replaceClass at ih' ⊢
    simp only [List.flatMap_cons, ih', h c (List.mem_cons_self _ _), Bool.false_eq_true,
      if_false, List.singleton_append]

theorem stripEdges_eq_self (t : GoString)
    (hh : ∀ c, t.head? = some c → whitespacePattern c = false)
    (hl : ∀ c, t.getLast? = some c → whitespacePattern c = false) :
    stripEdges t = t := by
  unfold stripEdges
  have e1 : t.dropWhile whitespacePattern = t := by
    cases t with
    | nil => rfl
    | cons c cs =>
      have := hh c rfl
      simp [List.dropWhile, this]
  rw [e1, List.rdropWhile_eq_self_iff]
  intro hne
  rw [Bool.not_eq_true]
  exact hl _ (List.getLast?_eq_getLast _ hne)

/-- C1, as stated, fails.  The dollar of "$ a" is deleted after the edges were
stripped, so the output "-a" begins with a hyphen, and normalising "-a" gives
"a".  A deleted symbol can also bring two Hangul jamo together (U+1100 and
U+1161), which NFKC then composes into the syllable U+AC00. -/
theorem normalize_idempotent_counterexample :
    normalizeUnicode refUnicode "$ a".toList = "-a".toList ∧
    normalizeUnicode refUnicode (normalizeUnicode refUnicode "$ a".toList) = "a".toList ∧
    normalizeUnicode refUnicode (normalizeUnicode refUnicode "$ a".toList)
      ≠ normalizeUnicode refUnicode "$ a".toList ∧
    normalizeUnicode refUnicode [Char.ofNat 0x1100, '$', Char.ofNat 0x1161]
      = [Char.ofNat 0x1100, Char.ofNat 0x1161] ∧
    normalizeUnicode refUnicode
        (normalizeUnicode refUnicode [Char.ofNat 0x1100, '$', Char.ofNat 0x1161])
      = [Char.ofNat 0xAC00] := by
  decide

/-- C1, amended. Over a standard Unicode database, normalising the output of
`normalizeUnicode` gives that output again whenever the output neither begins
nor ends with a hyphen and is in the form NFKC. -/
theorem normalize_idempotent (U : UnicodeData) (hU : U.Standard) (s : GoString)
    (hn : U.nfkc (normalizeUnicode U s) = normalizeUnicode U s)
    (hh : (normalizeUnicode U s).head? ≠ some '-')
    (hl : (normalizeUnicode U s).getLast? ≠ some '-') :
    normalizeUnicode U (normalizeUnicode U s) = normalizeUnicode U s := by
  obtain ⟨hchain, hmem⟩ := normalizeUnicode_shape U hU s
  generalize normalizeUnicode U s = o at hn hh hl hchain hmem
  -- 2. lower-casing changes nothing
  have hlow : ToLower U o = o := by
    unfold ToLower
    calc o.map U.toLower = o.map id := by
          apply List.map_congr_left
          intro c hc
          by_cases hc' : c = '-'
          · subst hc'; exact hU.toLower_hyphen
          · exact (hmem c hc hc').2.2
      _ = o := List.map_id o
  -- 3. the hyphens become spaces
  have hpunct : replaceClass (punctToSpacePattern U) " ".toList o
      = o.map (fun c => if c = '-' then ' ' else c) := by
    apply replaceClass_eq_map _ _ _ (punct_hyphen U hU)
    intro c hc
    by_cases hc' : c = '-'
    · exact Or.inl hc'
    · exact Or.inr (punct_of_not_disallowed U hU c (hmem c hc hc').1)
  -- 4. no white space at the edges
  have hstrip : stripEdges (o.map (fun c => if c = '-' then ' ' else c))
      = o.map (fun c => if c = '-' then ' ' else c) := by
    apply stripEdges_eq_self
    · intro c hc
      rw [List.head?_map] at hc
      cases ho : o.head? with
      | none => rw [ho] at hc; cases hc
      | some d =>
        rw [ho] at hc hh
        have hd : d ≠ '-' := fun e => hh (by rw [e])
        simp only [Option.map_some', hd, if_false, Option.some.injEq] at hc
        subst hc
        exact (hmem d (List.mem_of_mem_head? ho) hd).2.1
    · intro c hc
      rw [List.getLast?_map] at hc
      cases ho : o.getLast? with
      | none => rw [ho] at hc; cases hc
      | some d =>
        rw [ho] at hc hl
        have hd : d ≠ '-' := fun e => hl (by rw [e])
        simp only [Option.map_some', hd, if_false, Option.some.injEq] at hc
        subst hc
        exact (hmem d (List.mem_of_mem_getLast? ho) hd).2.1
  -- 5. nothing is disallowed
  have hdel : replaceClass (disallowedPattern U) [] (o.map (fun c => if c = '-' then ' ' else c))
      = o.map (fun c => if c = '-' then ' ' else c) := by
    apply replaceClass_nil_eq_self
    intro c hc
    obtain ⟨d, hd, hdc⟩ := List.mem_map.1 hc
    by_cases hd' : d = '-'
    · simp only [hd', if_true] at hdc
      rw [← hdc]; exact disallowed_space U hU
    · simp only [hd', if_false] at hdc
      rw [← hdc]; exact (hmem d hd hd').1
  -- 6. every space becomes a hyphen again
  have hrun := replaceRunsAux_restore o hchain (fun c hc hc' => (hmem c hc hc').2.1) false
    (fun e => by cases e)
  show replaceRuns whitespacePattern "-".toList
      (replaceClass (disallowedPattern U) []
        (stripEdges (replaceClass (punctToSpacePattern U) " ".toList
          (ToLower U (U.nfkc o))))) = o
  rw [hn, hlow, hpunct, hstrip, hdel]
  exact hrun

/-- Witness of C1, amended: the text " Moi, comme  Admin! " is normalised to
"moi-comme-admin", which is normalised to itself. -/
theorem normalize_idempotent_witness :
    normalizeUnicode refUnicode " Moi, comme  Admin! ".toList = "moi-comme-admin".toList ∧
    normalizeUnicode refUnicode (normalizeUnicode refUnicode " Moi, comme  Admin! ".toList)
      = normalizeUnicode refUnicode " Moi, comme  Admin! ".toList :=
  ⟨by decide, normalize_idempotent refUnicode refUnicode_standard
    " Moi, comme  Admin! ".toList (by decide) (by decide) (by decide)⟩

/-! ## Trimming the fields -/

theorem TrimSpace_cons_space (c : Char) (s : GoString) (h : isSpace c = true) :
    TrimSpace (c :: s) = TrimSpace s := by
  unfold TrimSpace
  rw [List.dropWhile_cons_of_pos h]

theorem TrimSpace_concat_space (c : Char) (s : GoString) (h : isSpace c = true) :
    TrimSpace (s ++ [c]) = TrimSpace s := by
  unfold TrimSpace
  rw [List.dropWhile_append]
  by_cases he : s.dropWhile isSpace = []
  · simp [he, List.dropWhile, h, List.rdropWhile]
  · have : (s.dropWhile isSpace).isEmpty = false := by
      cases hd : s.dropWhile isSpace with
      | nil => exact absurd hd he
      | cons _ _ => rfl
    rw [this]
    simp only [Bool.false_eq_true, if_false]
    exact List.rdropWhile_concat_pos _ _ _ h

theorem TrimSpace_append_left (l s : GoString) (h : ∀ c ∈ l, isSpace c = true) :
    TrimSpace (l ++ s) = TrimSpace s := by
  induction l with
  | nil => rfl
  | cons c l ih =>
    rw [List.cons_append, TrimSpace_cons_space c _ (h c (List.mem_cons_self _ _))]
    exact ih (fun d hd => h d (List.mem_cons_of_mem _ hd))

theorem TrimSpace_append_right (s r : GoString) (h : ∀ c ∈ r, isSpace c = true) :
    TrimSpace (s ++ r) = TrimSpace s := by
  induction r using List.reverseRecOn with
  | nil => simp
  | append_singleton r c ih =>
    rw [← List.append_assoc, TrimSpace_concat_space c _ (h c (by simp))]
    exact ih (fun d hd => h d (by simp [hd]))

theorem TrimSpace_of_padded (s t : GoString) (h : Padded s t) : TrimSpace t = TrimSpace s := by
  obtain ⟨l, r, hl, hr, rfl⟩ := h
  rw [TrimSpace_append_right _ r hr, TrimSpace_append_left l s hl]

/-- The result of `prepare` depends on the four fields only through their
trimmed forms. -/
theorem prepare_congr_trim (lang f w r s f' w' r' s' : GoString)
    (hf : TrimSpace f' = TrimSpace f) (hw : TrimSpace w' = TrimSpace w)
    (hr : TrimSpace r' = TrimSpace r) (hs : TrimSpace s' = TrimSpace s) :
    prepare lang f' w' r' s' = prepare lang f w r s := by
  simp only [prepare, hf, hw, hr, hs]

/-- C13. White space added before or after any of the four fields does not
change the result of `CreateAlias`; so a `who` of white space only gives what
the empty `who` of the implicit speaker gives, and a role of white space only
gives `EmptyRole`. -/
theorem trim_invariance (U : UnicodeData) (lang flags who role scope : GoString) :
    (∀ flags' who' role' scope' : GoString,
      Padded flags flags' → Padded who who' → Padded role role' → Padded scope scope' →
      CreateAlias U lang flags' who' role' scope' = CreateAlias U lang flags who role scope) ∧
    ((∀ c ∈ who, isSpace c = true) →
      CreateAlias U lang flags who role scope = CreateAlias U lang flags ME_AS_ARG role scope) ∧
    ((∀ c ∈ role, isSpace c = true) →
      CreateAlias U lang flags who role scope = .error .EmptyRole) := by
  refine ⟨?_, ?_, ?_⟩
  · intro flags' who' role' scope' hf hw hr hs
    simp only [CreateAlias, renderSentence,
      prepare_congr_trim lang flags who role scope flags' who' role' scope'
        (TrimSpace_of_padded _ _ hf) (TrimSpace_of_padded _ _ hw)
        (TrimSpace_of_padded _ _ hr) (TrimSpace_of_padded _ _ hs)]
  · intro hw
    have h : TrimSpace who = TrimSpace ME_AS_ARG := by
      have := TrimSpace_append_left who [] hw
      simpa using this
    simp only [CreateAlias, renderSentence,
      prepare_congr_trim lang flags ME_AS_ARG role scope flags who role scope rfl h rfl rfl]
  · intro hr
    have h : TrimSpace role = [] := by
      have := TrimSpace_append_left role [] hr
      simpa using this
    exact CreateAlias_of_error U _ _ _ _ _ _ (prepare_emptyRole lang flags who role scope h)

/-- Witness of C13: blanks, a tab, a no-break space (U+00A0) and an ideographic
space (U+3000) around the fields. -/
theorem trim_invariance_witness :
    CreateAlias refUnicode "en".toList " 31\t".toList [' ', Char.ofNat 0x3000]
        [Char.ofNat 0xA0, 'a', 'd', 'm', 'i', 'n', '\n'] "  Acme ".toList
      = CreateAlias refUnicode "en".toList "31".toList "".toList "admin".toList "Acme".toList ∧
    CreateAlias refUnicode "en".toList "31".toList "".toList "admin".toList "Acme".toList
      = .ok "13-me-as-admin-at-acme".toList ∧
    CreateAlias refUnicode "en".toList "".toList "".toList [' ', Char.ofNat 0x2003] "".toList
      = .error .EmptyRole :=
  ⟨(trim_invariance refUnicode "en".toList "31".toList "".toList "admin".toList
      "Acme".toList).1 _ _ _ _
      ⟨" ".toList, "\t".toList, by decide, by decide, rfl⟩
      ⟨[' ', Char.ofNat 0x3000], [], by decide, by decide, rfl⟩
      ⟨[Char.ofNat 0xA0], "\n".toList, by decide, by decide, rfl⟩
      ⟨"  ".toList, " ".toList, by decide, by decide, rfl⟩,
   by decide,
   (trim_invariance refUnicode "en".toList "".toList "".toList [' ', Char.ofNat 0x2003]
      "".toList).2.2 (by decide)⟩

/-! ## Hyphens and white space in the output -/

theorem normalizeUnicode_eq_trimmedText (U : UnicodeData) (s : GoString) :
    normalizeUnicode U s
      = replaceRunsAux whitespacePattern "-".toList false
          (replaceClass (disallowedPattern U) [] (trimmedText U s)) := rfl

/-- C18. Over a standard Unicode database the output of `normalizeUnicode`
never holds two hyphens in a row. -/
theorem no_double_hyphen (U : UnicodeData) (hU : U.Standard) (s : GoString) :
    ¬ ("--".toList <:+: normalizeUnicode U s) := by
  intro h
  have hs := (normalizeUnicode_shape U hU s).1
  obtain ⟨l, r, hlr⟩ := h
  rw [← hlr] at hs
  unfold NoDoubleHyphen at hs
  have hc := hs.left_of_append.right_of_append
  have h2 : "--".toList = ['-', '-'] := rfl
  rw [h2, List.chain'_cons] at hc
  exact hc.1 ⟨rfl, rfl⟩

/-- Witness of C18: the dashes and blanks of "a - -- b" give one hyphen. -/
theorem no_double_hyphen_witness :
    normalizeUnicode refUnicode "a - -- b".toList = "a-b".toList ∧
    ¬ ("--".toList <:+: normalizeUnicode refUnicode "a - -- b".toList) :=
  ⟨by decide, no_double_hyphen refUnicode refUnicode_standard "a - -- b".toList⟩

theorem replaceRunsAux_word (cls : Char → Bool) (repl a rest : GoString) (b : Bool)
    (ha : ∀ c ∈ a, cls c = false) (hne : a ≠ []) :
    replaceRunsAux cls repl b (a ++ rest) = a ++ replaceRunsAux cls repl false rest := by
  induction a generalizing b with
  | nil => exact absurd rfl hne
  | cons c cs ih =>
    have hc := ha c (List.mem_cons_self _ _)
    simp only [List.cons_append, replaceRunsAux, hc, Bool.false_eq_true, if_false,
      List.cons.injEq, true_and]
    cases cs with
    | nil => rfl
    | cons d ds =>
      exact ih false (fun x hx => ha x (List.mem_cons_of_mem _ hx)) (by simp)

theorem replaceRunsAux_run (cls : Char → Bool) (repl w rest : GoString)
    (hw : ∀ c ∈ w, cls c = true) :
    replaceRunsAux cls repl true (w ++ rest) = replaceRunsAux cls repl true rest := by
  induction w with
  | nil => rfl
  | cons c cs ih =>
    have hc := hw c (List.mem_cons_self _ _)
    simp only [List.cons_append, replaceRunsAux, hc, if_true]
    exact ih (fun x hx => hw x (List.mem_cons_of_mem _ hx))

theorem replaceRunsAux_after_run (cls : Char → Bool) (repl rest : GoString)
    (h : ∀ c, rest.head? = some c → cls c = false) :
    replaceRunsAux cls repl true rest = replaceRunsAux cls repl false rest := by
  cases rest with
  | nil => rfl
  | cons c cs =>
    have hc := h c rfl
    simp [replaceRunsAux, hc]

/-- One maximal run of the class between a word and the rest of the text is
replaced by one `repl`. -/
theorem replaceRuns_word_run (cls : Char → Bool) (repl a w rest : GoString)
    (ha : ∀ c ∈ a, cls c = false) (hw : ∀ c ∈ w, cls c = true) (hne : w ≠ [])
    (hrest : ∀ c, rest.head? = some c → cls c = false) :
    replaceRuns cls repl (a ++ w ++ rest) = a ++ repl ++ replaceRuns cls repl rest := by
  unfold replaceRuns
  have hrun : replaceRunsAux cls repl false (w ++ rest)
      = repl ++ replaceRunsAux cls repl false rest := by
    cases w with
    | nil => exact absurd rfl hne
    | cons c cs =>
      have hc := hw c (List.mem_cons_self _ _)
      simp only [List.cons_append, replaceRunsAux, hc, if_true, Bool.false_eq_true, if_false,
        List.append_eq]
      rw [replaceRunsAux_run cls repl cs rest (fun x hx => hw x (List.mem_cons_of_mem _ hx)),
        replaceRunsAux_after_run cls repl rest hrest]
  cases a with
  | nil => simpa using hrun
  | cons c cs =>
    rw [List.append_assoc,
      replaceRunsAux_word cls repl (c :: cs) (w ++ rest) false ha (by simp), hrun]
    simp

/-- C11, as stated, fails: the space separators U+1680 and U+2028, which are
not in the class `\s` of Go, pass through `normalizeUnicode`, and the tab of
"a\tb" is deleted as a control character without leaving a hyphen. -/
theorem no_whitespace_counterexample :
    normalizeUnicode refUnicode ['a', Char.ofNat 0x1680, 'b']
      = ['a', Char.ofNat 0x1680, 'b'] ∧
    normalizeUnicode refUnicode ['a', Char.ofNat 0x2028, 'b']
      = ['a', Char.ofNat 0x2028, 'b'] ∧
    refUnicode.category (Char.ofNat 0x1680) = .Zs ∧
    refUnicode.category (Char.ofNat 0x2028) = .Zl ∧
    isSpace (Char.ofNat 0x1680) = true ∧ isSpace (Char.ofNat 0x2028) = true ∧
    normalizeUnicode refUnicode "a\tb".toList = "ab".toList := by
  decide

/-- C11, amended. The output of `normalizeUnicode` holds none of the five
characters of the class `\s` (space, tab, newline, form feed, carriage return),
and in its last step every maximal run of such characters that stands between
a word and the rest of the text becomes exactly one hyphen. -/
theorem no_ascii_whitespace (U : UnicodeData) :
    (∀ (s : GoString), ∀ c ∈ normalizeUnicode U s,
      c ∉ [' ', '\t', '\n', '\x0c', '\r']) ∧
    (∀ a w rest : GoString,
      (∀ c ∈ a, whitespacePattern c = false) → (∀ c ∈ w, whitespacePattern c = true) →
      w ≠ [] → (∀ c, rest.head? = some c → whitespacePattern c = false) →
      replaceRuns whitespacePattern "-".toList (a ++ w ++ rest)
        = a ++ "-".toList ++ replaceRuns whitespacePattern "-".toList rest) := by
  constructor
  · intro s c hc hmem
    rcases mem_normalizeUnicode U s c hc with h | ⟨_, h⟩
    · subst h
      revert hmem
      decide
    · simp only [List.mem_cons, List.mem_nil_iff, or_false] at hmem
      rcases hmem with rfl | rfl | rfl | rfl | rfl <;> exact absurd h (by decide)
  · intro a w rest ha hw hne hrest
    exact replaceRuns_word_run _ _ a w rest ha hw hne hrest

/-- Witness of C11, amended: "Moi \n  comme" keeps no white space, and its one
run of spaces, the newline deleted, gives one hyphen. -/
theorem no_ascii_whitespace_witness :
    normalizeUnicode refUnicode "Moi \n  comme".toList = "moi-comme".toList ∧
    (∀ c ∈ normalizeUnicode refUnicode "Moi \n  comme".toList,
      c ∉ [' ', '\t', '\n', '\x0c', '\r']) ∧
    replaceRuns whitespacePattern "-".toList ("moi".toList ++ "   ".toList ++ "comme".toList)
      = "moi".toList ++ "-".toList ++ replaceRuns whitespacePattern "-".toList "comme".toList :=
  ⟨by decide, (no_ascii_whitespace refUnicode).1 "Moi \n  comme".toList,
   (no_ascii_whitespace refUnicode).2 "moi".toList "   ".toList "comme".toList
    (by decide) (by decide) (by decide) (by decide)⟩

/-! ## Lower case and the edges of the output -/

/-- C14. Over a standard Unicode database the output of `normalizeUnicode` is
in lower case: lower-casing leaves it unchanged, and it holds no ASCII capital
letter. -/
theorem lowercase_output (U : UnicodeData) (hU : U.Standard) (hA : U.StandardAscii)
    (s : GoString) :
    ToLower U (normalizeUnicode U s) = normalizeUnicode U s ∧
    ∀ c ∈ normalizeUnicode U s, c ∉ asciiUpper := by
  obtain ⟨_, hmem⟩ := normalizeUnicode_shape U hU s
  constructor
  · unfold ToLower
    calc (normalizeUnicode U s).map U.toLower = (normalizeUnicode U s).map id := by
          apply List.map_congr_left
          intro c hc
          by_cases hc' : c = '-'
          · subst hc'; exact hU.toLower_hyphen
          · exact (hmem c hc hc').2.2
      _ = normalizeUnicode U s := List.map_id _
  · intro c hc hup
    have hne : c ≠ '-' := by
      intro e
      rw [e] at hup
      revert hup
      decide
    have hfix := (hmem c hc hne).2.2
    have hlow := hA.toLower_upper c hup
    rw [hfix] at hlow
    have hdisj : ∀ d ∈ asciiUpper, d ∉ asciiLower := by decide
    exact hdisj c hup hlow

theorem refUnicode_standardAscii : refUnicode.StandardAscii where
  category_digit := by decide
  category_lower := by decide
  toLower_digit := by decide
  toLower_lower := by decide
  toLower_upper := by decide
  toLower_space := by decide

/-- Witness of C14: capitals of Basic Latin and of Latin-1. -/
theorem lowercase_output_witness :
    normalizeUnicode refUnicode "ÉCOLE Du Nord".toList = "école-du-nord".toList ∧
    ToLower refUnicode (normalizeUnicode refUnicode "ÉCOLE Du Nord".toList)
      = normalizeUnicode refUnicode "ÉCOLE Du Nord".toList ∧
    ∀ c ∈ normalizeUnicode refUnicode "ÉCOLE Du Nord".toList, c ∉ asciiUpper :=
  ⟨by decide,
   lowercase_output refUnicode refUnicode_standard refUnicode_standardAscii
    "ÉCOLE Du Nord".toList⟩

theorem head?_stripEdges_not_whitespace (t : GoString) (c : Char)
    (h : (stripEdges t).head? = some c) : whitespacePattern c = false := by
  unfold stripEdges at h
  have hpre := List.rdropWhile_prefix whitespacePattern (t.dropWhile whitespacePattern)
  obtain ⟨r, hr⟩ := hpre
  cases hx : List.rdropWhile whitespacePattern (t.dropWhile whitespacePattern) with
  | nil => rw [hx] at h; cases h
  | cons d ds =>
    rw [hx] at h hr
    simp only [List.head?_cons, Option.some.injEq] at h
    subst h
    have := List.head?_dropWhile_not whitespacePattern t
    rw [← hr] at this
    simpa using this

theorem getLast?_stripEdges_not_whitespace (t : GoString) (c : Char)
    (h : (stripEdges t).getLast? = some c) : whitespacePattern c = false := by
  unfold stripEdges at h
  have hne : List.rdropWhile whitespacePattern (t.dropWhile whitespacePattern) ≠ [] := by
    intro e; rw [e] at h; cases h
  have := List.rdropWhile_last_not whitespacePattern _ hne
  rw [List.getLast?_eq_getLast _ hne] at h
  simp only [Option.some.injEq] at h
  rw [h] at this
  simpa using this

theorem replaceClass_nil_concat (cls : Char → Bool) (t : GoString) (c : Char)
    (h : cls c = false) :
    replaceClass cls [] (t ++ [c]) = replaceClass cls [] t ++ [c] := by
  simp [replaceClass, h]

theorem replaceRunsAux_concat (cls : Char → Bool) (repl t : GoString) (c : Char) (b : Bool)
    (h : cls c = false) :
    replaceRunsAux cls repl b (t ++ [c]) = replaceRunsAux cls repl b t ++ [c] := by
  induction t generalizing b with
  | nil => simp [replaceRunsAux, h]
  | cons d ds ih =>
    simp only [List.cons_append, replaceRunsAux]
    by_cases hd : cls d = true
    · cases b <;> simp [hd, ih]
    · simp [hd, ih]

/-- C16, as stated, fails: the dollar of "admin $" is deleted after the edges
were stripped, so the blank before it ends as a hyphen at the end of the
output, and in the same way "$ a" gives a hyphen at the start. -/
theorem edge_hyphen_counterexample :
    normalizeUnicode refUnicode "admin $".toList = "admin-".toList ∧
    CreateAlias refUnicode "en".toList "".toList "me".toList "admin $".toList "".toList
      = .ok "me-as-admin-".toList ∧
    normalizeUnicode refUnicode "$ a".toList = "-a".toList := by
  decide

/-- C16, amended. Over a standard Unicode database the output of
`normalizeUnicode` does not begin with a hyphen when the first character left
by the edge trim of step 4 is not deleted in step 5, and does not end with a
hyphen when the last character left by the edge trim is not deleted. -/
theorem edge_hyphen (U : UnicodeData) (hU : U.Standard) (s : GoString) :
    ((∀ c, (trimmedText U s).head? = some c → disallowedPattern U c = false) →
      (normalizeUnicode U s).head? ≠ some '-') ∧
    ((∀ c, (trimmedText U s).getLast? = some c → disallowedPattern U c = false) →
      (normalizeUnicode U s).getLast? ≠ some '-') := by
  rw [normalizeUnicode_eq_trimmedText]
  constructor
  · intro h
    cases ht : trimmedText U s with
    | nil => simp [replaceClass, replaceRunsAux]
    | cons c cs =>
      have hd := h c (by rw [ht]; rfl)
      have hw := head?_stripEdges_not_whitespace _ c (by
        have : (trimmedText U s).head? = some c := by rw [ht]; rfl
        exact this)
      have hne : c ≠ '-' := by
        intro e
        rw [e, disallowed_hyphen U hU] at hd
        cases hd
      have e1 : replaceClass (disallowedPattern U) [] (c :: cs)
          = c :: replaceClass (disallowedPattern U) [] cs := by
        simp [replaceClass, hd]
      rw [e1]
      simp only [replaceRunsAux, hw, Bool.false_eq_true, if_false, List.head?_cons, ne_eq,
        Option.some.injEq]
      exact hne
  · intro h
    rcases List.eq_nil_or_concat (trimmedText U s) with ht | ⟨t, c, ht⟩
    · rw [ht]; simp [replaceClass, replaceRunsAux]
    · rw [List.concat_eq_append] at ht
      have hlast : (trimmedText U s).getLast? = some c := by
        rw [ht]; exact List.getLast?_concat _
      have hd := h c hlast
      have hw := getLast?_stripEdges_not_whitespace _ c hlast
      have hne : c ≠ '-' := by
        intro e
        rw [e, disallowed_hyphen U hU] at hd
        cases hd
      rw [ht, replaceClass_nil_concat _ _ _ hd, replaceRunsAux_concat _ _ _ _ _ hw,
        List.getLast?_concat]
      simp only [ne_eq, Option.some.injEq]
      exact hne

/-- Witness of C16, amended: in " -Moi, comme admin. " the first and the last
character left by the edge trim are letters. -/
theorem edge_hyphen_witness :
    normalizeUnicode refUnicode " -Moi, comme admin. ".toList = "moi-comme-admin".toList ∧
    (normalizeUnicode refUnicode " -Moi, comme admin. ".toList).head? ≠ some '-' ∧
    (normalizeUnicode refUnicode " -Moi, comme admin. ".toList).getLast? ≠ some '-' :=
  ⟨by decide,
   (edge_hyphen refUnicode refUnicode_standard " -Moi, comme admin. ".toList).1 (by decide),
   (edge_hyphen refUnicode refUnicode_standard " -Moi, comme admin. ".toList).2 (by decide)⟩

/-! ## Marks between two words -/

theorem wordChars_facts (U : UnicodeData) (hU : U.Standard) (hA : U.StandardAscii) (d : Char)
    (hd : d ∈ wordChars) :
    U.toLower d = d ∧ disallowedPattern U d = false ∧ punctToSpacePattern U d = false ∧
      whitespacePattern d = false ∧ d ≠ '-' := by
  have hws : ∀ e ∈ wordChars, whitespacePattern e = false ∧ e ≠ '-' := by decide
  simp only [wordChars, List.mem_append] at hd
  have hdis : disallowedPattern U d = false := by
    rcases hd with hd | hd
    · simp [disallowedPattern, hA.category_lower d hd, disallowedCategories]
    · simp [disallowedPattern, hA.category_digit d hd, disallowedCategories]
  refine ⟨?_, hdis, punct_of_not_disallowed U hU d hdis,
    (hws d (by simp only [wordChars, List.mem_append]; exact hd)).1,
    (hws d (by simp only [wordChars, List.mem_append]; exact hd)).2⟩
  rcases hd with hd | hd
  · exact hA.toLower_lower d hd
  · exact hA.toLower_digit d hd

theorem map_toLower_word (U : UnicodeData) (hU : U.Standard) (hA : U.StandardAscii)
    (x : GoString) (hx : ∀ d ∈ x, d ∈ wordChars) : x.map U.toLower = x := by
  calc x.map U.toLower = x.map id := by
        apply List.map_congr_left
        intro d hd
        exact (wordChars_facts U hU hA d (hx d hd)).1
    _ = x := List.map_id x

theorem replaceClass_append (cls : Char → Bool) (repl a b : GoString) :
    replaceClass cls repl (a ++ b) = replaceClass cls repl a ++ replaceClass cls repl b := by
  simp [replaceClass]

theorem replaceClass_cons (cls : Char → Bool) (repl b : GoString) (c : Char) :
    replaceClass cls repl (c :: b)
      = (if cls c then repl else [c]) ++ replaceClass cls repl b := by
  simp [replaceClass]

theorem replaceClass_eq_self (cls : Char → Bool) (repl o : GoString)
    (h : ∀ c ∈ o, cls c = false) : replaceClass cls repl o = o := by
  induction o with
  | nil => rfl
  | cons c cs ih =>
    rw [replaceClass_cons, ih (fun d hd => h d (List.mem_cons_of_mem _ hd)),
      h c (List.mem_cons_self _ _)]
    rfl

theorem replaceRuns_eq_self (cls : Char → Bool) (repl o : GoString)
    (h : ∀ c ∈ o, cls c = false) : replaceRuns cls repl o = o := by
  unfold replaceRuns
  cases o with
  | nil => rfl
  | cons c cs =>
    have := replaceRunsAux_word cls repl (c :: cs) [] false h (by simp)
    simpa [replaceRunsAux] using this

/-- The edge trim leaves a text alone that begins with a word and ends with
one. -/
theorem stripEdges_between_words (x m y : GoString) (hx : x ≠ []) (hy : y ≠ [])
    (hxw : ∀ d ∈ x, whitespacePattern d = false)
    (hyw : ∀ d ∈ y, whitespacePattern d = false) :
    stripEdges (x ++ m ++ y) = x ++ m ++ y := by
  apply stripEdges_eq_self
  · intro c hc
    cases x with
    | nil => exact absurd rfl hx
    | cons a as =>
      simp only [List.cons_append, List.head?_cons, Option.some.injEq] at hc
      subst hc
      exact hxw _ (List.mem_cons_self _ _)
  · intro c hc
    rcases List.eq_nil_or_concat y with e | ⟨t, b, e⟩
    · exact absurd e hy
    · rw [List.concat_eq_append] at e
      rw [e, ← List.append_assoc, List.getLast?_concat] at hc
      simp only [Option.some.injEq] at hc
      subst hc
      exact hyw _ (by rw [e]; simp)

/-- C17, as stated, fails.  The diaeresis U+00A8 (a modifier symbol) becomes a
space and a combining mark under NFKC, so it separates the words; the trade
mark sign U+2122 (a symbol) becomes the letters "tm"; and the tab, a white
space character, is deleted by step 5 as a control character. -/
theorem symbols_deleted_counterexample :
    refUnicode.category (Char.ofNat 0xA8) = .Sk ∧
    punctToSpacePattern refUnicode (Char.ofNat 0xA8) = false ∧
    normalizeUnicode refUnicode ['a', Char.ofNat 0xA8, 'b'] = "a-b".toList ∧
    refUnicode.category (Char.ofNat 0x2122) = .So ∧
    punctToSpacePattern refUnicode (Char.ofNat 0x2122) = false ∧
    normalizeUnicode refUnicode ['a', Char.ofNat 0x2122, 'b'] = "atmb".toList ∧
    whitespacePattern '\t' = true ∧
    replaceClass (disallowedPattern refUnicode) [] "a\tb".toList = "ab".toList := by
  decide

/-- C17, amended. Over a standard Unicode database, a character that NFKC
leaves as it is between two words of ASCII small letters and digits, and whose
lower case is in a disallowed category and not in the class of
`punctToSpacePattern`, is deleted without separating the words.  Step 5 deletes
no letter, no number and no separator such as the space; but tab, newline, form
feed and carriage return are control characters, which it deletes. -/
theorem symbols_deleted (U : UnicodeData) (hU : U.Standard) (hA : U.StandardAscii) :
    (∀ (x y : GoString) (c : Char),
      x ≠ [] → y ≠ [] → (∀ d ∈ x, d ∈ wordChars) → (∀ d ∈ y, d ∈ wordChars) →
      U.nfkc (x ++ c :: y) = x ++ c :: y →
      disallowedPattern U (U.toLower c) = true →
      punctToSpacePattern U (U.toLower c) = false →
      normalizeUnicode U (x ++ c :: y) = x ++ y) ∧
    (∀ d : Char, U.category d ∈ keptCategories → disallowedPattern U d = false) ∧
    (∀ d : Char, U.category d = .Cc → disallowedPattern U d = true) := by
  refine ⟨?_, ?_, ?_⟩
  · intro x y c hx hy hxw hyw hn hd hp
    have fx := fun d hd => wordChars_facts U hU hA d (hxw d hd)
    have fy := fun d hd => wordChars_facts U hU hA d (hyw d hd)
    have e2 : ToLower U (x ++ c :: y) = x ++ [U.toLower c] ++ y := by
      unfold ToLower
      rw [List.map_append, List.map_cons, map_toLower_word U hU hA x hxw,
        map_toLower_word U hU hA y hyw]
      simp
    have e3 : replaceClass (punctToSpacePattern U) " ".toList (x ++ [U.toLower c] ++ y)
        = x ++ [U.toLower c] ++ y := by
      apply replaceClass_eq_self
      intro d hd
      simp only [List.mem_append, List.mem_singleton] at hd
      rcases hd with (hd | hd) | hd
      · exact (fx d hd).2.2.1
      · rw [hd]; exact hp
      · exact (fy d hd).2.2.1
    have e4 := stripEdges_between_words x [U.toLower c] y hx hy
      (fun d hd => (fx d hd).2.2.2.1) (fun d hd => (fy d hd).2.2.2.1)
    have e5 : replaceClass (disallowedPattern U) [] (x ++ [U.toLower c] ++ y) = x ++ y := by
      rw [replaceClass_append, replaceClass_append,
        replaceClass_eq_self _ _ x (fun d hd => (fx d hd).2.1),
        replaceClass_eq_self _ _ y (fun d hd => (fy d hd).2.1)]
      simp [replaceClass, hd]
    have e6 : replaceRuns whitespacePattern "-".toList (x ++ y) = x ++ y := by
      apply replaceRuns_eq_self
      intro d hd
      rcases List.mem_append.1 hd with hd | hd
      · exact (fx d hd).2.2.2.1
      · exact (fy d hd).2.2.2.1
    show replaceRuns whitespacePattern "-".toList
      (replaceClass (disallowedPattern U) []
        (stripEdges (replaceClass (punctToSpacePattern U) " ".toList
          (ToLower U (U.nfkc (x ++ c :: y)))))) = x ++ y
    rw [hn, e2, e3, e4, e5, e6]
  · intro d hd
    rw [disallowedPattern_eq_false]
    revert hd
    generalize U.category d = k
    intro hk
    simp only [keptCategories, List.mem_cons, List.mem_nil_iff, or_false] at hk
    rcases hk with rfl | rfl | rfl | rfl | rfl | rfl | rfl | rfl | rfl | rfl | rfl <;> decide
  · intro d hd
    simp [disallowedPattern, hd, disallowedCategories]

/-- Witness of C17, amended: "a!b" and "ab" have the same normal form, and so
have the words around a dollar and around a plus sign. -/
theorem symbols_deleted_witness :
    normalizeUnicode refUnicode "a!b".toList = "ab".toList ∧
    normalizeUnicode refUnicode "ab".toList = "ab".toList ∧
    normalizeUnicode refUnicode "us$7".toList = "us7".toList ∧
    normalizeUnicode refUnicode "c+c".toList = "cc".toList :=
  have h := (symbols_deleted refUnicode refUnicode_standard refUnicode_standardAscii).1
  ⟨h "a".toList "b".toList '!' (by decide) (by decide) (by decide) (by decide) (by decide)
      (by decide) (by decide),
   by decide,
   h "us".toList "7".toList '$' (by decide) (by decide) (by decide) (by decide) (by decide)
      (by decide) (by decide),
   h "c".toList "c".toList '+' (by decide) (by decide) (by decide) (by decide) (by decide)
      (by decide) (by decide)⟩

/-- C12, as stated, fails for the most common dash: the ASCII hyphen is in the
class of `punctToSpacePattern` (category Pd), and it stands in the output of
"a-b", where the space it became is turned into the delimiting hyphen. -/
theorem punctuation_neutralized_counterexample :
    punctToSpacePattern refUnicode '-' = true ∧
    normalizeUnicode refUnicode "a-b".toList = "a-b".toList ∧
    '-' ∈ normalizeUnicode refUnicode "a-b".toList := by
  decide

/-- C12, amended. Over a standard Unicode database, let `x` and `y` be words of
ASCII small letters and digits, and `p` a mark that NFKC turns into a mark `p'`
whose lower case is in the class of `punctToSpacePattern`, the words left as
they are.  Then `x p y` is normalised to `x-y`, and a mark `p` of the class
other than the ASCII hyphen itself does not stand in the output.  In English,
`who` "me" and the role "a—b" give "me-as-a-b". -/
theorem punctuation_neutralized :
    (∀ (U : UnicodeData), U.Standard → U.StandardAscii →
      ∀ (x y : GoString) (p p' : Char),
      x ≠ [] → y ≠ [] → (∀ d ∈ x, d ∈ wordChars) → (∀ d ∈ y, d ∈ wordChars) →
      U.nfkc (x ++ p :: y) = x ++ p' :: y →
      punctToSpacePattern U (U.toLower p') = true →
      normalizeUnicode U (x ++ p :: y) = x ++ '-' :: y ∧
      (punctToSpacePattern U p = true → p ≠ '-' → p ∉ normalizeUnicode U (x ++ p :: y))) ∧
    CreateAlias refUnicode "en".toList "".toList "me".toList "a—b".toList "".toList
      = .ok "me-as-a-b".toList := by
  refine ⟨?_, by decide⟩
  intro U hU hA x y p p' hx hy hxw hyw hn hp
  have fx := fun d hd => wordChars_facts U hU hA d (hxw d hd)
  have fy := fun d hd => wordChars_facts U hU hA d (hyw d hd)
  have e2 : ToLower U (x ++ p' :: y) = x ++ [U.toLower p'] ++ y := by
    unfold ToLower
    rw [List.map_append, List.map_cons, map_toLower_word U hU hA x hxw,
      map_toLower_word U hU hA y hyw]
    simp
  have e3 : replaceClass (punctToSpacePattern U) " ".toList (x ++ [U.toLower p'] ++ y)
      = x ++ " ".toList ++ y := by
    rw [replaceClass_append, replaceClass_append,
      replaceClass_eq_self _ _ x (fun d hd => (fx d hd).2.2.1),
      replaceClass_eq_self _ _ y (fun d hd => (fy d hd).2.2.1)]
    simp [replaceClass, hp]
  have e4 := stripEdges_between_words x " ".toList y hx hy
    (fun d hd => (fx d hd).2.2.2.1) (fun d hd => (fy d hd).2.2.2.1)
  have e5 : replaceClass (disallowedPattern U) [] (x ++ " ".toList ++ y)
      = x ++ " ".toList ++ y := by
    apply replaceClass_eq_self
    intro d hd
    simp only [List.mem_append, String.toList, List.mem_singleton] at hd
    rcases hd with (hd | hd) | hd
    · exact (fx d hd).2.1
    · rw [hd]; exact disallowed_space U hU
    · exact (fy d hd).2.1
  have e6 : replaceRuns whitespacePattern "-".toList (x ++ " ".toList ++ y)
      = x ++ '-' :: y := by
    rw [replaceRuns_word_run _ _ x " ".toList y (fun d hd => (fx d hd).2.2.2.1)
      (by decide) (by decide)
      (fun c hc => (fy c (List.mem_of_mem_head? hc)).2.2.2.1),
      replaceRuns_eq_self _ _ y (fun d hd => (fy d hd).2.2.2.1)]
    simp
  have hout : normalizeUnicode U (x ++ p :: y) = x ++ '-' :: y := by
    show replaceRuns whitespacePattern "-".toList
      (replaceClass (disallowedPattern U) []
        (stripEdges (replaceClass (punctToSpacePattern U) " ".toList
          (ToLower U (U.nfkc (x ++ p :: y)))))) = x ++ '-' :: y
    rw [hn, e2, e3, e4, e5, e6]
  refine ⟨hout, ?_⟩
  intro hpp hne hmem
  rw [hout] at hmem
  simp only [List.mem_append, List.mem_cons] at hmem
  rcases hmem with h | h | h
  · rw [(fx p h).2.2.1] at hpp; cases hpp
  · exact hne h
  · rw [(fy p h).2.2.1] at hpp; cases hpp

/-- Witness of C12, amended: an em dash, a full-width comma (which NFKC turns
into the comma) and an opening bracket between two words. -/
theorem punctuation_neutralized_witness :
    normalizeUnicode refUnicode "a—b".toList = "a-b".toList ∧
    '—' ∉ normalizeUnicode refUnicode "a—b".toList ∧
    normalizeUnicode refUnicode "x1，y2".toList = "x1-y2".toList ∧
    normalizeUnicode refUnicode "a(b".toList = "a-b".toList :=
  have h := punctuation_neutralized.1 refUnicode refUnicode_standard refUnicode_standardAscii
  have h1 := h "a".toList "b".toList '—' '—' (by decide) (by decide) (by decide) (by decide)
    (by decide) (by decide)
  ⟨h1.1, h1.2 (by decide) (by decide),
   (h "x1".toList "y2".toList '，' ',' (by decide) (by decide) (by decide) (by decide)
    (by decide) (by decide)).1,
   (h "a".toList "b".toList '(' '(' (by decide) (by decide) (by decide) (by decide)
    (by decide) (by decide)).1⟩

/-! ## The normalisation of the reference database at a starter -/

theorem refInsertMark_barrier (k c : Nat) (hk : refCcc k = 0) (P acc : List Nat) :
    refInsertMark c (P ++ k :: acc) = refInsertMark c P ++ k :: acc := by
  induction P with
  | nil =>
    simp [refInsertMark, hk]
  | cons d P ih =>
    simp only [List.cons_append, refInsertMark]
    by_cases h : refCcc c ≠ 0 ∧ refCcc d > refCcc c
    · rw [if_pos h, if_pos h]
      exact congrArg (d :: ·) ih
    · rw [if_neg h, if_neg h]; rfl

theorem refReorder_foldl_barrier (k : Nat) (hk : refCcc k = 0) (Y P acc : List Nat) :
    Y.foldl (fun a c => refInsertMark c a) (P ++ k :: acc)
      = Y.foldl (fun a c => refInsertMark c a) P ++ k :: acc := by
  induction Y generalizing P with
  | nil => rfl
  | cons c Y ih =>
    simp only [List.foldl_cons]
    rw [refInsertMark_barrier k c hk, ih]

theorem refInsertMark_starter (k : Nat) (hk : refCcc k = 0) (A : List Nat) :
    refInsertMark k A = k :: A := by
  cases A with
  | nil => rfl
  | cons d ds => simp [refInsertMark, hk]

/-- Canonical ordering does not move a mark across a starter. -/
theorem refReorder_starter (k : Nat) (hk : refCcc k = 0) (X Y : List Nat) :
    refReorder (X ++ k :: Y) = refReorder X ++ k :: refReorder Y := by
  unfold refReorder
  rw [List.foldl_append, List.foldl_cons, refInsertMark_starter k hk]
  have := refReorder_foldl_barrier k hk Y [] (X.foldl (fun a c => refInsertMark c a) [])
  simp only [List.nil_append] at this
  rw [this]
  simp

theorem refReorder_starters (z : Nat) (Z : List Nat) (hz : refCcc z = 0)
    (hZ : ∀ n ∈ Z, refCcc n = 0) (X Y : List Nat) :
    refReorder (X ++ z :: (Z ++ Y)) = refReorder X ++ z :: (Z ++ refReorder Y) := by
  induction Z generalizing z X with
  | nil => exact refReorder_starter z hz X Y
  | cons z' Z ih =>
    rw [List.cons_append, refReorder_starter z hz X (z' :: (Z ++ Y))]
    have := ih z' (hZ z' (List.mem_cons_self _ _))
      (fun n hn => hZ n (List.mem_cons_of_mem _ hn)) []
    simp only [List.nil_append] at this
    rw [this]
    simp [refReorder]

/-- The composition step after a starter, spelled out. -/
theorem refComposeStep_some (b a : List Nat) (s c : Nat) :
    refComposeStep { before := b, starter := some s, after := a } c
      = Option.elim
          (if a.head?.all (fun d => decide (refCcc d < refCcc c)) then refComposePair s c
            else none)
          (if refCcc c = 0 then { before := a ++ s :: b, starter := some c, after := [] }
            else { before := b, starter := some s, after := c :: a })
          (fun p => { before := b, starter := some p, after := a }) := by
  cases hp : refComposePair s c <;> cases a with
  | nil => simp [refComposeStep, RefComposeState.flush, hp]
  | cons d a =>
    by_cases h : refCcc d < refCcc c <;> simp [refComposeStep, RefComposeState.flush, h, hp]

/-- The composition step before the first starter, spelled out. -/
theorem refComposeStep_none (b a : List Nat) (c : Nat) :
    refComposeStep { before := b, starter := none, after := a } c
      = if refCcc c = 0 then { before := a ++ b, starter := some c, after := [] }
        else { before := b, starter := none, after := c :: a } := by
  simp [refComposeStep, RefComposeState.flush]

/-- The composition state with `E` put behind the text before the last starter. -/
theorem refComposeStep_before (st : RefComposeState) (E : List Nat) (c : Nat) :
    refComposeStep { st with before := st.before ++ E } c
      = { refComposeStep st c with before := (refComposeStep st c).before ++ E } := by
  obtain ⟨b, s, a⟩ := st
  cases s with
  | none =>
    simp only [refComposeStep_none]
    by_cases hc : refCcc c = 0 <;> simp [hc]
  | some s =>
    simp only [refComposeStep_some]
    cases (if a.head?.all (fun d => decide (refCcc d < refCcc c)) then refComposePair s c
          else none) with
    | some p => rfl
    | none =>
      by_cases hc : refCcc c = 0 <;> simp [hc]

theorem refCompose_foldl_before (L : List Nat) (st : RefComposeState) (E : List Nat) :
    L.foldl refComposeStep { st with before := st.before ++ E }
      = { L.foldl refComposeStep st with
          before := (L.foldl refComposeStep st).before ++ E } := by
  induction L generalizing st with
  | nil => rfl
  | cons c L ih =>
    simp only [List.foldl_cons]
    rw [refComposeStep_before, ih]

theorem refFlush_before (st : RefComposeState) (E : List Nat) :
    RefComposeState.flush { st with before := st.before ++ E } = st.flush ++ E := by
  unfold RefComposeState.flush
  cases st.starter <;> simp

theorem refComposeStep_init (m : Nat) (hm : refCcc m = 0) :
    refComposeStep { before := [], starter := none, after := [] } m
      = { before := [], starter := some m, after := [] } := by
  simp [refComposeStep_none, hm]

/-- Composition after a prefix that leaves the text `E` and the starter `m`. -/
theorem refCompose_prefix (pre rest E : List Nat) (m : Nat) (hm : refCcc m = 0)
    (hpre : pre.foldl refComposeStep { before := [], starter := none, after := [] }
      = { before := E, starter := some m, after := [] }) :
    refCompose (pre ++ rest) = E.reverse ++ refCompose (m :: rest) := by
  unfold refCompose
  rw [List.foldl_append, hpre, List.foldl_cons, refComposeStep_init m hm]
  have := refCompose_foldl_before rest { before := [], starter := some m, after := [] } E
  simp only [List.nil_append] at this
  rw [this, refFlush_before]
  simp

/-- Composition starts afresh at a starter that is never the second part of a
composite. -/
theorem refCompose_neverSecond (k : Nat) (hk : refCcc k = 0)
    (hns : ∀ a, refComposePair a k = none) (X Y : List Nat) :
    refCompose (X ++ k :: Y) = refCompose X ++ refCompose (k :: Y) := by
  unfold refCompose
  rw [List.foldl_append, List.foldl_cons, List.foldl_cons, refComposeStep_init k hk]
  generalize X.foldl refComposeStep { before := [], starter := none, after := [] } = S
  have hstep : refComposeStep S k = { before := S.flush, starter := some k, after := [] } := by
    obtain ⟨b, s, a⟩ := S
    cases s with
    | none => simp [refComposeStep_none, hk, RefComposeState.flush]
    | some s => simp [refComposeStep_some, hns, hk, RefComposeState.flush]
  rw [hstep]
  have := refCompose_foldl_before Y { before := [], starter := some k, after := [] } S.flush
  simp only [List.nil_append] at this
  rw [this, refFlush_before]
  simp

theorem refComposeStep_neverFirst (k c : Nat) (hnf : ∀ b, refComposePair k b = none)
    (A : List Nat) :
    (refCcc c = 0 →
      refComposeStep { before := [], starter := some k, after := A } c
        = { before := A ++ [k], starter := some c, after := [] } ∧
      refComposeStep { before := [], starter := none, after := A } c
        = { before := A, starter := some c, after := [] }) ∧
    (refCcc c ≠ 0 →
      refComposeStep { before := [], starter := some k, after := A } c
        = { before := [], starter := some k, after := c :: A } ∧
      refComposeStep { before := [], starter := none, after := A } c
        = { before := [], starter := none, after := c :: A }) := by
  constructor
  · intro hc
    simp [refComposeStep_some, refComposeStep_none, hnf, hc]
  · intro hc
    simp [refComposeStep_some, refComposeStep_none, hnf, hc]

/-- Composition leaves in place a starter that is never the first part of a
composite. -/
theorem refCompose_foldl_neverFirst (k : Nat) (hnf : ∀ b, refComposePair k b = none)
    (Y A : List Nat) :
    (Y.foldl refComposeStep { before := [], starter := some k, after := A }).flush
      = (Y.foldl refComposeStep { before := [], starter := none, after := A }).flush ++ [k] := by
  induction Y generalizing A with
  | nil => simp [RefComposeState.flush]
  | cons c Y ih =>
    simp only [List.foldl_cons]
    obtain ⟨h0, h1⟩ := refComposeStep_neverFirst k c hnf A
    by_cases hc : refCcc c = 0
    · rw [(h0 hc).1, (h0 hc).2]
      have := refCompose_foldl_before Y { before := A, starter := some c, after := [] } [k]
      rw [this, refFlush_before]
    · rw [(h1 hc).1, (h1 hc).2]
      exact ih (c :: A)

theorem refCompose_neverFirst (k : Nat) (hk : refCcc k = 0)
    (hnf : ∀ b, refComposePair k b = none) (Y : List Nat) :
    refCompose (k :: Y) = k :: refCompose Y := by
  unfold refCompose
  rw [List.foldl_cons, refComposeStep_init k hk, refCompose_foldl_neverFirst k hnf Y []]
  simp

theorem refComposePair_neverSecond (n : Nat)
    (ht : ∀ r ∈ refCompositions, (r.2.1 == n) = false)
    (hv : ¬ (0x1161 ≤ n ∧ n ≤ 0x1175)) (htj : ¬ (0x11A8 ≤ n ∧ n ≤ 0x11C2)) :
    ∀ a, refComposePair a n = none := by
  intro a
  have hfind : refCompositions.find? (fun r => r.1 == a && r.2.1 == n) = none := by
    rw [List.find?_eq_none]
    intro r hr
    simp [ht r hr]
  unfold refComposePair
  rw [hfind]
  simp only
  rw [if_neg (fun h => hv ⟨h.2.2.1, h.2.2.2⟩), if_neg (fun h => htj ⟨h.2.2.2.1, h.2.2.2.2⟩)]

theorem refComposePair_neverFirst (n : Nat)
    (ht : ∀ r ∈ refCompositions, (r.1 == n) = false)
    (hl : ¬ (0x1100 ≤ n ∧ n ≤ 0x1112)) (hs : ¬ (0xAC00 ≤ n ∧ n ≤ 0xD7A3)) :
    ∀ b, refComposePair n b = none := by
  intro b
  have hfind : refCompositions.find? (fun r => r.1 == n && r.2.1 == b) = none := by
    rw [List.find?_eq_none]
    intro r hr
    simp [ht r hr]
  unfold refComposePair
  rw [hfind]
  simp only
  rw [if_neg (fun h => hl ⟨h.1, h.2.1⟩), if_neg (fun h => hs ⟨h.1, h.2.1⟩)]

theorem refDecompose_append (s t : GoString) :
    ((s ++ t).map Char.toNat).flatMap refDecomposeChar
      = (s.map Char.toNat).flatMap refDecomposeChar
        ++ (t.map Char.toNat).flatMap refDecomposeChar := by
  simp [List.flatMap_append]

theorem refDecompose_cons (c : Char) (t : GoString) :
    ((c :: t).map Char.toNat).flatMap refDecomposeChar
      = refDecomposeChar c.toNat ++ (t.map Char.toNat).flatMap refDecomposeChar := by
  simp [List.flatMap_cons]

/-- The form NFKC of the reference database at a pair of characters whose
decompositions are starters that are composed with nothing around them. -/
theorem refNfkc_pair (k1 k2 : Char) (z1 z2 : Nat) (Z1 Z2 : List Nat)
    (h1 : refDecomposeChar k1.toNat = z1 :: Z1) (h2 : refDecomposeChar k2.toNat = z2 :: Z2)
    (hz : ∀ n ∈ z1 :: (Z1 ++ z2 :: Z2), refCcc n = 0)
    (hns : ∀ a, refComposePair a z1 = none)
    (hpre : (z1 :: (Z1 ++ [z2])).foldl refComposeStep
      { before := [], starter := none, after := [] }
        = { before := [k1.toNat], starter := some z2, after := [] })
    (s t : GoString) :
    refNfkc (s ++ k1 :: k2 :: t) = refNfkc s ++ k1 :: refNfkc (k2 :: t) := by
  have hz1 : refCcc z1 = 0 := hz z1 (List.mem_cons_self _ _)
  have hz2 : refCcc z2 = 0 := hz z2 (by simp)
  have hZ : ∀ n ∈ Z1 ++ z2 :: Z2, refCcc n = 0 := fun n hn => hz n (List.mem_cons_of_mem _ hn)
  have hZ2 : ∀ n ∈ Z2, refCcc n = 0 := fun n hn => hz n (by simp [hn])
  unfold refNfkc
  rw [refDecompose_append, refDecompose_cons, refDecompose_cons k2, h1, h2]
  generalize (s.map Char.toNat).flatMap refDecomposeChar = Ds
  generalize (t.map Char.toNat).flatMap refDecomposeChar = Dt
  have e1 : Ds ++ (z1 :: Z1 ++ (z2 :: Z2 ++ Dt)) = Ds ++ z1 :: ((Z1 ++ z2 :: Z2) ++ Dt) := by
    simp
  rw [e1, refReorder_starters z1 _ hz1 hZ, refCompose_neverSecond z1 hz1 hns]
  have e2 : z1 :: (Z1 ++ z2 :: Z2 ++ refReorder Dt)
      = (z1 :: (Z1 ++ [z2])) ++ (Z2 ++ refReorder Dt) := by simp
  rw [e2, refCompose_prefix _ _ _ z2 hz2 hpre]
  have e3 : z2 :: Z2 ++ Dt = [] ++ z2 :: (Z2 ++ Dt) := by simp
  rw [e3, refReorder_starters z2 _ hz2 hZ2]
  simp [refReorder, Char.ofNat_toNat]

theorem refNfkc_starter (c : Char) (h1 : refDecomposeChar c.toNat = [c.toNat])
    (hc : refCcc c.toNat = 0) (hnf : ∀ b, refComposePair c.toNat b = none) (t : GoString) :
    refNfkc (c :: t) = c :: refNfkc t := by
  unfold refNfkc
  rw [refDecompose_cons, h1]
  have := refReorder_starter c.toNat hc [] ((t.map Char.toNat).flatMap refDecomposeChar)
  simp only [List.nil_append] at this
  have hnil : refReorder [] = [] := rfl
  rw [List.singleton_append, this, hnil, List.nil_append, refCompose_neverFirst _ hc hnf]
  simp [Char.ofNat_toNat]

theorem refCompositions_notFirst :
    ∀ c ∈ ' ' :: asciiDigits, ∀ r ∈ refCompositions, (r.1 == c.toNat) = false := by
  decide

theorem refCompositions_notSecond :
    ∀ p ∈ connectorLetters, ∀ r ∈ refCompositions,
      (r.2.1 == (refDecomposeChar p.1.toNat).headD 0) = false := by
  decide

theorem refUnicode_standardNfkc : refUnicode.StandardNfkc where
  nfkc_digit_space := by
    intro c hc t
    have h1 : ∀ c ∈ ' ' :: asciiDigits, refDecomposeChar c.toNat = [c.toNat] ∧
        refCcc c.toNat = 0 ∧ ¬ (0x1100 ≤ c.toNat ∧ c.toNat ≤ 0x1112) ∧
        ¬ (0xAC00 ≤ c.toNat ∧ c.toNat ≤ 0xD7A3) := by decide
    obtain ⟨a, b, d, e⟩ := h1 c hc
    exact refNfkc_starter c a b
      (refComposePair_neverFirst _ (refCompositions_notFirst c hc) d e) t
  nfkc_connector := by
    intro p hp s t
    have h1 : ∀ p ∈ connectorLetters,
        refDecomposeChar p.1.toNat
          = (refDecomposeChar p.1.toNat).headD 0 :: (refDecomposeChar p.1.toNat).tail ∧
        refDecomposeChar p.2.toNat
          = (refDecomposeChar p.2.toNat).headD 0 :: (refDecomposeChar p.2.toNat).tail ∧
        (∀ n ∈ refDecomposeChar p.1.toNat ++ refDecomposeChar p.2.toNat, refCcc n = 0) ∧
        ¬ (0x1161 ≤ (refDecomposeChar p.1.toNat).headD 0 ∧
          (refDecomposeChar p.1.toNat).headD 0 ≤ 0x1175) ∧
        ¬ (0x11A8 ≤ (refDecomposeChar p.1.toNat).headD 0 ∧
          (refDecomposeChar p.1.toNat).headD 0 ≤ 0x11C2) ∧
        ((refDecomposeChar p.1.toNat ++ [(refDecomposeChar p.2.toNat).headD 0]).foldl
            refComposeStep { before := [], starter := none, after := [] }).before
          = [p.1.toNat] ∧
        ((refDecomposeChar p.1.toNat ++ [(refDecomposeChar p.2.toNat).headD 0]).foldl
            refComposeStep { before := [], starter := none, after := [] }).starter
          = some ((refDecomposeChar p.2.toNat).headD 0) ∧
        ((refDecomposeChar p.1.toNat ++ [(refDecomposeChar p.2.toNat).headD 0]).foldl
            refComposeStep { before := [], starter := none, after := [] }).after
          = [] := by decide
    obtain ⟨a, b, d, e, f, g1, g2, g3⟩ := h1 p hp
    have hz : ∀ n ∈ (refDecomposeChar p.1.toNat).headD 0 ::
        ((refDecomposeChar p.1.toNat).tail ++ (refDecomposeChar p.2.toNat).headD 0 ::
          (refDecomposeChar p.2.toNat).tail), refCcc n = 0 := by
      intro n hn
      have hn0 : n ∈ (refDecomposeChar p.1.toNat).headD 0 :: (refDecomposeChar p.1.toNat).tail
          ++ (refDecomposeChar p.2.toNat).headD 0 :: (refDecomposeChar p.2.toNat).tail := by
        simpa using hn
      rw [← a, ← b] at hn0
      exact d n hn0
    refine refNfkc_pair p.1 p.2 _ _ _ _ a b hz
      (refComposePair_neverSecond _ (refCompositions_notSecond p hp) e f) ?_ s t
    have hl : (refDecomposeChar p.1.toNat).headD 0 ::
        ((refDecomposeChar p.1.toNat).tail ++ [(refDecomposeChar p.2.toNat).headD 0])
        = refDecomposeChar p.1.toNat ++ [(refDecomposeChar p.2.toNat).headD 0] := by
      rw [← List.cons_append, ← a]
    rw [hl]
    generalize (refDecomposeChar p.1.toNat ++ [(refDecomposeChar p.2.toNat).headD 0]).foldl
      refComposeStep { before := [], starter := none, after := [] } = S at g1 g2 g3
    obtain ⟨x, y, z⟩ := S
    simp only at g1 g2 g3
    rw [g1, g2, g3]
  toLower_connector := by decide
  category_connector := by decide

/-! ## The connector in the interpolated sentence -/

theorem length_le_of_isPrefixOf (k : Char) (old A R : GoString) (hk : k ∉ old)
    (h : old.isPrefixOf (A ++ k :: R) = true) : old.length ≤ A.length := by
  induction old generalizing A with
  | nil => simp
  | cons o os ih =>
    simp only [List.mem_cons, not_or] at hk
    cases A with
    | nil =>
      simp only [List.nil_append, List.isPrefixOf, Bool.and_eq_true, beq_iff_eq] at h
      exact absurd h.1.symm hk.1
    | cons a A =>
      simp only [List.cons_append, List.isPrefixOf, Bool.and_eq_true, beq_iff_eq] at h
      simpa using ih A hk.2 h.2

/-- A code point that does not occur in `old` stays where it is, and the
search for `old` starts afresh behind it. -/
theorem replaceAllAux_foreign (k o : Char) (os new R : GoString) (hk : k ∉ o :: os)
    (A : GoString) (skip : Nat) (hs : skip ≤ A.length) :
    ∃ P, replaceAllAux (o :: os) new skip (A ++ k :: R)
      = P ++ k :: replaceAllAux (o :: os) new 0 R := by
  induction A generalizing skip with
  | nil =>
    have h0 : skip = 0 := by simpa using hs
    subst h0
    refine ⟨[], ?_⟩
    have hp : (o :: os).isPrefixOf (k :: R) = false := by
      simp only [List.mem_cons, not_or] at hk
      simp only [List.isPrefixOf, Bool.and_eq_false_imp, beq_iff_eq]
      intro e
      exact absurd e.symm hk.1
    simp only [List.nil_append]
    rw [replaceAllAux, if_neg (by simp [hp])]
  | cons a A ih =>
    cases skip with
    | succ n =>
      obtain ⟨P, hP⟩ := ih n (by simpa using hs)
      exact ⟨P, by simpa [replaceAllAux] using hP⟩
    | zero =>
      by_cases hp : (o :: os).isPrefixOf (a :: (A ++ k :: R)) = true
      · have hl := length_le_of_isPrefixOf k (o :: os) (a :: A) R hk (by simpa using hp)
        obtain ⟨P, hP⟩ := ih ((o :: os).length - 1) (by simp at hl ⊢; omega)
        refine ⟨new ++ P, ?_⟩
        simp only [List.cons_append]
        rw [replaceAllAux, if_pos hp, hP]
        simp
      · obtain ⟨P, hP⟩ := ih 0 (Nat.zero_le _)
        refine ⟨a :: P, ?_⟩
        simp only [List.cons_append]
        rw [replaceAllAux, if_neg hp, hP]

/-- One `ReplaceAll` of the interpolation leaves a text without opening brace in
the sentence, when the text starts with a code point that is in no
placeholder. -/
theorem replaceAll_keeps (old o new : GoString) (hold : old = '{' :: o)
    (k : Char) (mid : GoString) (hk : k ∉ old) (hm : '{' ∉ mid) (X Y : GoString) :
    ∃ X' Y', ReplaceAll (X ++ (k :: mid ++ Y)) old new = X' ++ (k :: mid ++ Y') := by
  subst hold
  obtain ⟨P, hP⟩ := replaceAllAux_foreign k '{' o new (mid ++ Y) hk X 0 (Nat.zero_le _)
  refine ⟨P, replaceAllAux ('{' :: o) new 0 Y, ?_⟩
  have n : ('{' :: o).isEmpty = false := rfl
  simp only [ReplaceAll, n, Bool.false_eq_true, if_false, List.cons_append]
  rw [hP, replaceAllAux_inert _ _ _ _ (inertFor_text o mid hm)]

theorem connector_head :
    ∀ e ∈ templates, connector e.2 = (connector e.2).headD ' ' :: (connector e.2).tail ∧
      (connector e.2).headD ' ' ∉ placeholderChars := by
  decide

theorem connector_letters :
    ∀ e ∈ templates,
      connector e.2 = (connector e.2).takeWhile (fun c => c == ' ') ++ connectorWord e.2 ∧
      connectorWord e.2
        = (connectorWord e.2).headD ' ' :: (connectorWord e.2).tail.headD ' ' ::
          (connectorWord e.2).tail.tail ∧
      ((connectorWord e.2).headD ' ', (connectorWord e.2).tail.headD ' ') ∈ connectorLetters := by
  decide

theorem placeholderChars_subset :
    "{who}".toList ⊆ placeholderChars ∧ "{role}".toList ⊆ placeholderChars ∧
      "{scope}".toList ⊆ placeholderChars := by
  decide

/-- The sentence of a shipped template starts with the flags segment and holds
the connector of the template. -/
theorem interpolate_shape (c : Segments) (e : GoString × GoString) (he : e ∈ templates)
    (ht : c.template = e.2) (hf : '{' ∉ c.flags) :
    ∃ X Y, interpolate c = c.flags ++ (X ++ (connector c.template ++ Y)) := by
  obtain ⟨hshape, hbrace⟩ := templates_shape e he
  obtain ⟨hhead, hforeign⟩ := connector_head e he
  rw [← ht] at hshape hbrace hhead hforeign
  generalize hk : (connector c.template).headD ' ' = k at hhead hforeign
  generalize hmid : (connector c.template).tail = mid at hhead
  have hm : '{' ∉ mid := by
    intro h
    apply hbrace
    rw [hhead]
    exact List.mem_cons_of_mem _ h
  have e1 : "{flags}".toList = '{' :: "{flags}".toList.tail := rfl
  have e2 : "{who}".toList = '{' :: "{who}".toList.tail := rfl
  have e3 : "{role}".toList = '{' :: "{role}".toList.tail := rfl
  have e4 : "{scope}".toList = '{' :: "{scope}".toList.tail := rfl
  have k2 : k ∉ "{who}".toList := fun h => hforeign (placeholderChars_subset.1 h)
  have k3 : k ∉ "{role}".toList := fun h => hforeign (placeholderChars_subset.2.1 h)
  have k4 : k ∉ "{scope}".toList := fun h => hforeign (placeholderChars_subset.2.2 h)
  -- the flags, by the first replacement
  have s1 : ReplaceAll c.template "{flags}".toList c.flags
      = c.flags ++ ("{who}".toList ++ (k :: mid ++ ("{role}".toList ++ "{scope}".toList))) := by
    have := (replaceAll_partialSentence (connector c.template)
      ⟨c.template, c.flags, [], [], []⟩ false false false false hbrace hf
      (by simp) (by simp) (by simp)).1
    simp only [partialSentence, Bool.false_eq_true, if_false, if_true] at this
    rw [← hshape] at this
    rw [this, hhead]
  have step : ∀ (old o new : GoString), old = '{' :: o → k ∉ old → ∀ X Y : GoString,
      ∃ X' Y', ReplaceAll (c.flags ++ (X ++ (k :: mid ++ Y))) old new
        = c.flags ++ (X' ++ (k :: mid ++ Y')) := by
    intro old o new hold hko X Y
    obtain ⟨X', Y', h⟩ := replaceAll_keeps old o new hold k mid hko hm X Y
    refine ⟨X', Y', ?_⟩
    have n : old.isEmpty = false := by rw [hold]; rfl
    simp only [ReplaceAll, n, Bool.false_eq_true, if_false] at h ⊢
    rw [replaceAllAux_inert _ _ _ _ (inertFor_text_of_eq old o c.flags hold hf), h]
  obtain ⟨X2, Y2, h2⟩ := step _ _ c.who e2 k2 "{who}".toList ("{role}".toList ++ "{scope}".toList)
  obtain ⟨X3, Y3, h3⟩ := step _ _ c.role e3 k3 X2 Y2
  obtain ⟨X4, Y4, h4⟩ := step _ _ c.scope e4 k4 X3 Y3
  refine ⟨X4, Y4, ?_⟩
  unfold interpolate
  simp only
  rw [s1, h2, h3, h4, hhead]

/-! ## What survives the normalisation -/

theorem normalizeUnicode_eq_steps (U : UnicodeData) (s : GoString) :
    normalizeUnicode U s = normalizeSteps U (U.nfkc s) := rfl

theorem dropWhile_append_of_mem (p : Char → Bool) (L R : GoString) (k : Char) (hk : k ∈ L)
    (hp : p k = false) : (L ++ R).dropWhile p = L.dropWhile p ++ R := by
  induction L with
  | nil => cases hk
  | cons c cs ih =>
    by_cases hc : p c = true
    · have hk2 : k ∈ cs := by
        rcases List.mem_cons.1 hk with h | h
        · rw [h, hc] at hp; cases hp
        · exact h
      simp only [List.cons_append, List.dropWhile_cons, hc, if_true]
      exact ih hk2
    · simp [List.dropWhile_cons, hc]

theorem mem_dropWhile_of_not (p : Char → Bool) (s : GoString) (k : Char) (hk : k ∈ s)
    (hp : p k = false) : k ∈ s.dropWhile p := by
  induction s with
  | nil => cases hk
  | cons c cs ih =>
    by_cases hc : p c = true
    · have hk2 : k ∈ cs := by
        rcases List.mem_cons.1 hk with h | h
        · rw [h, hc] at hp; cases hp
        · exact h
      simp only [List.dropWhile_cons, hc, if_true]
      exact ih hk2
    · simp only [List.dropWhile_cons, hc, if_false, Bool.false_eq_true]
      exact hk

theorem rdropWhile_append_of_mem (p : Char → Bool) (A T : GoString) (k : Char) (hk : k ∈ T)
    (hp : p k = false) : (A ++ T).rdropWhile p = A ++ T.rdropWhile p := by
  unfold List.rdropWhile
  rw [List.reverse_append, dropWhile_append_of_mem p T.reverse A.reverse k (by simpa using hk) hp]
  simp

theorem mem_rdropWhile_of_not (p : Char → Bool) (s : GoString) (k : Char) (hk : k ∈ s)
    (hp : p k = false) : k ∈ s.rdropWhile p := by
  unfold List.rdropWhile
  rw [List.mem_reverse]
  exact mem_dropWhile_of_not p s.reverse k (by simpa using hk) hp

theorem mem_replaceClass_of_not (cls : Char → Bool) (repl s : GoString) (k : Char)
    (hk : k ∈ s) (hp : cls k = false) : k ∈ replaceClass cls repl s := by
  simp only [replaceClass, List.mem_flatMap]
  exact ⟨k, hk, by simp [hp]⟩

theorem mem_replaceRunsAux_of_not (cls : Char → Bool) (repl s : GoString) (b : Bool) (k : Char)
    (hk : k ∈ s) (hp : cls k = false) : k ∈ replaceRunsAux cls repl b s := by
  induction s generalizing b with
  | nil => cases hk
  | cons c cs ih =>
    rcases List.mem_cons.1 hk with h | h
    · subst h
      simp [replaceRunsAux, hp]
    · by_cases hc : cls c = true
      · cases b <;> simp [replaceRunsAux, hc, ih _ h]
      · simp [replaceRunsAux, hc, ih _ h]

/-- A character that no step of `normalizeUnicode` touches is in the result. -/
theorem mem_normalizeSteps (U : UnicodeData) (t : GoString) (k : Char) (hk : k ∈ t)
    (h1 : punctToSpacePattern U (U.toLower k) = false)
    (h2 : whitespacePattern (U.toLower k) = false)
    (h3 : disallowedPattern U (U.toLower k) = false) :
    U.toLower k ∈ normalizeSteps U t := by
  unfold normalizeSteps replaceRuns
  apply mem_replaceRunsAux_of_not _ _ _ _ _ _ h2
  apply mem_replaceClass_of_not _ _ _ _ _ h3
  unfold stripEdges
  apply mem_rdropWhile_of_not _ _ _ _ h2
  apply mem_dropWhile_of_not _ _ _ _ h2
  apply mem_replaceClass_of_not _ _ _ _ _ h1
  exact List.mem_map_of_mem _ hk

theorem connectorLetters_kept (U : UnicodeData) (hN : U.StandardNfkc) (p : Char × Char)
    (hp : p ∈ connectorLetters) :
    U.toLower p.1 = p.1 ∧ punctToSpacePattern U p.1 = false ∧
      whitespacePattern p.1 = false ∧ disallowedPattern U p.1 = false := by
  have hc := hN.category_connector p hp
  have hl : ∀ q ∈ connectorLetters,
      q.1 ∉ punctLiterals ∧ whitespacePattern q.1 = false := by decide
  simp only [List.mem_cons, List.mem_nil_iff, or_false] at hc
  refine ⟨hN.toLower_connector p hp, ?_, (hl p hp).2, ?_⟩
  · rcases hc with hc | hc <;>
      simp [punctToSpacePattern, hc, punctToSpaceCategories, (hl p hp).1]
  · rcases hc with hc | hc <;> simp [disallowedPattern, hc, disallowedCategories]

/-- The sentence of a successful call: the flags segment, and behind it a text
that holds the first two letters of a connector word. -/
theorem sentence_shape (lang flags who role scope : GoString) (c : Segments)
    (h : prepare lang flags who role scope = .ok c) :
    ∃ X Y p, p ∈ connectorLetters ∧ interpolate c = c.flags ++ (X ++ p.1 :: p.2 :: Y) := by
  obtain ⟨ht, hf, -, -, -⟩ := prepare_ok_inv lang flags who role scope c h
  have he := mem_of_lookup_eq_some templates lang c.template ht
  have hfb : '{' ∉ c.flags := by
    rcases hf with hf | ⟨hd, hf⟩
    · rw [hf]; simp
    · rw [hf]; exact sortedDigits_no_brace _ hd
  obtain ⟨X, Y, hXY⟩ := interpolate_shape c (lang, c.template) he rfl hfb
  obtain ⟨a, b, d⟩ := connector_letters (lang, c.template) he
  simp only at a b d
  refine ⟨X ++ (connector c.template).takeWhile (fun c => c == ' '),
    (connectorWord c.template).tail.tail ++ Y, _, d, ?_⟩
  rw [hXY]
  conv_lhs => rw [a, b]
  simp

theorem prepare_ok_flags (lang flags who role scope : GoString) (c : Segments)
    (h : prepare lang flags who role scope = .ok c) :
    (TrimSpace flags = [] ∧ c.flags = []) ∨
      (allDigits (TrimSpace flags) = true ∧ c.flags = sortedDigits (TrimSpace flags) ++ [' ']) := by
  obtain ⟨-, hf, -, -, -⟩ := prepare_ok_inv lang flags who role scope c h
  rcases hf with hf | hf
  · by_cases he : TrimSpace flags = []
    · exact Or.inl ⟨he, hf⟩
    · exfalso
      by_cases hr : TrimSpace role = []
      · rw [prepare_emptyRole _ _ _ _ _ hr] at h; cases h
      by_cases hd : allDigits (TrimSpace flags) = true
      swap
      · rw [prepare_invalidFlags _ _ _ _ _ hr he (by simpa using hd)] at h; cases h
      by_cases hl : len (TrimSpace flags) ≤ 10
      swap
      · rw [prepare_flagsTooLong _ _ _ _ _ hr (Or.inr hd) (by omega)] at h; cases h
      rw [prepare_valid _ _ _ _ _ hr (Or.inr hd) hl] at h
      cases hp : pronounTranslations.lookup lang <;> cases ht : templates.lookup lang <;>
        cases hs : scopeTemplates.lookup lang <;>
        by_cases hw : TrimSpace who = [] <;> by_cases hsc : TrimSpace scope = [] <;>
        simp only [hp, ht, hs, hw, hsc, he, if_true, if_false, Except.bind, reduceCtorEq,
          Except.ok.injEq] at h <;>
        (subst h
         simp at hf)
  · exact Or.inr hf

/-! ## C19: a successful alias is not empty -/

/-- C19. Over a Unicode database with the standard normalisation of the
connector letters, every alias that `CreateAlias` returns is a non-empty text:
it holds the first letter of the connector word of a sentence template, which
no step of `normalizeUnicode` touches.  `normalizeUnicode` on its own returns
the empty text for the punctuation-only inputs "?!" and "...". -/
theorem alias_nonempty :
    (∀ (U : UnicodeData), U.StandardNfkc →
      ∀ (lang flags who role scope a : GoString),
        CreateAlias U lang flags who role scope = .ok a →
        a ≠ [] ∧ ∃ p ∈ connectorLetters, p.1 ∈ a) ∧
    normalizeUnicode refUnicode "?!".toList = [] ∧
    normalizeUnicode refUnicode "...".toList = [] := by
  refine ⟨?_, by decide, by decide⟩
  intro U hN lang flags who role scope a h
  cases hp : prepare lang flags who role scope with
  | error e => rw [CreateAlias_of_error U _ _ _ _ _ e hp] at h; cases h
  | ok c =>
    rw [CreateAlias_of_ok U _ _ _ _ _ c hp] at h
    simp only [Except.ok.injEq] at h
    obtain ⟨X, Y, p, hpl, hs⟩ := sentence_shape lang flags who role scope c hp
    obtain ⟨k1, k2, k3, k4⟩ := connectorLetters_kept U hN p hpl
    have hmem : p.1 ∈ U.nfkc (interpolate c) := by
      rw [hs, ← List.append_assoc, hN.nfkc_connector p hpl]
      simp
    have := mem_normalizeSteps U _ p.1 hmem (by rw [k1]; exact k2) (by rw [k1]; exact k3)
      (by rw [k1]; exact k4)
    rw [k1, ← normalizeUnicode_eq_steps, h] at this
    exact ⟨List.ne_nil_of_mem this, p, hpl, this⟩

/-- Witness of C19: an alias in Japanese whose fields are deleted altogether is
the connector word. -/
theorem alias_nonempty_witness :
    CreateAlias refUnicode "ja".toList "".toList "?".toList "!".toList "".toList
      = .ok "として".toList ∧
    ("として".toList ≠ [] ∧ ∃ p ∈ connectorLetters, p.1 ∈ "として".toList) :=
  ⟨by decide,
   alias_nonempty.1 refUnicode refUnicode_standardNfkc "ja".toList "".toList "?".toList
    "!".toList "".toList "として".toList (by decide)⟩

/-! ## C15: the flags segment -/

theorem nfkc_flags (U : UnicodeData) (hN : U.StandardNfkc) (F t : GoString)
    (hF : ∀ c ∈ F, c ∈ ' ' :: asciiDigits) : U.nfkc (F ++ t) = F ++ U.nfkc t := by
  induction F with
  | nil => rfl
  | cons c cs ih =>
    rw [List.cons_append, hN.nfkc_digit_space c (hF c (List.mem_cons_self _ _)),
      ih (fun d hd => hF d (List.mem_cons_of_mem _ hd))]
    rfl

theorem head?_replaceRunsAux_true (s : GoString) (hs : '-' ∉ s) :
    (replaceRunsAux whitespacePattern "-".toList true s).head? ≠ some '-' := by
  induction s with
  | nil => simp [replaceRunsAux]
  | cons c cs ih =>
    simp only [List.mem_cons, not_or] at hs
    by_cases hc : whitespacePattern c = true
    · simp only [replaceRunsAux, hc, if_true]
      exact ih hs.2
    · simp only [replaceRunsAux, hc, if_false, Bool.false_eq_true, List.head?_cons, ne_eq,
        Option.some.injEq]
      exact fun e => hs.1 e.symm

theorem digit_kept (U : UnicodeData) (hA : U.StandardAscii) (d : Char) (hd : d ∈ asciiDigits) :
    U.toLower d = d ∧ punctToSpacePattern U d = false ∧ whitespacePattern d = false ∧
      disallowedPattern U d = false := by
  have hw : ∀ e ∈ asciiDigits, e ∉ punctLiterals ∧ whitespacePattern e = false := by decide
  have hc := hA.category_digit d hd
  refine ⟨hA.toLower_digit d hd, ?_, (hw d hd).2, ?_⟩
  · simp [punctToSpacePattern, hc, punctToSpaceCategories, (hw d hd).1]
  · simp [disallowedPattern, hc, disallowedCategories]

/-- The collapse of a text that follows other text differs from the collapse of
the text after white space by at most a hyphen at the start. -/
theorem replaceRunsAux_false_or (cls : Char → Bool) (R : GoString) :
    replaceRunsAux cls "-".toList false R = replaceRunsAux cls "-".toList true R ∨
    replaceRunsAux cls "-".toList false R = '-' :: replaceRunsAux cls "-".toList true R := by
  cases R with
  | nil => left; rfl
  | cons c cs =>
    by_cases hc : cls c = true
    · right
      simp [replaceRunsAux, hc]
    · left
      simp [replaceRunsAux, hc]

theorem rdropWhile_eq_takeWhile_append (p : Char → Bool) (L : GoString) (k : Char)
    (hk : k ∈ L) (hp : p k = false) :
    L.rdropWhile p = L.takeWhile p ++ (L.dropWhile p).rdropWhile p := by
  have h := rdropWhile_append_of_mem p (L.takeWhile p) (L.dropWhile p) k
    (mem_dropWhile_of_not p L k hk hp) hp
  rw [List.takeWhile_append_dropWhile] at h
  exact h

/-- Steps 2 to 6 of `normalizeUnicode` on a text that starts with digits and a
space: the digits stay, and one hyphen takes the place of the space and of the
white space after it.  What follows the hyphen is the result of the steps on
the text without the digits and the space, less a hyphen at its start. -/
theorem normalizeSteps_flags (U : UnicodeData) (hU : U.Standard) (hA : U.StandardAscii)
    (F T : GoString) (hF : ∀ c ∈ F, c ∈ asciiDigits) (hne : F ≠ []) (k : Char) (hk : k ∈ T)
    (h1 : punctToSpacePattern U (U.toLower k) = false)
    (h2 : whitespacePattern (U.toLower k) = false)
    (h3 : disallowedPattern U (U.toLower k) = false) :
    ∃ rest, normalizeSteps U (F ++ ' ' :: T) = F ++ '-' :: rest ∧ rest ≠ [] ∧
      rest.head? ≠ some '-' ∧
      (normalizeSteps U T = rest ∨ normalizeSteps U T = '-' :: rest) := by
  have hsp : punctToSpacePattern U ' ' = false := by
    have : ' ' ∉ punctLiterals := by decide
    simp [punctToSpacePattern, hU.category_space, punctToSpaceCategories, this]
  have hFp : ∀ c ∈ F, punctToSpacePattern U c = false := fun c hc => (digit_kept U hA c (hF c hc)).2.1
  have hFw : ∀ c ∈ F, whitespacePattern c = false := fun c hc => (digit_kept U hA c (hF c hc)).2.2.1
  have hFd : ∀ c ∈ F, disallowedPattern U c = false := fun c hc => (digit_kept U hA c (hF c hc)).2.2.2
  have hFl : F.map U.toLower = F := by
    calc F.map U.toLower = F.map id := by
          apply List.map_congr_left
          intro d hd
          exact (digit_kept U hA d (hF d hd)).1
      _ = F := List.map_id F
  have h0 : normalizeSteps U T
      = replaceRunsAux whitespacePattern "-".toList false
          (replaceClass (disallowedPattern U) []
            (((replaceClass (punctToSpacePattern U) " ".toList (ToLower U T)).dropWhile
              whitespacePattern).rdropWhile whitespacePattern)) := rfl
  -- steps 2 and 3
  have e3 : replaceClass (punctToSpacePattern U) " ".toList (ToLower U (F ++ ' ' :: T))
      = F ++ ' ' :: replaceClass (punctToSpacePattern U) " ".toList (ToLower U T) := by
    unfold ToLower
    rw [List.map_append, List.map_cons, hFl, hA.toLower_space, replaceClass_append,
      replaceClass_eq_self _ _ F hFp, replaceClass_cons, hsp]
    rfl
  have hk3 : U.toLower k ∈ replaceClass (punctToSpacePattern U) " ".toList (ToLower U T) :=
    mem_replaceClass_of_not _ _ _ _ (List.mem_map_of_mem _ hk) h1
  generalize replaceClass (punctToSpacePattern U) " ".toList (ToLower U T) = T3 at h0 e3 hk3
  -- step 4
  have e4 : stripEdges (F ++ ' ' :: T3)
      = F ++ ' ' :: T3.rdropWhile whitespacePattern := by
    unfold stripEdges
    have hd : (F ++ ' ' :: T3).dropWhile whitespacePattern = F ++ ' ' :: T3 := by
      cases F with
      | nil => exact absurd rfl hne
      | cons a as =>
        simp [List.dropWhile_cons, hFw a (List.mem_cons_self _ _)]
    rw [hd]
    have := rdropWhile_append_of_mem whitespacePattern (F ++ [' ']) T3 _ hk3 h2
    simpa using this
  have hsplit := rdropWhile_eq_takeWhile_append whitespacePattern T3 _ hk3 h2
  have hk4 : U.toLower k ∈ (T3.dropWhile whitespacePattern).rdropWhile whitespacePattern :=
    mem_rdropWhile_of_not _ _ _ (mem_dropWhile_of_not _ _ _ hk3 h2) h2
  generalize (T3.dropWhile whitespacePattern).rdropWhile whitespacePattern = T4 at h0 hsplit hk4
  -- step 5
  have e5 : replaceClass (disallowedPattern U) [] (F ++ ' ' :: T3.rdropWhile whitespacePattern)
      = F ++ ' ' :: (replaceClass (disallowedPattern U) [] (T3.takeWhile whitespacePattern)
          ++ replaceClass (disallowedPattern U) [] T4) := by
    rw [replaceClass_append, replaceClass_eq_self _ _ F hFd, replaceClass_cons,
      disallowed_space U hU, hsplit, replaceClass_append]
    rfl
  have hw5 : ∀ c ∈ replaceClass (disallowedPattern U) [] (T3.takeWhile whitespacePattern),
      whitespacePattern c = true := by
    intro c hc
    exact List.mem_takeWhile_imp ((mem_replaceClass_nil _ _ _).1 hc).1
  have hk5 : U.toLower k ∈ replaceClass (disallowedPattern U) [] T4 :=
    mem_replaceClass_of_not _ _ _ _ hk4 h3
  have hh5 : '-' ∉ replaceClass (disallowedPattern U) [] T4 := by
    intro hm
    have := ((mem_replaceClass_nil _ _ _).1 hm).2
    rw [disallowed_hyphen U hU] at this
    cases this
  -- step 6
  refine ⟨replaceRunsAux whitespacePattern "-".toList true
    (replaceClass (disallowedPattern U) [] T4), ?_,
    List.ne_nil_of_mem (mem_replaceRunsAux_of_not _ _ _ _ _ hk5 h2),
    head?_replaceRunsAux_true _ hh5, ?_⟩
  · unfold normalizeSteps
    rw [e3, e4, e5]
    unfold replaceRuns
    rw [replaceRunsAux_word _ _ F _ false hFw hne]
    have hrun := replaceRunsAux_run whitespacePattern "-".toList _
      (replaceClass (disallowedPattern U) [] T4) hw5
    simp only [replaceRunsAux, whitespacePattern, beq_self_eq_true, Bool.or_true, if_true,
      Bool.false_eq_true, if_false] at hrun ⊢
    rw [hrun]
    rfl
  · rw [h0]
    exact replaceRunsAux_false_or _ _

theorem templates_first_placeholder :
    ∀ e ∈ templates, e.2 = "{flags}".toList ++ e.2.drop 7 ∧
      e.2.drop 7 = "{who}".toList ++ (connector e.2 ++
        ("{role}".toList ++ "{scope}".toList)) := by
  decide

/-- The sentence of a shipped template is the flags segment followed by the
interpolation of the template without `{flags}`. -/
theorem interpolate_flags (c : Segments) (e : GoString × GoString) (he : e ∈ templates)
    (ht : c.template = e.2) (hf : '{' ∉ c.flags) :
    interpolate c = c.flags ++
      ReplaceAll (ReplaceAll (ReplaceAll (c.template.drop 7) "{who}".toList c.who)
        "{role}".toList c.role) "{scope}".toList c.scope := by
  obtain ⟨hshape, hbrace⟩ := templates_shape e he
  have hd := (templates_first_placeholder e he).2
  rw [← ht] at hshape hbrace hd
  have e2 : "{who}".toList = '{' :: "{who}".toList.tail := rfl
  have e3 : "{role}".toList = '{' :: "{role}".toList.tail := rfl
  have e4 : "{scope}".toList = '{' :: "{scope}".toList.tail := rfl
  have s1 : ReplaceAll c.template "{flags}".toList c.flags = c.flags ++ c.template.drop 7 := by
    have := (replaceAll_partialSentence (connector c.template)
      ⟨c.template, c.flags, [], [], []⟩ false false false false hbrace hf
      (by simp) (by simp) (by simp)).1
    simp only [partialSentence, Bool.false_eq_true, if_false, if_true] at this
    rw [← hshape] at this
    rw [this, hd]
  have step : ∀ (old o new Z : GoString), old = '{' :: o →
      ReplaceAll (c.flags ++ Z) old new = c.flags ++ ReplaceAll Z old new := by
    intro old o new Z hold
    have n : old.isEmpty = false := by rw [hold]; rfl
    simp only [ReplaceAll, n, Bool.false_eq_true, if_false]
    exact replaceAllAux_inert _ _ _ _ (inertFor_text_of_eq old o c.flags hold hf)
  unfold interpolate
  simp only
  rw [s1, step _ _ _ _ e2, step _ _ _ _ e3, step _ _ _ _ e4]

/-- A successful call succeeds without its flags as well, with the same
template, speaker, role and scope segment. -/
theorem prepare_without_flags (lang flags who role scope : GoString) (c : Segments)
    (h : prepare lang flags who role scope = .ok c) :
    prepare lang [] who role scope = .ok { c with flags := [] } := by
  by_cases hr : TrimSpace role = []
  · rw [prepare_emptyRole _ _ _ _ _ hr] at h; cases h
  by_cases hf : TrimSpace flags = [] ∨ allDigits (TrimSpace flags) = true
  swap
  · have hf1 : TrimSpace flags ≠ [] := fun e => hf (Or.inl e)
    have hf2 : allDigits (TrimSpace flags) = false := by
      cases hd : allDigits (TrimSpace flags) with
      | false => rfl
      | true => exact absurd (Or.inr hd) hf
    rw [prepare_invalidFlags _ _ _ _ _ hr hf1 hf2] at h; cases h
  by_cases hl : len (TrimSpace flags) ≤ 10
  swap
  · rw [prepare_flagsTooLong _ _ _ _ _ hr hf (by omega)] at h; cases h
  have t0 : TrimSpace ([] : GoString) = [] := rfl
  rw [prepare_valid _ _ _ _ _ hr hf hl] at h
  rw [prepare_valid lang [] who role scope hr (Or.inl t0) (by rw [t0]; decide)]
  cases hp : pronounTranslations.lookup lang <;> cases ht : templates.lookup lang <;>
    cases hs : scopeTemplates.lookup lang <;>
    by_cases hw : TrimSpace who = [] <;> by_cases hsc : TrimSpace scope = [] <;>
    simp only [hp, ht, hs, hw, hsc, t0, if_true, if_false, Except.bind, reduceCtorEq,
      Except.ok.injEq] at h ⊢ <;>
    (subst h
     rfl)

/-- C15. Over a standard Unicode database, let a call of `CreateAlias` succeed
with the alias `a`.  With non-empty flags, `a` is a text `digits`, one hyphen,
and a non-empty rest that does not start with a hyphen, where `digits` holds
exactly the characters of the trimmed flags (a permutation of them, all ASCII
digits) in ascending order; the rest is the alias of the same call without
flags, less the hyphen that this alias has at its start when the speaker
begins with a deleted sign.  With empty flags the sentence has no flags
segment: `a` is the normalisation of the template without `{flags}`, filled
with the speaker, the role and the scope.  The example is that of the
specification. -/
theorem flags_segment :
    (∀ (U : UnicodeData), U.Standard → U.StandardAscii → U.StandardNfkc →
      ∀ (lang flags who role scope a : GoString),
        CreateAlias U lang flags who role scope = .ok a →
        (TrimSpace flags ≠ [] →
          ∃ digits rest, a = digits ++ '-' :: rest ∧
            digits.Perm (TrimSpace flags) ∧
            digits.Sorted (fun x y => x.toNat ≤ y.toNat) ∧
            (∀ d ∈ digits, d ∈ asciiDigits) ∧
            rest ≠ [] ∧ rest.head? ≠ some '-' ∧
            (CreateAlias U lang [] who role scope = .ok rest ∨
              CreateAlias U lang [] who role scope = .ok ('-' :: rest))) ∧
        (TrimSpace flags = [] →
          ∃ c, prepare lang flags who role scope = .ok c ∧
            c.template = "{flags}".toList ++ c.template.drop 7 ∧
            a = normalizeUnicode U
              (ReplaceAll (ReplaceAll (ReplaceAll (c.template.drop 7) "{who}".toList c.who)
                "{role}".toList c.role) "{scope}".toList c.scope))) ∧
    CreateAlias refUnicode "en".toList "31".toList "".toList "admin".toList "".toList
      = .ok "13-me-as-admin".toList := by
  refine ⟨?_, by decide⟩
  intro U hU hA hN lang flags who role scope a h
  cases hp : prepare lang flags who role scope with
  | error e => rw [CreateAlias_of_error U _ _ _ _ _ e hp] at h; cases h
  | ok c =>
    rw [CreateAlias_of_ok U _ _ _ _ _ c hp] at h
    simp only [Except.ok.injEq] at h
    obtain ⟨ht, -⟩ := prepare_ok_inv lang flags who role scope c hp
    have hmem := mem_of_lookup_eq_some templates lang c.template ht
    -- the call without flags
    have hp0 := prepare_without_flags lang flags who role scope c hp
    have hs0 := interpolate_flags { c with flags := [] } (lang, c.template) hmem rfl (by simp)
    simp only [List.nil_append] at hs0
    obtain ⟨X, Y, p, hpl, hshape⟩ := sentence_shape lang [] who role scope _ hp0
    simp only [List.nil_append] at hshape
    obtain ⟨k1, k2, k3, k4⟩ := connectorLetters_kept U hN p hpl
    constructor
    · intro hne
      rcases prepare_ok_flags lang flags who role scope c hp with ⟨he, -⟩ | ⟨hd, hf⟩
      · exact absurd he hne
      · have hperm : (sortedDigits (TrimSpace flags)).Perm (TrimSpace flags) :=
          List.perm_insertionSort _ _
        have hsorted : (sortedDigits (TrimSpace flags)).Sorted
            (fun x y : Char => x.toNat ≤ y.toNat) := by
          haveI : IsTotal Char (fun a b => a.toNat ≤ b.toNat) :=
            ⟨fun a b => Nat.le_total a.toNat b.toNat⟩
          haveI : IsTrans Char (fun a b => a.toNat ≤ b.toNat) :=
            ⟨fun _ _ _ h1 h2 => Nat.le_trans h1 h2⟩
          exact List.sorted_insertionSort _ _
        have hdig : ∀ d ∈ sortedDigits (TrimSpace flags), d ∈ asciiDigits := by
          intro d hd'
          exact ((allDigits_iff _).1 hd).2 d (hperm.mem_iff.1 hd')
        have hsne : sortedDigits (TrimSpace flags) ≠ [] := by
          intro e
          rw [e] at hperm
          exact hne hperm.nil_eq.symm
        have hfb : '{' ∉ c.flags := by
          rw [hf]; exact sortedDigits_no_brace _ hd
        have hs := interpolate_flags c (lang, c.template) hmem rfl hfb
        have hs0' : interpolate { c with flags := [] }
            = ReplaceAll (ReplaceAll (ReplaceAll (c.template.drop 7) "{who}".toList c.who)
                "{role}".toList c.role) "{scope}".toList c.scope := hs0
        rw [← hs0'] at hs
        have hn : U.nfkc (interpolate c)
            = sortedDigits (TrimSpace flags) ++ ' ' ::
              U.nfkc (interpolate { c with flags := [] }) := by
          rw [hs, hf, nfkc_flags U hN _ _ (by
            intro d hd'
            rcases List.mem_append.1 hd' with h1 | h1
            · exact List.mem_cons_of_mem _ (hdig d h1)
            · rw [List.mem_singleton.1 h1]; exact List.mem_cons_self _ _)]
          simp
        have hk : p.1 ∈ U.nfkc (interpolate { c with flags := [] }) := by
          rw [hshape, hN.nfkc_connector p hpl]
          simp
        obtain ⟨rest, hr, hr1, hr2, hr3⟩ := normalizeSteps_flags U hU hA
          (sortedDigits (TrimSpace flags)) (U.nfkc (interpolate { c with flags := [] }))
          hdig hsne p.1 hk (by rw [k1]; exact k2) (by rw [k1]; exact k3) (by rw [k1]; exact k4)
        refine ⟨sortedDigits (TrimSpace flags), rest, ?_, hperm, hsorted, hdig, hr1, hr2, ?_⟩
        · rw [← h, normalizeUnicode_eq_steps, hn, hr]
        · rw [CreateAlias_of_ok U _ _ _ _ _ _ hp0, normalizeUnicode_eq_steps]
          rcases hr3 with e | e
          · left; rw [e]
          · right; rw [e]
    · intro he
      rcases prepare_ok_flags lang flags who role scope c hp with ⟨-, hf⟩ | ⟨hd, -⟩
      · refine ⟨c, rfl, (templates_first_placeholder _ hmem).1, ?_⟩
        have hs := interpolate_flags c (lang, c.template) hmem rfl (by rw [hf]; simp)
        rw [hf, List.nil_append] at hs
        rw [← h, hs]
      · rw [he] at hd
        cases hd

/-- Witness of C15: the example of the specification, flags that are given in
descending order, and a speaker that begins with a deleted sign, where the
alias without flags starts with a hyphen. -/
theorem flags_segment_witness :
    (∃ digits rest, "13-me-as-admin".toList = digits ++ '-' :: rest ∧
      digits.Perm (TrimSpace "31".toList) ∧
      digits.Sorted (fun x y => x.toNat ≤ y.toNat) ∧
      (∀ d ∈ digits, d ∈ asciiDigits) ∧
      rest ≠ [] ∧ rest.head? ≠ some '-' ∧
      (CreateAlias refUnicode "en".toList [] "".toList "admin".toList "".toList = .ok rest ∨
        CreateAlias refUnicode "en".toList [] "".toList "admin".toList "".toList
          = .ok ('-' :: rest))) ∧
    CreateAlias refUnicode "en".toList "".toList "".toList "admin".toList "".toList
      = .ok "me-as-admin".toList ∧
    CreateAlias refUnicode "fr".toList " 9071 ".toList "-$ Zoé".toList "Chef".toList "".toList
      = .ok "0179-zoé-comme-chef".toList ∧
    CreateAlias refUnicode "en".toList "321".toList "$ x".toList "admin".toList "".toList
      = .ok "123-x-as-admin".toList ∧
    CreateAlias refUnicode "en".toList "".toList "$ x".toList "admin".toList "".toList
      = .ok "-x-as-admin".toList :=
  ⟨((flags_segment.1 refUnicode refUnicode_standard refUnicode_standardAscii
      refUnicode_standardNfkc "en".toList "31".toList "".toList "admin".toList "".toList
      "13-me-as-admin".toList (by decide)).1 (by decide)),
   by decide, by decide, by decide, by decide⟩

end Coia
